import Mathlib

/-!
Verification of the CIDR set-algebra core of `asn-threat-feeds`
(`scripts/exclusions.py` and `scripts/build_multi_asn_feeds.py`).

Networks are modelled as records carrying the address family version
(4 or 6), the base address as a natural number and the prefix length,
mirroring `ipaddress.IPv4Network`/`IPv6Network`.  The Python standard
library operations the scripts call (`subnet_of`, `address_exclude`,
`collapse_addresses` with all of its helpers) are embedded faithfully,
including the `TypeError` raised on mixed-family input, which is
modelled by returning `none`.
-/

namespace ASNFeeds

/-- Address width of a family: 32 bits for IPv4, 128 for IPv6
(`_max_prefixlen` in `ipaddress`). -/
def widthOf (v : Nat) : Nat := if v = 4 then 32 else 128

/-- An IP network: family version, base address, prefix length
(`IPv4Network` / `IPv6Network`).  Python networks compare equal iff
family, network address and prefix length all agree, which coincides
with structural equality here. -/
structure Network where
  version : Nat
  addr : Nat
  prefixlen : Nat
deriving DecidableEq

namespace Network

/-- `_max_prefixlen` of this network's family. -/
def width (n : Network) : Nat := widthOf n.version

/-- Number of addresses covered by the network. -/
def size (n : Network) : Nat := 2 ^ (n.width - n.prefixlen)

/-- `broadcast_address`, as a number: the last covered address. -/
def broadcast (n : Network) : Nat := n.addr + n.size - 1

/-- The values reachable from `ipaddress.ip_network`: a real family,
a prefix length within the family width, the whole block inside the
address space, and no host bits set (canonical base address). -/
def Valid (n : Network) : Prop :=
  (n.version = 4 ∨ n.version = 6) ∧ n.prefixlen ≤ n.width ∧
    n.addr + n.size ≤ 2 ^ n.width ∧ n.size ∣ n.addr

instance : DecidablePred Valid := fun n => by
  unfold Valid; infer_instance

/-- Address `a` lies in the block of `n`. -/
def inRange (n : Network) (a : Nat) : Prop :=
  n.addr ≤ a ∧ a < n.addr + n.size

instance (n : Network) (a : Nat) : Decidable (n.inRange a) := by
  unfold inRange; infer_instance

end Network

/-- `a.subnet_of(b)` from `ipaddress`:
`b.network_address <= a.network_address and
 b.broadcast_address >= a.broadcast_address`.
Both scripts only ever invoke it on same-family networks (the family
mismatch case is short-circuited before the call), so the `TypeError`
branch of the Python method is unreachable and not modelled. -/
def subnet_of (a b : Network) : Bool :=
  decide (b.addr ≤ a.addr) && decide (a.broadcast ≤ b.broadcast)

/-- `self.subnets()` for a non-host network: the two halves at
prefix length + 1. -/
def subnetsOf (n : Network) : Network × Network :=
  (⟨n.version, n.addr, n.prefixlen + 1⟩,
   ⟨n.version, n.addr + 2 ^ (n.width - (n.prefixlen + 1)), n.prefixlen + 1⟩)

/-- `self.supernet()`: the parent network one prefix bit shorter; a
`/0` network is its own supernet, exactly as in `ipaddress`. -/
def supernet (n : Network) : Network :=
  if n.prefixlen = 0 then n
  else ⟨n.version, n.addr - n.addr % 2 ^ (n.width - (n.prefixlen - 1)), n.prefixlen - 1⟩

/-- The loop of `_BaseNetwork.address_exclude`: from the two halves
`s1, s2` of the current block, yield the half not containing `other`
and descend into the containing half, until a half equals `other`.
The fuel argument only bounds the recursion and is always sufficient
at call sites (the prefix-length gap is at most the address width).
The `AssertionError` branches of the Python code are unreachable for
canonical networks and modelled as `[]`. -/
def addressExcludeAux (other : Network) : Nat → Network → Network → List Network
  | 0, s1, s2 =>
    if s1 = other then [s2] else if s2 = other then [s1] else []
  | fuel + 1, s1, s2 =>
    if s1 = other then [s2]
    else if s2 = other then [s1]
    else if subnet_of other s1 then
      s2 :: addressExcludeAux other fuel (subnetsOf s1).1 (subnetsOf s1).2
    else if subnet_of other s2 then
      s1 :: addressExcludeAux other fuel (subnetsOf s2).1 (subnetsOf s2).2
    else []

/-- `self.address_exclude(other)`, called in the scripts only under the
guard `other.subnet_of(self)`: removing `self` itself yields nothing,
otherwise the sibling-splitting loop runs starting from the halves of
`self`. -/
def address_exclude (n other : Network) : List Network :=
  if other = n then []
  else addressExcludeAux other n.width (subnetsOf n).1 (subnetsOf n).2

/-- The body of the inner loop of `_subtract_one` for one residual
piece `r` and one exclusion `ex`: split when `ex` is inside `r`, drop
`r` when it is covered by `ex`, keep it otherwise. -/
def subtractPiece (ex r : Network) : List Network :=
  if subnet_of ex r then address_exclude r ex
  else if subnet_of r ex || r = ex then []
  else [r]

/-- The exclusion fold of `_subtract_one`: apply each exclusion to the
whole working list, skip family mismatches against the original
network and stop as soon as nothing remains. -/
def subtractLoop (net : Network) : List Network → List Network → List Network
  | result, [] => result
  | result, ex :: rest =>
    if net.version ≠ ex.version then subtractLoop net result rest
    else
      let newResult := result.flatMap (subtractPiece ex)
      if newResult.isEmpty then newResult else subtractLoop net newResult rest

/-- `_subtract_one(net, excludes)` (identical in both scripts):
subtract multiple exclusion networks from a single network. -/
def subtract_one (net : Network) (excludes : List Network) : List Network :=
  subtractLoop net [net] excludes

/-- `_count_righthand_zero_bits(number, bits)`: trailing zero bits of
`number`, capped at `bits`; by convention `bits` when `number = 0`. -/
def crzBits : Nat → Nat → Nat
  | 0, _ => 0
  | bits + 1, number => if number % 2 = 0 then crzBits bits (number / 2) + 1 else 0

/-- The loop of `summarize_address_range(first, last)` for family `v`
of width `w`: emit the largest aligned block starting at `first` that
fits in the remaining range, and continue past it.  `(x).bit_length()
- 1` for positive `x` is `Nat.log2 x`. -/
def summarize (v w last : Nat) (first : Nat) : List Network :=
  if h : first ≤ last then
    let nbits := min (crzBits w first) (Nat.log2 (last - first + 1))
    ⟨v, first, w - nbits⟩ ::
      (if first + 2 ^ nbits - 1 = 2 ^ w - 1 then []
       else summarize v w last (first + 2 ^ nbits))
  else []
termination_by last + 1 - first
decreasing_by
  have h1 : 1 ≤ 2 ^ (min (crzBits w first) (Nat.log2 (last - first + 1))) :=
    Nat.one_le_two_pow
  omega

/-- The loop of `_find_address_range`: split a sorted deduplicated
address list into maximal runs of consecutive addresses, returned as
(first, last) pairs. -/
def findRangesAux (first last : Nat) : List Nat → List (Nat × Nat)
  | [] => [(first, last)]
  | ip :: rest =>
    if ip ≠ last + 1 then (first, last) :: findRangesAux ip ip rest
    else findRangesAux first ip rest

/-- `_find_address_range(addresses)` on a nonempty sorted list. -/
def findRanges : List Nat → List (Nat × Nat)
  | [] => []
  | a :: rest => findRangesAux a a rest

/-- `sorted(set(l))` on addresses: the sorted duplicate-free list. -/
def sortedDedup (l : List Nat) : List Nat :=
  l.dedup.mergeSort (fun a b => a ≤ b)

/-- The partition loop at the top of `collapse_addresses`: host
networks (full prefix length) go to the address bucket, the rest to
the network bucket; appending an element of a family different from
the bucket's last element raises `TypeError` (modelled as `none`).
Buckets are accumulated in reverse. -/
def partitionLoop : List Network → List (Nat × Nat) → List Network →
    Option (List (Nat × Nat) × List Network)
  | [], ipsR, netsR => some (ipsR.reverse, netsR.reverse)
  | n :: rest, ipsR, netsR =>
    if n.prefixlen = n.width then
      match ipsR with
      | p :: _ =>
        if p.1 ≠ n.version then none
        else partitionLoop rest ((n.version, n.addr) :: ipsR) netsR
      | [] => partitionLoop rest [(n.version, n.addr)] netsR
    else
      match netsR with
      | m :: _ =>
        if m.version ≠ n.version then none
        else partitionLoop rest ipsR (n :: netsR)
      | [] => partitionLoop rest ipsR (n :: netsR)

/-- Dictionary lookup on the association list modelling the `subnets`
dict of `_collapse_addresses_internal`. -/
def dictGet (d : List (Network × Network)) (k : Network) : Option Network :=
  (d.find? (fun p => p.1 = k)).map Prod.snd

/-- The merge loop of `_collapse_addresses_internal`: pop a network,
insert it under its supernet, drop exact duplicates, and replace a
sibling pair by their common supernet (re-queued for further merging).
`none` models running out of fuel, which never happens for the fuel
supplied by `collapseInternal`. -/
def mergeLoop : Nat → List Network → List (Network × Network) →
    Option (List (Network × Network))
  | 0, _, _ => none
  | _ + 1, [], d => some d
  | fuel + 1, net :: rest, d =>
    match dictGet d (supernet net) with
    | none => mergeLoop fuel rest (d ++ [(supernet net, net)])
    | some existing =>
      if existing = net then mergeLoop fuel rest d
      else mergeLoop fuel (supernet net :: rest) (d.filter (fun p => p.1 ≠ supernet net))

/-- Fuel that strictly dominates the decreasing measure of the merge
loop. -/
def mergeFuel (l : List Network) : Nat :=
  (l.map (fun n => n.prefixlen + 2)).sum + 1

/-- All networks of the list belong to one family. -/
def sameVersion : List Network → Bool
  | [] => true
  | n :: rest => rest.all (fun m => m.version == n.version)

/-- `sorted()` of networks uses `__lt__`: network address first, then
netmask (equivalently prefix length).  Mixed families raise; the check
is performed by the caller. -/
def netLE (a b : Network) : Bool :=
  decide (a.addr < b.addr) || (decide (a.addr = b.addr) && decide (a.prefixlen ≤ b.prefixlen))

/-- The subsumption sweep at the end of `_collapse_addresses_internal`:
over the sorted list, skip any network whose broadcast address does
not exceed the broadcast address of the last emitted network. -/
def sweepAux : Network → List Network → List Network
  | _, [] => []
  | last, n :: rest =>
    if n.broadcast ≤ last.broadcast then sweepAux last rest
    else n :: sweepAux n rest

/-- The full subsumption sweep (the first element is always emitted). -/
def sweep : List Network → List Network
  | [] => []
  | n :: rest => n :: sweepAux n rest

/-- `_collapse_addresses_internal(addresses)`: the merge loop followed
by `sorted` (which raises `TypeError`, i.e. `none`, on mixed families)
and the subsumption sweep. -/
def collapseInternal (l : List Network) : Option (List Network) :=
  match mergeLoop (mergeFuel l) l.reverse [] with
  | none => none
  | some d =>
    let vals := d.map Prod.snd
    if sameVersion vals then some (sweep (vals.mergeSort netLE)) else none

/-- `ipaddress.collapse_addresses(addresses)` for network arguments:
partition into host addresses and proper networks, summarize the
consecutive address runs into blocks, then merge everything. -/
def collapse_addresses (l : List Network) : Option (List Network) :=
  match partitionLoop l [] [] with
  | none => none
  | some (ips, nets) =>
    match ips with
    | [] => collapseInternal nets
    | (v, _) :: _ =>
      let addrs := (findRanges (sortedDedup (ips.map Prod.snd))).flatMap
        (fun fl => summarize v (widthOf v) fl.2 fl.1)
      collapseInternal (addrs ++ nets)

/-- The deterministic output order of both scripts:
`key=lambda n: (n.version, int(n.network_address), n.prefixlen)`. -/
def tripleLE (a b : Network) : Bool :=
  decide (a.version < b.version) ||
    (decide (a.version = b.version) &&
      (decide (a.addr < b.addr) ||
        (decide (a.addr = b.addr) && decide (a.prefixlen ≤ b.prefixlen))))

/-- `collapse_and_sort(nets)` from `build_multi_asn_feeds.py`:
collapse adjacent/sibling prefixes and sort in the stable order. -/
def collapse_and_sort (nets : List Network) : Option (List Network) :=
  (collapse_addresses nets).map (fun c => c.mergeSort tripleLE)

/-- `normalize(nets)` from `build_multi_asn_feeds.py`. -/
def normalize (nets : List Network) : Option (List Network) :=
  collapse_and_sort nets

/-- `apply_exclusions(nets, excludes)` (identical in both scripts):
partition exclusions by family, subtract from every candidate, then
collapse and sort. -/
def apply_exclusions (nets excludes : List Network) : Option (List Network) :=
  let excludesV4 := excludes.filter (fun e => e.version == 4)
  let excludesV6 := excludes.filter (fun e => e.version == 6)
  let out := nets.flatMap
    (fun n => subtract_one n (if n.version == 4 then excludesV4 else excludesV6))
  (collapse_addresses out).map (fun c => c.mergeSort tripleLE)

/-- The per-candidate exclusion list chosen inside `apply_exclusions`:
the v4 sublist for a v4 candidate, the v6 sublist otherwise. -/
def exsFor (excludes : List Network) (n : Network) : List Network :=
  if n.version == 4 then excludes.filter (fun e => e.version == 4)
  else excludes.filter (fun e => e.version == 6)

/-- The working list `out` built inside `apply_exclusions`: the
concatenation of all per-candidate subtractions. -/
def subtractAll (nets excludes : List Network) : List Network :=
  nets.flatMap (fun n => subtract_one n (exsFor excludes n))

/-- Python `str.strip()`: drop leading and trailing whitespace. -/
def pyStrip (s : String) : String :=
  ⟨((s.data.dropWhile Char.isWhitespace).reverse.dropWhile Char.isWhitespace).reverse⟩

/-- The line loop of `load_exclusions` in `scripts/exclusions.py`:
strip each line, skip blanks and `#` comments (a line whose first
character is `#`), add parsed networks to a set (first occurrence
kept), record a warning with the line number for unparseable lines. -/
def loadSetLoop (p : String → Option Network) :
    Nat → List String → List Network → List Nat → List Network × List Nat
  | _, [], acc, ws => (acc, ws)
  | ln, raw :: rest, acc, ws =>
    let line := pyStrip raw
    if line.data.isEmpty || line.data.head? == some '#' then
      loadSetLoop p (ln + 1) rest acc ws
    else
      match p line with
      | some n => loadSetLoop p (ln + 1) rest (if n ∈ acc then acc else acc ++ [n]) ws
      | none => loadSetLoop p (ln + 1) rest acc (ws ++ [ln])

/-- `load_exclusions(path)` from `scripts/exclusions.py`, over an
abstract network parser `p` (the `ipaddress.ip_network` black box) and
a source that is either absent (`none`, missing file) or a list of
lines.  Returns the network set and the warned line numbers. -/
def load_exclusions (p : String → Option Network) :
    Option (List String) → List Network × List Nat
  | none => ([], [])
  | some lines => loadSetLoop p 1 lines [] []

/-- The line loop of `load_exclusions` in `build_multi_asn_feeds.py`:
identical except that networks are appended to a list, so duplicates
are retained. -/
def loadListLoop (p : String → Option Network) :
    Nat → List String → List Network → List Nat → List Network × List Nat
  | _, [], acc, ws => (acc, ws)
  | ln, raw :: rest, acc, ws =>
    let line := pyStrip raw
    if line.data.isEmpty || line.data.head? == some '#' then
      loadListLoop p (ln + 1) rest acc ws
    else
      match p line with
      | some n => loadListLoop p (ln + 1) rest (acc ++ [n]) ws
      | none => loadListLoop p (ln + 1) rest acc (ws ++ [ln])

/-- `load_exclusions(path)` from `build_multi_asn_feeds.py`. -/
def load_exclusions_multi (p : String → Option Network) :
    Option (List String) → List Network × List Nat
  | none => ([], [])
  | some lines => loadListLoop p 1 lines [] []

/-- `_compute_time_window(start_days, end_days)` with `now` as the
current UTC time in seconds.  `timedelta(days=d)` is `d * 86400`
seconds; comparison of the fixed-format ISO-8601 strings produced by
`isoformat` coincides with chronological comparison, so timestamps
are compared numerically.  When both offsets are supplied and the
start is later than the end, the two are swapped. -/
def compute_time_window (now : Int) (startDays endDays : Option Int) :
    Option Int × Option Int :=
  let startIso := startDays.map (fun d => now - d * 86400)
  let endIso := endDays.map (fun d => now - d * 86400)
  match startIso, endIso with
  | some s, some e => if e < s then (some e, some s) else (some s, some e)
  | s, e => (s, e)

/-- A fixture parser for concrete loader runs: recognizes the single
CIDR literal used by the examples. -/
def parseFixture : String → Option Network := fun s =>
  if s = "10.0.0.0/24" then some ⟨4, 167772160, 24⟩ else none

/-! ### Specification-side predicates -/

/-- The networks a loader run keeps, in file order: each non-blank,
non-comment line's parse, when it succeeds. -/
def keptNets (p : String → Option Network) : List String → List Network
  | [] => []
  | raw :: rest =>
    let line := pyStrip raw
    if line.data.isEmpty || line.data.head? == some '#' then keptNets p rest
    else
      match p line with
      | some n => n :: keptNets p rest
      | none => keptNets p rest

/-- The line numbers a loader run warns about: the non-blank,
non-comment lines the parser rejects, numbered from `ln`. -/
def warnLines (p : String → Option Network) : Nat → List String → List Nat
  | _, [] => []
  | ln, raw :: rest =>
    let line := pyStrip raw
    if line.data.isEmpty || line.data.head? == some '#' then warnLines p (ln + 1) rest
    else
      match p line with
      | some _ => warnLines p (ln + 1) rest
      | none => ln :: warnLines p (ln + 1) rest

/-- The block of `a` is contained in the block of `b` (as address
ranges). -/
def RangeSub (a b : Network) : Prop :=
  b.addr ≤ a.addr ∧ a.addr + a.size ≤ b.addr + b.size

/-- The blocks of `a` and `b` share no address. -/
def RDisj (a b : Network) : Prop :=
  a.addr + a.size ≤ b.addr ∨ b.addr + b.size ≤ a.addr

/-- Some network of the list covers address `a`. -/
def Covered (L : List Network) (a : Nat) : Prop :=
  ∃ n ∈ L, n.inRange a

/-- Some network of the list has family `v` and covers address `a`. -/
def CoveredV (L : List Network) (v a : Nat) : Prop :=
  ∃ n ∈ L, n.version = v ∧ n.inRange a

/-- Strict form of the single-family sort order (address, then prefix
length). -/
def netLT (a b : Network) : Prop :=
  a.addr < b.addr ∨ (a.addr = b.addr ∧ a.prefixlen < b.prefixlen)

/-- Strict form of the output sort order (family, address, prefix
length). -/
def tripLT (a b : Network) : Prop :=
  a.version < b.version ∨
    (a.version = b.version ∧
      (a.addr < b.addr ∨ (a.addr = b.addr ∧ a.prefixlen < b.prefixlen)))

/-- The list mentions two different address families. -/
def Mixed (l : List Network) : Prop :=
  ∃ a ∈ l, ∃ b ∈ l, a.version ≠ b.version

/-- No two members of the list are siblings (which would share their
supernet) nor duplicates. -/
def NoSib (l : List Network) : Prop :=
  List.Pairwise (fun a b => supernet a ≠ supernet b) l

/-- All members of the list are pairwise disjoint. -/
def PDisj (l : List Network) : Prop :=
  List.Pairwise RDisj l

/-- Decreasing measure contributed by the work queue of the merge
loop. -/
def tmMeasure (tm : List Network) : Nat :=
  (tm.map (fun n => n.prefixlen + 2)).sum

/-- Decreasing measure contributed by the dictionary of the merge
loop. -/
def dictMeasure (d : List (Network × Network)) : Nat :=
  (d.map (fun p => p.2.prefixlen + 1)).sum

end ASNFeeds

namespace ASNFeeds

/-! ### Basic facts about networks -/

theorem Network.size_pos (n : Network) : 0 < n.size :=
  Nat.pos_pow_of_pos _ (by decide)

theorem width_eq_of_version {a b : Network} (h : a.version = b.version) :
    a.width = b.width := by
  simp [Network.width, h]

theorem subnet_of_iff {a b : Network} : subnet_of a b = true ↔ RangeSub a b := by
  have ha := a.size_pos
  have hb := b.size_pos
  simp only [subnet_of, RangeSub, Network.broadcast, Bool.and_eq_true, decide_eq_true_eq]
  omega

theorem rangeSub_refl (a : Network) : RangeSub a a := ⟨le_refl _, le_refl _⟩

theorem rangeSub_trans {a b c : Network} (h1 : RangeSub a b) (h2 : RangeSub b c) :
    RangeSub a c := by
  rcases h1 with ⟨h1a, h1b⟩; rcases h2 with ⟨h2a, h2b⟩
  exact ⟨le_trans h2a h1a, le_trans h1b h2b⟩

theorem rangeSub_iff_inRange {a b : Network} :
    RangeSub a b ↔ ∀ x, a.inRange x → b.inRange x := by
  constructor
  · rintro ⟨h1, h2⟩ x ⟨hx1, hx2⟩
    exact ⟨le_trans h1 hx1, lt_of_lt_of_le hx2 h2⟩
  · intro h
    have ha := a.size_pos
    have h1 := h a.addr ⟨le_refl _, by omega⟩
    have h2 := h (a.addr + a.size - 1) ⟨by omega, by omega⟩
    rcases h1 with ⟨h1a, _⟩
    rcases h2 with ⟨_, h2b⟩
    exact ⟨h1a, by omega⟩

theorem rDisj_iff {a b : Network} :
    RDisj a b ↔ ∀ x, a.inRange x → ¬ b.inRange x := by
  constructor
  · rintro (h | h) x ⟨hx1, hx2⟩ ⟨hy1, hy2⟩ <;> omega
  · intro h
    by_contra hc
    have ha := a.size_pos
    have hb := b.size_pos
    simp only [RDisj, not_or, not_le] at hc
    rcases hc with ⟨h1, h2⟩
    rcases Nat.le_total a.addr b.addr with hle | hle
    · exact h b.addr ⟨hle, h1⟩ ⟨le_refl _, by omega⟩
    · exact h a.addr ⟨le_refl _, by omega⟩ ⟨hle, h2⟩

theorem rDisj_symm {a b : Network} (h : RDisj a b) : RDisj b a := h.symm

/-- Arithmetic core of laminarity: an aligned block of size `s` that
meets an aligned block of larger size `S` is contained in it. -/
theorem aligned_block_sub {s S aa ba x : Nat} (hss : s ∣ S) (hS : 0 < S)
    (ha : s ∣ aa) (hb : S ∣ ba)
    (hx1 : aa ≤ x) (hx2 : x < aa + s) (hx3 : ba ≤ x) (hx4 : x < ba + S) :
    ba ≤ aa ∧ aa + s ≤ ba + S := by
  -- the `a` block lies inside the aligned `S` block of its base
  have hmod : s ∣ aa % S := (Nat.dvd_mod_iff hss).mpr ha
  have hmlt : aa % S < S := Nat.mod_lt _ hS
  have hmle : aa % S + s ≤ S := by
    obtain ⟨t, ht⟩ := hmod
    obtain ⟨u, hu⟩ := hss
    have hs0 : 0 < s := by
      rcases Nat.eq_zero_or_pos s with h0 | h0
      · subst h0; simp at hu; omega
      · exact h0
    have htu : t < u := by
      have h1 : s * t < s * u := by rw [← ht, ← hu]; exact hmlt
      exact lt_of_mul_lt_mul_left h1 (Nat.zero_le s)
    have h2 : s * (t + 1) ≤ s * u := Nat.mul_le_mul_left s htu
    rw [Nat.mul_succ] at h2
    omega
  have hdm : S * (aa / S) + aa % S = aa := Nat.div_add_mod aa S
  obtain ⟨k, hk⟩ := hb
  -- x lies both in the aligned S-block of aa and in the block of ba
  have hqk : S * (aa / S) = ba := by
    rcases Nat.lt_trichotomy (aa / S) k with h | h | h
    · exfalso
      have hmul : S * (aa / S + 1) ≤ S * k := Nat.mul_le_mul_left S h
      rw [Nat.mul_succ] at hmul
      omega
    · rw [h, ← hk]
    · exfalso
      have hmul : S * (k + 1) ≤ S * (aa / S) := Nat.mul_le_mul_left S h
      rw [Nat.mul_succ] at hmul
      omega
  omega

/-- Laminarity, directed form: a smaller same-family canonical block
meeting a larger one is contained in it. -/
theorem laminar_le {a b : Network} (hav : a.Valid) (hbv : b.Valid)
    (hver : a.version = b.version) (hs : a.size ≤ b.size)
    (hnd : ¬ RDisj a b) : RangeSub a b := by
  have hw : a.width = b.width := width_eq_of_version hver
  simp only [RDisj, not_or, not_le] at hnd
  obtain ⟨h1, h2⟩ := hnd
  have hdvd : a.size ∣ b.size := by
    have hexp : a.width - a.prefixlen ≤ b.width - b.prefixlen :=
      (Nat.pow_le_pow_iff_right (by norm_num)).mp hs
    simpa only [Network.size, hw] using Nat.pow_dvd_pow 2 (by simpa [hw] using hexp)
  have hbpos := b.size_pos
  have hapos := a.size_pos
  rcases Nat.le_total a.addr b.addr with hle | hle
  · exact aligned_block_sub hdvd hbpos hav.2.2.2 hbv.2.2.2
      hle h1 (le_refl _) (by omega)
  · exact aligned_block_sub hdvd hbpos hav.2.2.2 hbv.2.2.2
      (le_refl _) (by omega) hle h2

/-- Two same-family canonical blocks are nested or disjoint. -/
theorem laminar {a b : Network} (hav : a.Valid) (hbv : b.Valid)
    (hver : a.version = b.version) (hnd : ¬ RDisj a b) :
    RangeSub a b ∨ RangeSub b a := by
  rcases Nat.le_total a.size b.size with hs | hs
  · exact Or.inl (laminar_le hav hbv hver hs hnd)
  · refine Or.inr (laminar_le hbv hav hver.symm hs ?_)
    intro hd
    exact hnd (rDisj_symm hd)

theorem rangeSub_size_le {a b : Network} (h : RangeSub a b) : a.size ≤ b.size := by
  obtain ⟨h1, h2⟩ := h; omega

theorem size_inj {a b : Network} (hav : a.Valid) (hbv : b.Valid)
    (hver : a.version = b.version) (hs : a.size = b.size) :
    a.prefixlen = b.prefixlen := by
  have hw : a.width = b.width := width_eq_of_version hver
  have h2 : (2 : Nat) ^ (b.width - a.prefixlen) = 2 ^ (b.width - b.prefixlen) := by
    simpa [Network.size, hw] using hs
  have hexp : b.width - a.prefixlen = b.width - b.prefixlen :=
    Nat.pow_right_injective (by norm_num) h2
  have h1 := hav.2.1
  have h3 := hbv.2.1
  rw [hw] at h1
  omega

theorem rangeSub_antisymm {a b : Network} (hav : a.Valid) (hbv : b.Valid)
    (hver : a.version = b.version) (h1 : RangeSub a b) (h2 : RangeSub b a) :
    a = b := by
  have hs : a.size = b.size :=
    Nat.le_antisymm (rangeSub_size_le h1) (rangeSub_size_le h2)
  have hp : a.prefixlen = b.prefixlen := size_inj hav hbv hver hs
  obtain ⟨h1a, h1b⟩ := h1
  obtain ⟨h2a, h2b⟩ := h2
  cases a; cases b
  simp_all
  omega

theorem rangeSub_plen_lt {a b : Network} (hav : a.Valid) (hbv : b.Valid)
    (hver : a.version = b.version) (h : RangeSub a b) (hne : a ≠ b) :
    b.prefixlen < a.prefixlen := by
  have hsle : a.size ≤ b.size := rangeSub_size_le h
  rcases Nat.lt_or_ge b.prefixlen a.prefixlen with hlt | hge
  · exact hlt
  · exfalso
    have hw : a.width = b.width := width_eq_of_version hver
    have hsge : b.size ≤ a.size := by
      simp only [Network.size, hw]
      exact Nat.pow_le_pow_right (by norm_num) (by omega)
    have hs : a.size = b.size := Nat.le_antisymm hsle hsge
    have hp : a.prefixlen = b.prefixlen := size_inj hav hbv hver hs
    obtain ⟨h1, h2⟩ := h
    apply hne
    cases a; cases b
    simp_all
    omega

/-- If `k` divides both a bound and a smaller multiple of `k`, the next
multiple still fits under the bound. -/
theorem aligned_lt_bound {k x N : Nat} (_hk : 0 < k) (h1 : k ∣ x) (h2 : k ∣ N)
    (h3 : x < N) : x + k ≤ N := by
  obtain ⟨q, hq⟩ := h1
  obtain ⟨r, hr⟩ := h2
  have hqr : q < r := by
    have : k * q < k * r := by rw [← hq, ← hr]; exact h3
    exact lt_of_mul_lt_mul_left this (Nat.zero_le k)
  have : k * (q + 1) ≤ k * r := Nat.mul_le_mul_left k hqr
  rw [Nat.mul_succ] at this
  omega

/-! ### The two halves of a block and the supernet -/

theorem subnetsOf_fst_valid {s : Network} (hv : s.Valid) (hp : s.prefixlen < s.width) :
    (subnetsOf s).1.Valid := by
  obtain ⟨hver, hple, hbound, halign⟩ := hv
  refine ⟨hver, ?_, ?_, ?_⟩
  · simpa [subnetsOf, Network.width] using hp
  · have hsz : (subnetsOf s).1.size ≤ s.size := by
      simp only [subnetsOf, Network.size, Network.width]
      exact Nat.pow_le_pow_right (by norm_num) (by omega)
    simp only [subnetsOf] at hsz ⊢
    simp only [Network.width, Network.size] at *
    omega
  · have : s.size = 2 * (subnetsOf s).1.size := by
      simp only [subnetsOf, Network.size, Network.width]
      rw [← Nat.pow_succ']
      congr 1
      simp only [Network.width] at hp
      omega
    simp only [subnetsOf] at this ⊢
    simp only [Network.size, Network.width] at *
    exact Dvd.dvd.trans ⟨2, by omega⟩ halign

theorem subnetsOf_size {s : Network} (hp : s.prefixlen < s.width) :
    s.size = 2 * (subnetsOf s).1.size ∧
      (subnetsOf s).1.size = (subnetsOf s).2.size ∧
      (subnetsOf s).2.addr = s.addr + (subnetsOf s).1.size := by
  refine ⟨?_, ?_, ?_⟩
  · simp only [subnetsOf, Network.size, Network.width]
    rw [← Nat.pow_succ']
    congr 1
    simp only [Network.width] at hp
    omega
  · simp [subnetsOf, Network.size, Network.width]
  · simp [subnetsOf, Network.size, Network.width]

theorem subnetsOf_snd_valid {s : Network} (hv : s.Valid) (hp : s.prefixlen < s.width) :
    (subnetsOf s).2.Valid := by
  obtain ⟨hsz, hszeq, haddr⟩ := subnetsOf_size hp
  obtain ⟨hver, hple, hbound, halign⟩ := hv
  have h1v := subnetsOf_fst_valid ⟨hver, hple, hbound, halign⟩ hp
  refine ⟨hver, ?_, ?_, ?_⟩
  · simpa [subnetsOf, Network.width] using hp
  · have h2 : (subnetsOf s).2.size = (subnetsOf s).1.size := hszeq.symm
    have hb : (subnetsOf s).2.width = s.width := by simp [subnetsOf, Network.width]
    rw [h2, hb, haddr]
    omega
  · rw [hszeq.symm, haddr]
    exact Nat.dvd_add (Dvd.dvd.trans ⟨2, by omega⟩ halign) dvd_rfl

theorem subnetsOf_version {s : Network} :
    (subnetsOf s).1.version = s.version ∧ (subnetsOf s).2.version = s.version := by
  simp [subnetsOf]

/-- A block splits exactly into its two halves. -/
theorem subnetsOf_split {s : Network} (hp : s.prefixlen < s.width) (a : Nat) :
    s.inRange a ↔ (subnetsOf s).1.inRange a ∨ (subnetsOf s).2.inRange a := by
  obtain ⟨hsz, hszeq, haddr⟩ := subnetsOf_size hp
  have h1a : (subnetsOf s).1.addr = s.addr := by simp [subnetsOf]
  simp only [Network.inRange]
  rw [haddr, h1a, ← hszeq]
  omega

theorem subnetsOf_disj {s : Network} (hp : s.prefixlen < s.width) :
    RDisj (subnetsOf s).1 (subnetsOf s).2 := by
  obtain ⟨hsz, hszeq, haddr⟩ := subnetsOf_size hp
  have h1a : (subnetsOf s).1.addr = s.addr := by simp [subnetsOf]
  left
  rw [haddr, h1a]

theorem subnetsOf_rangeSub {s : Network} (hp : s.prefixlen < s.width) :
    RangeSub (subnetsOf s).1 s ∧ RangeSub (subnetsOf s).2 s := by
  obtain ⟨hsz, hszeq, haddr⟩ := subnetsOf_size hp
  have h1a : (subnetsOf s).1.addr = s.addr := by simp [subnetsOf]
  constructor
  · exact ⟨by rw [h1a], by rw [h1a]; omega⟩
  · exact ⟨by rw [haddr]; omega, by rw [haddr, ← hszeq]; omega⟩

theorem subnetsOf_ne {s : Network} (hp : s.prefixlen < s.width) :
    (subnetsOf s).1 ≠ (subnetsOf s).2 := by
  obtain ⟨hsz, hszeq, haddr⟩ := subnetsOf_size hp
  have h1a : (subnetsOf s).1.addr = s.addr := by simp [subnetsOf]
  intro h
  have := (subnetsOf s).1.size_pos
  rw [h] at h1a
  omega

theorem supernet_version (n : Network) : (supernet n).version = n.version := by
  unfold supernet
  split <;> simp

/-- For a canonically aligned base address, the remainder modulo the
doubled block size is zero or the block size. -/
theorem mod_double {h addr : Nat} (hd : h ∣ addr) :
    addr % (2 * h) = 0 ∨ addr % (2 * h) = h := by
  obtain ⟨m, hm⟩ := hd
  subst hm
  rcases Nat.even_or_odd m with ⟨t, ht⟩ | ⟨t, ht⟩
  · left
    subst ht
    rcases Nat.eq_zero_or_pos h with h0 | h0
    · subst h0; simp
    · have : h * (t + t) = 2 * h * t := by ring
      rw [this]
      exact Nat.mul_mod_right _ _
  · right
    subst ht
    have : h * (2 * t + 1) = 2 * h * t + h := by ring
    rw [this]
    rcases Nat.eq_zero_or_pos h with h0 | h0
    · subst h0; simp
    · rw [Nat.add_comm, Nat.add_mul_mod_self_left]
      exact Nat.mod_eq_of_lt (by omega)

theorem size_mk (v a p : Nat) : (Network.mk v a p).size = 2 ^ (widthOf v - p) := rfl

theorem width_mk (v a p : Nat) : (Network.mk v a p).width = widthOf v := rfl

theorem addr_mk (v a p : Nat) : (Network.mk v a p).addr = a := rfl

theorem prefixlen_mk (v a p : Nat) : (Network.mk v a p).prefixlen = p := rfl

theorem version_mk (v a p : Nat) : (Network.mk v a p).version = v := rfl

theorem two_pow_sub_succ {w p : Nat} (h1 : 1 ≤ p) (h2 : p ≤ w) :
    2 ^ (w - (p - 1)) = 2 * 2 ^ (w - p) := by
  rw [← Nat.pow_succ']
  congr 1
  omega

theorem mod_self_of_base {h q : Nat} (h0 : 0 < h) : (2 * h * q + h) % (2 * h) = h := by
  have heq : 2 * h * q + h = h + 2 * h * q := by ring
  rw [heq, Nat.add_mul_mod_self_left]
  exact Nat.mod_eq_of_lt (by omega)

theorem supernet_eq_of_pos {n : Network} (hv : n.Valid) (hp : n.prefixlen ≠ 0) :
    supernet n =
      ⟨n.version, n.addr - n.addr % (2 * n.size), n.prefixlen - 1⟩ := by
  unfold supernet
  rw [if_neg hp]
  have hple := hv.2.1
  have h2 : 2 ^ (n.width - (n.prefixlen - 1)) = 2 * n.size := by
    simp only [Network.size]
    rw [← Nat.pow_succ']
    congr 1
    omega
  rw [h2]

/-- The remainder of the base address modulo the doubled block size,
for a canonical network: zero (first half of the parent) or the block
size (second half). -/
theorem supernet_mod {n : Network} (hv : n.Valid) :
    n.addr % (2 * n.size) = 0 ∨ n.addr % (2 * n.size) = n.size :=
  mod_double hv.2.2.2

theorem supernet_valid {n : Network} (hv : n.Valid) : (supernet n).Valid := by
  rcases Nat.eq_zero_or_pos n.prefixlen with hp | hp
  · unfold supernet; rw [if_pos hp]; exact hv
  · rw [supernet_eq_of_pos hv (by omega)]
    obtain ⟨hver, hple, hbound, halign⟩ := hv
    have hspos := n.size_pos
    obtain ⟨v, a, p⟩ := n
    simp only [Network.prefixlen, Network.addr, width_mk, size_mk] at *
    set w := widthOf v with hwdef
    set h := 2 ^ (w - p) with hhdef
    have hsz : (Network.mk v (a - a % (2 * h)) (p - 1)).size = 2 * h := by
      rw [size_mk, two_pow_sub_succ hp hple]
    refine ⟨hver, by simp only [width_mk, Network.prefixlen]; omega, ?_, ?_⟩
    · rw [hsz, width_mk]
      have hd2 : (2 * h) ∣ 2 ^ w := by
        rw [hhdef, ← Nat.pow_succ']
        exact Nat.pow_dvd_pow 2 (by omega)
      have hdm := Nat.div_add_mod a (2 * h)
      have hd1 : (2 * h) ∣ (a - a % (2 * h)) := ⟨a / (2 * h), by omega⟩
      have hlt : a - a % (2 * h) < 2 ^ w := by omega
      exact aligned_lt_bound (by omega) hd1 hd2 hlt
    · rw [hsz]
      have hdm := Nat.div_add_mod a (2 * h)
      refine ⟨a / (2 * h), ?_⟩
      show a - a % (2 * h) = 2 * h * (a / (2 * h))
      omega

theorem supernet_rangeSub {n : Network} (hv : n.Valid) :
    RangeSub n (supernet n) := by
  rcases Nat.eq_zero_or_pos n.prefixlen with hp | hp
  · unfold supernet; rw [if_pos hp]; exact rangeSub_refl n
  · have hple := hv.2.1
    have hm := supernet_mod hv
    have hmle : n.addr % (2 * n.size) ≤ n.addr := Nat.mod_le _ _
    rw [supernet_eq_of_pos hv (by omega)]
    obtain ⟨v, a, p⟩ := n
    refine ⟨Nat.sub_le _ _, ?_⟩
    have hsz : (Network.mk v (a - a % (2 * (Network.mk v a p).size)) (p - 1)).size
        = 2 * (Network.mk v a p).size := by
      rw [size_mk, size_mk, two_pow_sub_succ hp (by simpa [Network.width] using hple)]
    rw [hsz]
    simp only [size_mk] at *
    omega

/-- A network with a positive prefix length is one of the two halves
of its supernet. -/
theorem supernet_child_cases {n : Network} (hv : n.Valid) (hp : n.prefixlen ≠ 0) :
    n = (subnetsOf (supernet n)).1 ∨ n = (subnetsOf (supernet n)).2 := by
  have hple := hv.2.1
  have hm := supernet_mod hv
  have hmle : n.addr % (2 * n.size) ≤ n.addr := Nat.mod_le _ _
  rw [supernet_eq_of_pos hv hp]
  obtain ⟨v, a, p⟩ := n
  simp only [Network.prefixlen] at hp
  have hpw : p ≤ widthOf v := by simpa [Network.width] using hple
  have hhalf : 2 ^ ((Network.mk v (a - a % (2 * (Network.mk v a p).size)) (p - 1)).width
      - ((p - 1) + 1)) = (Network.mk v a p).size := by
    rw [width_mk, size_mk]
    congr 1
    omega
  simp only [subnetsOf, width_mk, size_mk] at *
  rcases hm with hm | hm
  · left
    simp only [Network.mk.injEq]
    refine ⟨trivial, by omega, by omega⟩
  · right
    simp only [Network.mk.injEq, hhalf]
    refine ⟨trivial, by omega, by omega⟩

/-- The two halves of a valid block both have that block as their
supernet. -/
theorem supernet_halves {s : Network} (hv : s.Valid) (hp : s.prefixlen < s.width) :
    supernet (subnetsOf s).1 = s ∧ supernet (subnetsOf s).2 = s := by
  have h1v := subnetsOf_fst_valid hv hp
  have h2v := subnetsOf_snd_valid hv hp
  have halign := hv.2.2.2
  obtain ⟨v, a, p⟩ := s
  simp only [Network.prefixlen, width_mk] at hp
  simp only [subnetsOf, width_mk, size_mk] at h1v h2v ⊢
  have hs2 : 2 ^ (widthOf v - p) = 2 * 2 ^ (widthOf v - (p + 1)) := by
    rw [← Nat.pow_succ']
    congr 1
    omega
  have hpos : 0 < 2 ^ (widthOf v - (p + 1)) := Nat.pos_pow_of_pos _ (by decide)
  constructor
  · rw [supernet_eq_of_pos h1v (by simp [Network.prefixlen])]
    simp only [size_mk, Network.mk.injEq]
    have hmod : a % (2 * 2 ^ (widthOf v - (p + 1))) = 0 := by
      rw [← hs2]
      simp only [size_mk] at halign
      obtain ⟨m, hmm⟩ := halign
      rw [hmm, Nat.mul_mod_right]
    refine ⟨trivial, by omega, by omega⟩
  · rw [supernet_eq_of_pos h2v (by simp [Network.prefixlen])]
    simp only [size_mk, Network.mk.injEq]
    have hmod : (a + 2 ^ (widthOf v - (p + 1))) % (2 * 2 ^ (widthOf v - (p + 1)))
        = 2 ^ (widthOf v - (p + 1)) := by
      simp only [size_mk] at halign
      obtain ⟨m, hmm⟩ := halign
      rw [hmm, hs2]
      exact mod_self_of_base hpos
    refine ⟨trivial, by omega, by omega⟩

theorem version_eq_of_supernet {x y : Network} (h : supernet x = supernet y) :
    x.version = y.version := by
  have h1 := supernet_version x
  have h2 := supernet_version y
  rw [← h1, ← h2, h]

/-- Two distinct networks with the same supernet cover together exactly
their common supernet. -/
theorem supernet_union {x y : Network} (hx : x.Valid) (hy : y.Valid)
    (hsup : supernet x = supernet y) (hne : x ≠ y) (a : Nat) :
    (supernet x).inRange a ↔ (x.inRange a ∨ y.inRange a) := by
  have hver : x.version = y.version := version_eq_of_supernet hsup
  rcases Nat.eq_zero_or_pos x.prefixlen with hxp | hxp
  · have hxx : supernet x = x := by unfold supernet; rw [if_pos hxp]
    rcases Nat.eq_zero_or_pos y.prefixlen with hyp | hyp
    · exfalso
      apply hne
      have hyy : supernet y = y := by unfold supernet; rw [if_pos hyp]
      rw [← hxx, hsup, hyy]
    · have hys : RangeSub y (supernet y) := supernet_rangeSub hy
      rw [← hsup, hxx] at hys
      rw [hxx]
      constructor
      · exact fun h => Or.inl h
      · rintro (h | h)
        · exact h
        · exact (rangeSub_iff_inRange.mp hys) a h
  · rcases Nat.eq_zero_or_pos y.prefixlen with hyp | hyp
    · have hyy : supernet y = y := by unfold supernet; rw [if_pos hyp]
      have hxs : RangeSub x (supernet x) := supernet_rangeSub hx
      rw [hsup, hyy] at hxs
      rw [hsup, hyy]
      constructor
      · exact fun h => Or.inr h
      · rintro (h | h)
        · exact (rangeSub_iff_inRange.mp hxs) a h
        · exact h
    · -- both are halves of the common supernet
      have hkv : (supernet x).Valid := supernet_valid hx
      have hkp : (supernet x).prefixlen < (supernet x).width := by
        have h1 : (supernet x).prefixlen = x.prefixlen - 1 := by
          rw [supernet_eq_of_pos hx (by omega)]
        have h2 : (supernet x).width = x.width := by
          have := supernet_version x
          simp [Network.width, this]
        have := hx.2.1
        omega
      have hcx := supernet_child_cases hx (by omega)
      have hcy := supernet_child_cases hy (by omega)
      rw [← hsup] at hcy
      have hsplit := subnetsOf_split hkp a
      rcases hcx with hcx | hcx <;> rcases hcy with hcy | hcy
      · exfalso; exact hne (by rw [hcx, hcy])
      · rw [hsplit, ← hcx, ← hcy]
      · rw [hsplit, ← hcx, ← hcy]
        exact or_comm
      · exfalso; exact hne (by rw [hcx, hcy])

/-! ### Correctness of address_exclude -/

theorem rdisj_mono_left {a b c : Network} (h1 : RangeSub a b) (h2 : RDisj b c) :
    RDisj a c := by
  obtain ⟨h1a, h1b⟩ := h1
  rcases h2 with h2 | h2
  · exact Or.inl (by omega)
  · exact Or.inr (by omega)

theorem covered_nil (a : Nat) : ¬ Covered [] a := by
  rintro ⟨n, hn, _⟩
  exact absurd hn (List.not_mem_nil n)

theorem covered_cons {x : Network} {L : List Network} (a : Nat) :
    Covered (x :: L) a ↔ x.inRange a ∨ Covered L a := by
  constructor
  · rintro ⟨n, hn, hr⟩
    rcases List.mem_cons.mp hn with h | h
    · exact Or.inl (h ▸ hr)
    · exact Or.inr ⟨n, h, hr⟩
  · rintro (h | ⟨n, hn, hr⟩)
    · exact ⟨x, List.mem_cons_self x L, h⟩
    · exact ⟨n, List.mem_cons_of_mem x hn, hr⟩

/-- Containment with no smaller prefix length forces equality. -/
theorem rangeSub_eq_of_plen_le {a b : Network} (hav : a.Valid) (hbv : b.Valid)
    (hver : a.version = b.version) (h : RangeSub a b)
    (hp : a.prefixlen ≤ b.prefixlen) : a = b := by
  by_contra hne
  exact absurd (rangeSub_plen_lt hav hbv hver h hne) (by omega)

/-- A strict subblock of `B` is contained in exactly one half of `B`. -/
theorem half_dichotomy {ex B : Network} (he : ex.Valid) (hB : B.Valid)
    (hver : ex.version = B.version) (hsub : RangeSub ex B) (hne : ex ≠ B)
    (hp : B.prefixlen < B.width) :
    (RangeSub ex (subnetsOf B).1 ∧ RDisj ex (subnetsOf B).2) ∨
      (RangeSub ex (subnetsOf B).2 ∧ RDisj ex (subnetsOf B).1) := by
  have hplt : B.prefixlen < ex.prefixlen := rangeSub_plen_lt he hB hver hsub hne
  have h1v := subnetsOf_fst_valid hB hp
  have h2v := subnetsOf_snd_valid hB hp
  have h1ver : ex.version = (subnetsOf B).1.version := by
    rw [subnetsOf_version.1, hver]
  have h2ver : ex.version = (subnetsOf B).2.version := by
    rw [subnetsOf_version.2, hver]
  have hsize : ex.size ≤ (subnetsOf B).1.size := by
    have hw : ex.width = B.width := width_eq_of_version hver
    have h1p : (subnetsOf B).1.prefixlen = B.prefixlen + 1 := by simp [subnetsOf]
    have h1w : (subnetsOf B).1.width = B.width := by
      simp [Network.width, subnetsOf_version.1]
    simp only [Network.size, hw, h1p, h1w]
    exact Nat.pow_le_pow_right (by norm_num) (by omega)
  -- ex meets one of the halves
  have hmem : ex.inRange ex.addr := ⟨le_refl _, by have := ex.size_pos; omega⟩
  have hBmem : B.inRange ex.addr := (rangeSub_iff_inRange.mp hsub) _ hmem
  rcases (subnetsOf_split hp ex.addr).mp hBmem with hh | hh
  · left
    have hnd : ¬ RDisj ex (subnetsOf B).1 := by
      rw [rDisj_iff]
      push_neg
      exact ⟨ex.addr, hmem, hh⟩
    have hlam := laminar he h1v h1ver hnd
    have hs : RangeSub ex (subnetsOf B).1 := by
      rcases hlam with h | h
      · exact h
      · have : ex = (subnetsOf B).1 :=
          (rangeSub_eq_of_plen_le h1v he h1ver.symm h (by
            have h1p : (subnetsOf B).1.prefixlen = B.prefixlen + 1 := by simp [subnetsOf]
            omega)).symm
        rw [this]
        exact rangeSub_refl _
    exact ⟨hs, rdisj_mono_left hs (subnetsOf_disj hp)⟩
  · right
    have hnd : ¬ RDisj ex (subnetsOf B).2 := by
      rw [rDisj_iff]
      push_neg
      exact ⟨ex.addr, hmem, hh⟩
    have hlam := laminar he h2v h2ver hnd
    have hs : RangeSub ex (subnetsOf B).2 := by
      rcases hlam with h | h
      · exact h
      · have : ex = (subnetsOf B).2 :=
          (rangeSub_eq_of_plen_le h2v he h2ver.symm h (by
            have h2p : (subnetsOf B).2.prefixlen = B.prefixlen + 1 := by simp [subnetsOf]
            omega)).symm
        rw [this]
        exact rangeSub_refl _
    exact ⟨hs, rdisj_mono_left hs (rDisj_symm (subnetsOf_disj hp))⟩

theorem not_rdisj_of_rangeSub {a b : Network} (h : RangeSub a b) : ¬ RDisj a b := by
  intro hd
  have hmem : a.inRange a.addr := ⟨le_refl _, by have := a.size_pos; omega⟩
  exact (rDisj_iff.mp hd) a.addr hmem ((rangeSub_iff_inRange.mp h) _ hmem)

/-- Properties of the singleton `[s2]` produced when the excluded block
is exactly the first half of `B`. -/
theorem exclude_single_fst {ex B : Network} (hB : B.Valid)
    (hp : B.prefixlen < B.width) (hex : (subnetsOf B).1 = ex) :
    (∀ m ∈ [(subnetsOf B).2], m.Valid ∧ m.version = B.version ∧
      RangeSub m B ∧ RDisj m ex) ∧
    PDisj [(subnetsOf B).2] ∧
    (∀ a, Covered [(subnetsOf B).2] a ↔ (B.inRange a ∧ ¬ ex.inRange a)) := by
  have h2v := subnetsOf_snd_valid hB hp
  have hdisj := subnetsOf_disj hp
  refine ⟨?_, List.pairwise_singleton _ _, ?_⟩
  · intro m hm
    rcases List.mem_singleton.mp hm with rfl
    exact ⟨h2v, subnetsOf_version.2, (subnetsOf_rangeSub hp).2,
      hex ▸ rDisj_symm hdisj⟩
  · intro a
    rw [show Covered [(subnetsOf B).2] a ↔ (subnetsOf B).2.inRange a from by
      rw [covered_cons]
      simp [covered_nil]]
    rw [← hex]
    constructor
    · intro h
      refine ⟨(subnetsOf_split hp a).mpr (Or.inr h), ?_⟩
      intro hc
      exact (rDisj_iff.mp hdisj) a hc h
    · rintro ⟨hb, hnc⟩
      rcases (subnetsOf_split hp a).mp hb with h | h
      · exact absurd h hnc
      · exact h

/-- Properties of the singleton `[s1]` produced when the excluded block
is exactly the second half of `B`. -/
theorem exclude_single_snd {ex B : Network} (hB : B.Valid)
    (hp : B.prefixlen < B.width) (hex : (subnetsOf B).2 = ex) :
    (∀ m ∈ [(subnetsOf B).1], m.Valid ∧ m.version = B.version ∧
      RangeSub m B ∧ RDisj m ex) ∧
    PDisj [(subnetsOf B).1] ∧
    (∀ a, Covered [(subnetsOf B).1] a ↔ (B.inRange a ∧ ¬ ex.inRange a)) := by
  have h1v := subnetsOf_fst_valid hB hp
  have hdisj := subnetsOf_disj hp
  refine ⟨?_, List.pairwise_singleton _ _, ?_⟩
  · intro m hm
    rcases List.mem_singleton.mp hm with rfl
    exact ⟨h1v, subnetsOf_version.1, (subnetsOf_rangeSub hp).1, hex ▸ hdisj⟩
  · intro a
    rw [show Covered [(subnetsOf B).1] a ↔ (subnetsOf B).1.inRange a from by
      rw [covered_cons]
      simp [covered_nil]]
    rw [← hex]
    constructor
    · intro h
      refine ⟨(subnetsOf_split hp a).mpr (Or.inl h), ?_⟩
      intro hc
      exact (rDisj_iff.mp hdisj) a h hc
    · rintro ⟨hb, hnc⟩
      rcases (subnetsOf_split hp a).mp hb with h | h
      · exact h
      · exact absurd h hnc

/-- Full specification of the `address_exclude` splitting loop: the
produced networks are canonical same-family subblocks of the enclosing
block, pairwise disjoint, disjoint from the excluded block, and
together cover exactly the enclosing block minus the excluded block. -/
theorem addressExcludeAux_spec {ex : Network} (he : ex.Valid) :
    ∀ fuel (B : Network), B.Valid → ex.version = B.version →
      RangeSub ex B → ex ≠ B →
      ex.prefixlen ≤ B.prefixlen + 1 + fuel →
      (∀ m ∈ addressExcludeAux ex fuel (subnetsOf B).1 (subnetsOf B).2,
        m.Valid ∧ m.version = B.version ∧ RangeSub m B ∧ RDisj m ex) ∧
      PDisj (addressExcludeAux ex fuel (subnetsOf B).1 (subnetsOf B).2) ∧
      (∀ a, Covered (addressExcludeAux ex fuel (subnetsOf B).1 (subnetsOf B).2) a ↔
        (B.inRange a ∧ ¬ ex.inRange a)) := by
  intro fuel
  induction fuel with
  | zero =>
    intro B hB hver hsub hne hfuel
    have hplt : B.prefixlen < ex.prefixlen := rangeSub_plen_lt he hB hver hsub hne
    have hp : B.prefixlen < B.width := by
      have := he.2.1
      have hw : ex.width = B.width := width_eq_of_version hver
      omega
    have h1p : (subnetsOf B).1.prefixlen = B.prefixlen + 1 := by simp [subnetsOf]
    have h2p : (subnetsOf B).2.prefixlen = B.prefixlen + 1 := by simp [subnetsOf]
    have hdi := half_dichotomy he hB hver hsub hne hp
    have heq : (subnetsOf B).1 = ex ∨ (subnetsOf B).2 = ex := by
      rcases hdi with ⟨h, _⟩ | ⟨h, _⟩
      · exact Or.inl (rangeSub_eq_of_plen_le he (subnetsOf_fst_valid hB hp)
          (by rw [subnetsOf_version.1, hver]) h (by omega)).symm
      · exact Or.inr (rangeSub_eq_of_plen_le he (subnetsOf_snd_valid hB hp)
          (by rw [subnetsOf_version.2, hver]) h (by omega)).symm
    unfold addressExcludeAux
    rcases heq with heq | heq
    · rw [if_pos heq]
      exact exclude_single_fst hB hp heq
    · by_cases h1 : (subnetsOf B).1 = ex
      · rw [if_pos h1]
        exact exclude_single_fst hB hp h1
      · rw [if_neg h1, if_pos heq]
        exact exclude_single_snd hB hp heq
  | succ fuel ih =>
    intro B hB hver hsub hne hfuel
    have hplt : B.prefixlen < ex.prefixlen := rangeSub_plen_lt he hB hver hsub hne
    have hp : B.prefixlen < B.width := by
      have := he.2.1
      have hw : ex.width = B.width := width_eq_of_version hver
      omega
    have h1p : (subnetsOf B).1.prefixlen = B.prefixlen + 1 := by simp [subnetsOf]
    have h2p : (subnetsOf B).2.prefixlen = B.prefixlen + 1 := by simp [subnetsOf]
    have h1v := subnetsOf_fst_valid hB hp
    have h2v := subnetsOf_snd_valid hB hp
    have hdi := half_dichotomy he hB hver hsub hne hp
    by_cases h1 : (subnetsOf B).1 = ex
    · unfold addressExcludeAux
      rw [if_pos h1]
      exact exclude_single_fst hB hp h1
    · by_cases h2 : (subnetsOf B).2 = ex
      · unfold addressExcludeAux
        rw [if_neg h1, if_pos h2]
        exact exclude_single_snd hB hp h2
      · rcases hdi with ⟨hdsub, hddisj⟩ | ⟨hdsub, hddisj⟩
        · -- descend into the first half, yielding the second half
          have hso : subnet_of ex (subnetsOf B).1 = true := subnet_of_iff.mpr hdsub
          have hrec := ih (subnetsOf B).1 h1v (by rw [subnetsOf_version.1, hver])
            hdsub (fun hc => h1 hc.symm) (by omega)
          obtain ⟨hmem, hpd, hcov⟩ := hrec
          have hres : addressExcludeAux ex (fuel + 1) (subnetsOf B).1 (subnetsOf B).2 =
              (subnetsOf B).2 :: addressExcludeAux ex fuel
                (subnetsOf (subnetsOf B).1).1 (subnetsOf (subnetsOf B).1).2 := by
            simp only [addressExcludeAux]
            rw [if_neg h1, if_neg h2, if_pos hso]
          rw [hres]
          refine ⟨?_, ?_, ?_⟩
          · intro m hm
            rcases List.mem_cons.mp hm with rfl | hm
            · exact ⟨h2v, subnetsOf_version.2, (subnetsOf_rangeSub hp).2,
                rDisj_symm (rdisj_mono_left hdsub (subnetsOf_disj hp))⟩
            · obtain ⟨hv, hver2, hrs, hrd⟩ := hmem m hm
              exact ⟨hv, by rw [hver2, subnetsOf_version.1],
                rangeSub_trans hrs (subnetsOf_rangeSub hp).1, hrd⟩
          · rw [PDisj, List.pairwise_cons]
            refine ⟨?_, hpd⟩
            intro m hm
            obtain ⟨_, _, hrs, _⟩ := hmem m hm
            exact rDisj_symm (rdisj_mono_left hrs (subnetsOf_disj hp))
          · intro a
            rw [covered_cons, hcov a]
            constructor
            · rintro (h | ⟨hs1, hnex⟩)
              · refine ⟨(subnetsOf_split hp a).mpr (Or.inr h), ?_⟩
                intro hc
                exact (rDisj_iff.mp hddisj) a hc h
              · exact ⟨(subnetsOf_split hp a).mpr (Or.inl hs1), hnex⟩
            · rintro ⟨hb, hnex⟩
              rcases (subnetsOf_split hp a).mp hb with h | h
              · exact Or.inr ⟨h, hnex⟩
              · exact Or.inl h
        · -- descend into the second half, yielding the first half
          have hso : subnet_of ex (subnetsOf B).2 = true := subnet_of_iff.mpr hdsub
          have hso1 : subnet_of ex (subnetsOf B).1 = false := by
            rw [Bool.eq_false_iff]
            intro hc
            exact not_rdisj_of_rangeSub (subnet_of_iff.mp hc) hddisj
          have hrec := ih (subnetsOf B).2 h2v (by rw [subnetsOf_version.2, hver])
            hdsub (fun hc => h2 hc.symm) (by omega)
          obtain ⟨hmem, hpd, hcov⟩ := hrec
          have hres : addressExcludeAux ex (fuel + 1) (subnetsOf B).1 (subnetsOf B).2 =
              (subnetsOf B).1 :: addressExcludeAux ex fuel
                (subnetsOf (subnetsOf B).2).1 (subnetsOf (subnetsOf B).2).2 := by
            simp only [addressExcludeAux]
            rw [if_neg h1, if_neg h2, if_neg (by rw [hso1]; exact Bool.false_ne_true),
              if_pos hso]
          rw [hres]
          refine ⟨?_, ?_, ?_⟩
          · intro m hm
            rcases List.mem_cons.mp hm with rfl | hm
            · exact ⟨h1v, subnetsOf_version.1, (subnetsOf_rangeSub hp).1,
                rDisj_symm (rdisj_mono_left hdsub (rDisj_symm (subnetsOf_disj hp)))⟩
            · obtain ⟨hv, hver2, hrs, hrd⟩ := hmem m hm
              exact ⟨hv, by rw [hver2, subnetsOf_version.2],
                rangeSub_trans hrs (subnetsOf_rangeSub hp).2, hrd⟩
          · rw [PDisj, List.pairwise_cons]
            refine ⟨?_, hpd⟩
            intro m hm
            obtain ⟨_, _, hrs, _⟩ := hmem m hm
            exact rDisj_symm (rdisj_mono_left hrs (rDisj_symm (subnetsOf_disj hp)))
          · intro a
            rw [covered_cons, hcov a]
            constructor
            · rintro (h | ⟨hs2, hnex⟩)
              · refine ⟨(subnetsOf_split hp a).mpr (Or.inl h), ?_⟩
                intro hc
                exact (rDisj_iff.mp hddisj) a hc h
              · exact ⟨(subnetsOf_split hp a).mpr (Or.inr hs2), hnex⟩
            · rintro ⟨hb, hnex⟩
              rcases (subnetsOf_split hp a).mp hb with h | h
              · exact Or.inl h
              · exact Or.inr ⟨h, hnex⟩

/-- Specification of `address_exclude` under its call-site guard
`other.subnet_of(self)`. -/
theorem address_exclude_spec {r ex : Network} (hr : r.Valid) (he : ex.Valid)
    (hver : ex.version = r.version) (hsub : RangeSub ex r) :
    (∀ m ∈ address_exclude r ex,
      m.Valid ∧ m.version = r.version ∧ RangeSub m r ∧ RDisj m ex) ∧
    PDisj (address_exclude r ex) ∧
    (∀ a, Covered (address_exclude r ex) a ↔ (r.inRange a ∧ ¬ ex.inRange a)) := by
  unfold address_exclude
  by_cases hne : ex = r
  · rw [if_pos hne]
    refine ⟨fun m hm => absurd hm (List.not_mem_nil m), List.Pairwise.nil, ?_⟩
    intro a
    subst hne
    constructor
    · intro h
      exact absurd h (covered_nil a)
    · rintro ⟨h1, h2⟩
      exact absurd h1 h2
  · rw [if_neg hne]
    have hfuel : ex.prefixlen ≤ r.prefixlen + 1 + r.width := by
      have h1 := he.2.1
      have hw : ex.width = r.width := width_eq_of_version hver
      omega
    exact addressExcludeAux_spec he r.width r hr hver hsub hne hfuel

/-! ### Correctness of _subtract_one -/

/-- Specification of the inner-loop body of `_subtract_one` for one
residual piece. -/
theorem subtractPiece_spec {ex r : Network} (he : ex.Valid) (hr : r.Valid)
    (hver : ex.version = r.version) :
    (∀ m ∈ subtractPiece ex r,
      m.Valid ∧ m.version = r.version ∧ RangeSub m r ∧ RDisj m ex) ∧
    PDisj (subtractPiece ex r) ∧
    (∀ a, Covered (subtractPiece ex r) a ↔ (r.inRange a ∧ ¬ ex.inRange a)) := by
  unfold subtractPiece
  by_cases h1 : subnet_of ex r = true
  · rw [if_pos h1]
    exact address_exclude_spec hr he hver (subnet_of_iff.mp h1)
  · rw [if_neg h1]
    by_cases h2 : (subnet_of r ex || r = ex) = true
    · rw [if_pos h2]
      have hrs : RangeSub r ex := by
        rcases Bool.or_eq_true_iff.mp h2 with h | h
        · exact subnet_of_iff.mp h
        · rw [decide_eq_true_eq.mp h]
          exact rangeSub_refl ex
      refine ⟨fun m hm => absurd hm (List.not_mem_nil m), List.Pairwise.nil, ?_⟩
      intro a
      constructor
      · intro h
        exact absurd h (covered_nil a)
      · rintro ⟨hin, hnex⟩
        exact absurd ((rangeSub_iff_inRange.mp hrs) a hin) hnex
    · rw [if_neg h2]
      have hn1 : ¬ RangeSub ex r := fun hc => h1 (subnet_of_iff.mpr hc)
      have hn2 : ¬ RangeSub r ex := by
        intro hc
        exact h2 (by rw [Bool.or_eq_true_iff]; exact Or.inl (subnet_of_iff.mpr hc))
      have hdisj : RDisj r ex := by
        by_contra hc
        rcases laminar hr he hver.symm hc with h | h
        · exact hn2 h
        · exact hn1 h
      refine ⟨?_, List.pairwise_singleton _ _, ?_⟩
      · intro m hm
        rw [List.mem_singleton.mp hm]
        exact ⟨hr, rfl, rangeSub_refl r, hdisj⟩
      · intro a
        rw [show Covered [r] a ↔ r.inRange a from by rw [covered_cons]; simp [covered_nil]]
        constructor
        · intro h
          exact ⟨h, fun hc => (rDisj_iff.mp hdisj) a h hc⟩
        · exact fun h => h.1

theorem covered_append {L M : List Network} (a : Nat) :
    Covered (L ++ M) a ↔ Covered L a ∨ Covered M a := by
  constructor
  · rintro ⟨n, hn, hr⟩
    rcases List.mem_append.mp hn with h | h
    · exact Or.inl ⟨n, h, hr⟩
    · exact Or.inr ⟨n, h, hr⟩
  · rintro (⟨n, hn, hr⟩ | ⟨n, hn, hr⟩)
    · exact ⟨n, List.mem_append.mpr (Or.inl hn), hr⟩
    · exact ⟨n, List.mem_append.mpr (Or.inr hn), hr⟩

/-- Specification of one whole pass of `_subtract_one`: subtracting
`ex` from every current residual piece. -/
theorem flatMap_pieces_spec {ex net : Network} (he : ex.Valid)
    (hver : ex.version = net.version) :
    ∀ result : List Network,
      (∀ m ∈ result, m.Valid ∧ m.version = net.version ∧ RangeSub m net) →
      PDisj result →
      (∀ m ∈ result.flatMap (subtractPiece ex),
        m.Valid ∧ m.version = net.version ∧ RangeSub m net) ∧
      PDisj (result.flatMap (subtractPiece ex)) ∧
      (∀ a, Covered (result.flatMap (subtractPiece ex)) a ↔
        (Covered result a ∧ ¬ ex.inRange a)) := by
  intro result
  induction result with
  | nil =>
    intro _ _
    refine ⟨fun m hm => absurd hm (List.not_mem_nil m), List.Pairwise.nil, ?_⟩
    intro a
    simp only [List.flatMap_nil]
    constructor
    · intro h
      exact absurd h (covered_nil a)
    · rintro ⟨h, _⟩
      exact absurd h (covered_nil a)
  | cons x rest ih =>
    intro hm hd
    obtain ⟨hxv, hxver, hxsub⟩ := hm x (List.mem_cons_self x rest)
    have hpspec := subtractPiece_spec he hxv (by rw [hver, hxver])
    obtain ⟨hpm, hppd, hpcov⟩ := hpspec
    have hrest := ih (fun m hm' => hm m (List.mem_cons_of_mem x hm'))
      ((List.pairwise_cons.mp hd).2)
    obtain ⟨hrm, hrpd, hrcov⟩ := hrest
    have hflat : (x :: rest).flatMap (subtractPiece ex) =
        subtractPiece ex x ++ rest.flatMap (subtractPiece ex) := by
      simp [List.flatMap_cons]
    rw [hflat]
    refine ⟨?_, ?_, ?_⟩
    · intro m hmem
      rcases List.mem_append.mp hmem with h | h
      · obtain ⟨h1, h2, h3, _⟩ := hpm m h
        exact ⟨h1, by rw [h2, hxver], rangeSub_trans h3 hxsub⟩
      · exact hrm m h
    · rw [PDisj, List.pairwise_append]
      refine ⟨hppd, hrpd, ?_⟩
      intro m hmem m' hmem'
      obtain ⟨_, _, hms, _⟩ := hpm m hmem
      obtain ⟨r', hr'mem, hmr'⟩ := List.mem_flatMap.mp hmem'
      obtain ⟨_, _, hr'v, _⟩ := hpm m hmem
      obtain ⟨hr'valid, hr'ver, hr'sub⟩ := hm r' (List.mem_cons_of_mem x hr'mem)
      have hxr' : RDisj x r' := (List.pairwise_cons.mp hd).1 r' hr'mem
      have hps := subtractPiece_spec he hr'valid (by rw [hver, hr'ver])
      obtain ⟨h1, _, _, _⟩ := hps.1 m' hmr'
      obtain ⟨_, _, hm'sub, _⟩ := hps.1 m' hmr'
      exact rdisj_mono_left hms (rDisj_symm (rdisj_mono_left hm'sub (rDisj_symm hxr')))
    · intro a
      rw [covered_append, hpcov a, hrcov a, covered_cons]
      constructor
      · rintro (⟨h1, h2⟩ | ⟨h1, h2⟩)
        · exact ⟨Or.inl h1, h2⟩
        · exact ⟨Or.inr h1, h2⟩
      · rintro ⟨h1 | h1, h2⟩
        · exact Or.inl ⟨h1, h2⟩
        · exact Or.inr ⟨h1, h2⟩

/-- Specification of the exclusion fold of `_subtract_one`. -/
theorem subtractLoop_spec {net : Network} :
    ∀ (excludes result : List Network),
      (∀ e ∈ excludes, e.Valid) →
      (∀ m ∈ result, m.Valid ∧ m.version = net.version ∧ RangeSub m net) →
      PDisj result →
      (∀ m ∈ subtractLoop net result excludes,
        m.Valid ∧ m.version = net.version ∧ RangeSub m net) ∧
      PDisj (subtractLoop net result excludes) ∧
      (∀ a, Covered (subtractLoop net result excludes) a ↔
        (Covered result a ∧
          ∀ e ∈ excludes, e.version = net.version → ¬ e.inRange a)) := by
  intro excludes
  induction excludes with
  | nil =>
    intro result _ hm hd
    refine ⟨hm, hd, ?_⟩
    intro a
    unfold subtractLoop
    constructor
    · intro h
      exact ⟨h, fun e he => absurd he (List.not_mem_nil e)⟩
    · exact fun h => h.1
  | cons ex rest ih =>
    intro result hev hm hd
    have hexv := hev ex (List.mem_cons_self ex rest)
    have hrestv : ∀ e ∈ rest, e.Valid := fun e hh => hev e (List.mem_cons_of_mem ex hh)
    by_cases hvm : net.version ≠ ex.version
    · have hloop : subtractLoop net result (ex :: rest) = subtractLoop net result rest := by
        rw [subtractLoop, if_pos hvm]
      rw [hloop]
      obtain ⟨h1, h2, h3⟩ := ih result hrestv hm hd
      refine ⟨h1, h2, ?_⟩
      intro a
      rw [h3 a]
      constructor
      · rintro ⟨hc, hrest⟩
        refine ⟨hc, ?_⟩
        intro e hemem hever
        rcases List.mem_cons.mp hemem with rfl | hemem
        · exact absurd hever.symm hvm
        · exact hrest e hemem hever
      · rintro ⟨hc, hall⟩
        exact ⟨hc, fun e hemem hever => hall e (List.mem_cons_of_mem ex hemem) hever⟩
    · push_neg at hvm
      have hflat := flatMap_pieces_spec hexv hvm.symm result hm hd
      obtain ⟨hfm, hfpd, hfcov⟩ := hflat
      by_cases hempty : (result.flatMap (subtractPiece ex)).isEmpty = true
      · have hnil : result.flatMap (subtractPiece ex) = [] :=
          List.isEmpty_iff.mp hempty
        have hloop : subtractLoop net result (ex :: rest) = [] := by
          rw [subtractLoop, if_neg (show ¬ net.version ≠ ex.version from by omega)]
          show (if (result.flatMap (subtractPiece ex)).isEmpty = true
            then result.flatMap (subtractPiece ex)
            else subtractLoop net (result.flatMap (subtractPiece ex)) rest) = []
          rw [if_pos hempty, hnil]
        rw [hloop]
        refine ⟨fun m hmm => absurd hmm (List.not_mem_nil m), List.Pairwise.nil, ?_⟩
        intro a
        constructor
        · intro h
          exact absurd h (covered_nil a)
        · rintro ⟨hc, hall⟩
          have : Covered (result.flatMap (subtractPiece ex)) a :=
            (hfcov a).mpr ⟨hc, hall ex (List.mem_cons_self ex rest) hvm.symm⟩
          rw [hnil] at this
          exact absurd this (covered_nil a)
      · have hloop : subtractLoop net result (ex :: rest) =
            subtractLoop net (result.flatMap (subtractPiece ex)) rest := by
          rw [subtractLoop, if_neg (show ¬ net.version ≠ ex.version from by omega)]
          show (if (result.flatMap (subtractPiece ex)).isEmpty = true
            then result.flatMap (subtractPiece ex)
            else subtractLoop net (result.flatMap (subtractPiece ex)) rest) =
            subtractLoop net (result.flatMap (subtractPiece ex)) rest
          rw [if_neg hempty]
        rw [hloop]
        obtain ⟨h1, h2, h3⟩ := ih (result.flatMap (subtractPiece ex)) hrestv hfm hfpd
        refine ⟨h1, h2, ?_⟩
        intro a
        rw [h3 a, hfcov a]
        constructor
        · rintro ⟨⟨hc, hnex⟩, hrest⟩
          refine ⟨hc, ?_⟩
          intro e hemem hever
          rcases List.mem_cons.mp hemem with rfl | hemem
          · exact hnex
          · exact hrest e hemem hever
        · rintro ⟨hc, hall⟩
          exact ⟨⟨hc, hall ex (List.mem_cons_self ex rest) hvm.symm⟩,
            fun e hemem hever => hall e (List.mem_cons_of_mem ex hemem) hever⟩

/-- Main specification of `_subtract_one`: the residual pieces are
canonical same-family subblocks of `net`, pairwise disjoint, and cover
exactly the addresses of `net` not covered by any same-family
exclusion. -/
theorem subtract_one_spec {net : Network} (hnv : net.Valid)
    {excludes : List Network} (hev : ∀ e ∈ excludes, e.Valid) :
    (∀ m ∈ subtract_one net excludes,
      m.Valid ∧ m.version = net.version ∧ RangeSub m net) ∧
    PDisj (subtract_one net excludes) ∧
    (∀ a, Covered (subtract_one net excludes) a ↔
      (net.inRange a ∧
        ∀ e ∈ excludes, e.version = net.version → ¬ e.inRange a)) := by
  have hbase : ∀ m ∈ [net], m.Valid ∧ m.version = net.version ∧ RangeSub m net := by
    intro m hm
    rw [List.mem_singleton.mp hm]
    exact ⟨hnv, rfl, rangeSub_refl net⟩
  obtain ⟨h1, h2, h3⟩ := subtractLoop_spec excludes [net] hev hbase
    (List.pairwise_singleton _ _)
  refine ⟨h1, h2, ?_⟩
  intro a
  rw [subtract_one, h3 a]
  rw [show Covered [net] a ↔ net.inRange a from by rw [covered_cons]; simp [covered_nil]]

/-! ### Correctness of the address-range summarization -/

theorem crzBits_le : ∀ bits number, crzBits bits number ≤ bits := by
  intro bits
  induction bits with
  | zero => intro number; rw [crzBits]
  | succ b ih =>
    intro number
    rw [crzBits]
    split
    · have := ih (number / 2)
      omega
    · omega

theorem crzBits_dvd : ∀ bits number, 2 ^ crzBits bits number ∣ number := by
  intro bits
  induction bits with
  | zero => intro number; rw [crzBits]; simp
  | succ b ih =>
    intro number
    rw [crzBits]
    split
    · rename_i hmod
      obtain ⟨c, hc⟩ := ih (number / 2)
      refine ⟨c, ?_⟩
      calc number = 2 * (number / 2) := by omega
        _ = 2 * (2 ^ crzBits b (number / 2) * c) := congrArg (fun t => 2 * t) hc
        _ = 2 ^ (crzBits b (number / 2) + 1) * c := by rw [Nat.pow_succ]; ring
    · simp

theorem log2_pow_le {x : Nat} (hx : 0 < x) : 2 ^ Nat.log2 x ≤ x := by
  rw [Nat.log2_eq_log_two]
  exact Nat.pow_log_le_self 2 (by omega)

/-- One-step unfolding of `summarize` in the productive case. -/
theorem summarize_step {v w last first : Nat} (h : first ≤ last) :
    summarize v w last first =
      ⟨v, first, w - min (crzBits w first) (Nat.log2 (last - first + 1))⟩ ::
        (if first + 2 ^ min (crzBits w first) (Nat.log2 (last - first + 1)) - 1
            = 2 ^ w - 1 then []
        else summarize v w last
          (first + 2 ^ min (crzBits w first) (Nat.log2 (last - first + 1)))) := by
  rw [summarize]
  simp only [dif_pos h]

theorem summarize_stop {v w last first : Nat} (h : ¬ first ≤ last) :
    summarize v w last first = [] := by
  rw [summarize]
  simp only [dif_neg h]

/-- The summarization loop produces canonical blocks of family `v`
covering exactly the closed address interval. -/
theorem summarize_spec {v : Nat} (hv : v = 4 ∨ v = 6) {last : Nat}
    (hlast : last < 2 ^ widthOf v) :
    ∀ k first, last + 1 - first ≤ k → first ≤ last →
      (∀ m ∈ summarize v (widthOf v) last first, m.Valid ∧ m.version = v) ∧
      (∀ a, Covered (summarize v (widthOf v) last first) a ↔
        (first ≤ a ∧ a ≤ last)) := by
  intro k
  induction k with
  | zero => intro first hk hle; omega
  | succ k ih =>
    intro first hk hle
    set w := widthOf v with hwdef
    set nbits := min (crzBits w first) (Nat.log2 (last - first + 1)) with hnb
    have hnble : nbits ≤ w := le_trans (min_le_left _ _) (crzBits_le w first)
    have hnbdvd : 2 ^ nbits ∣ first :=
      Dvd.dvd.trans (Nat.pow_dvd_pow 2 (min_le_left _ _)) (crzBits_dvd w first)
    have hnbsz : 2 ^ nbits ≤ last - first + 1 := by
      have h1 : 2 ^ nbits ≤ 2 ^ Nat.log2 (last - first + 1) :=
        Nat.pow_le_pow_right (by norm_num) (min_le_right _ _)
      have h2 : 2 ^ Nat.log2 (last - first + 1) ≤ last - first + 1 :=
        log2_pow_le (by omega)
      omega
    have hpow1 : (1 : Nat) ≤ 2 ^ nbits := Nat.one_le_two_pow
    have hpoww : (1 : Nat) ≤ 2 ^ w := Nat.one_le_two_pow
    have hszB : (Network.mk v first (w - nbits)).size = 2 ^ nbits := by
      rw [size_mk, ← hwdef]
      congr 1
      omega
    have hBv : (Network.mk v first (w - nbits)).Valid := by
      refine ⟨hv, ?_, ?_, ?_⟩
      · simp only [prefixlen_mk, width_mk, ← hwdef]
        omega
      · simp only [addr_mk, hszB, width_mk, ← hwdef]
        omega
      · simp only [hszB]
        exact hnbdvd
    have hinB : ∀ a, (Network.mk v first (w - nbits)).inRange a ↔
        (first ≤ a ∧ a < first + 2 ^ nbits) := by
      intro a
      simp only [Network.inRange, addr_mk, hszB]
    rw [summarize_step hle]
    by_cases hbreak : first + 2 ^ nbits - 1 = 2 ^ w - 1
    · rw [if_pos hbreak]
      have hend : first + 2 ^ nbits = last + 1 := by omega
      refine ⟨?_, ?_⟩
      · intro m hm
        rw [List.mem_singleton.mp hm]
        exact ⟨hBv, rfl⟩
      · intro a
        rw [show Covered [Network.mk v first (w - nbits)] a ↔
            (Network.mk v first (w - nbits)).inRange a from by
          rw [covered_cons]; simp [covered_nil]]
        rw [hinB a]
        omega
    · rw [if_neg hbreak]
      by_cases hcont : first + 2 ^ nbits ≤ last
      · have hrec := ih (first + 2 ^ nbits) (by omega) hcont
        obtain ⟨hm, hcov⟩ := hrec
        refine ⟨?_, ?_⟩
        · intro m hmem
          rcases List.mem_cons.mp hmem with rfl | hmem
          · exact ⟨hBv, rfl⟩
          · exact hm m hmem
        · intro a
          rw [covered_cons, hcov a, hinB a]
          omega
      · have hstop : summarize v w last (first + 2 ^ nbits) = [] :=
          summarize_stop (by omega)
        rw [hstop]
        have hend : first + 2 ^ nbits = last + 1 := by omega
        refine ⟨?_, ?_⟩
        · intro m hmem
          rcases List.mem_cons.mp hmem with rfl | hmem
          · exact ⟨hBv, rfl⟩
          · exact absurd hmem (List.not_mem_nil m)
        · intro a
          rw [covered_cons, hinB a]
          constructor
          · rintro (h | h)
            · omega
            · exact absurd h (covered_nil a)
          · intro h
            exact Or.inl (by omega)

/-! ### Correctness of the consecutive-range finder -/

theorem findRangesAux_spec :
    ∀ (xs : List Nat) (first last : Nat), first ≤ last →
      List.Pairwise (· < ·) (last :: xs) →
      (∀ p ∈ findRangesAux first last xs, p.1 ≤ p.2 ∧ (p.2 = last ∨ p.2 ∈ xs)) ∧
      (∀ a, (∃ p ∈ findRangesAux first last xs, p.1 ≤ a ∧ a ≤ p.2) ↔
        ((first ≤ a ∧ a ≤ last) ∨ a ∈ xs)) := by
  intro xs
  induction xs with
  | nil =>
    intro first last hle _
    refine ⟨?_, ?_⟩
    · intro p hp
      rw [List.mem_singleton.mp hp]
      exact ⟨hle, Or.inl rfl⟩
    · intro a
      constructor
      · rintro ⟨p, hp, h1, h2⟩
        rw [List.mem_singleton.mp hp] at h1 h2
        exact Or.inl ⟨h1, h2⟩
      · rintro (⟨h1, h2⟩ | h)
        · exact ⟨(first, last), List.mem_singleton.mpr rfl, h1, h2⟩
        · exact absurd h (List.not_mem_nil a)
  | cons ip rest ih =>
    intro first last hle hsort
    have hlt : last < ip := (List.pairwise_cons.mp hsort).1 ip (List.mem_cons_self _ _)
    have hsort2 : List.Pairwise (· < ·) (ip :: rest) :=
      (List.pairwise_cons.mp hsort).2
    by_cases hne : ip ≠ last + 1
    · have heq : findRangesAux first last (ip :: rest) =
          (first, last) :: findRangesAux ip ip rest := by
        rw [findRangesAux, if_pos hne]
      rw [heq]
      obtain ⟨hp, hcov⟩ := ih ip ip (le_refl ip) hsort2
      refine ⟨?_, ?_⟩
      · intro p hpm
        rcases List.mem_cons.mp hpm with rfl | hpm
        · exact ⟨hle, Or.inl rfl⟩
        · obtain ⟨h1, h2⟩ := hp p hpm
          refine ⟨h1, Or.inr ?_⟩
          rcases h2 with h2 | h2
          · exact List.mem_cons.mpr (Or.inl h2)
          · exact List.mem_cons.mpr (Or.inr h2)
      · intro a
        constructor
        · rintro ⟨p, hpm, h1, h2⟩
          rcases List.mem_cons.mp hpm with rfl | hpm
          · exact Or.inl ⟨h1, h2⟩
          · have := (hcov a).mp ⟨p, hpm, h1, h2⟩
            rcases this with ⟨ha1, ha2⟩ | ha
            · exact Or.inr (List.mem_cons.mpr (Or.inl (by omega)))
            · exact Or.inr (List.mem_cons.mpr (Or.inr ha))
        · rintro (⟨h1, h2⟩ | ha)
          · exact ⟨(first, last), List.mem_cons_self _ _, h1, h2⟩
          · rcases List.mem_cons.mp ha with rfl | ha
            · obtain ⟨p, hpm, h1, h2⟩ := (hcov a).mpr (Or.inl ⟨le_refl a, le_refl a⟩)
              exact ⟨p, List.mem_cons_of_mem _ hpm, h1, h2⟩
            · obtain ⟨p, hpm, h1, h2⟩ := (hcov a).mpr (Or.inr ha)
              exact ⟨p, List.mem_cons_of_mem _ hpm, h1, h2⟩
    · push_neg at hne
      have heq : findRangesAux first last (ip :: rest) =
          findRangesAux first ip rest := by
        rw [findRangesAux, if_neg (by omega)]
      rw [heq]
      obtain ⟨hp, hcov⟩ := ih first ip (by omega) hsort2
      refine ⟨?_, ?_⟩
      · intro p hpm
        obtain ⟨h1, h2⟩ := hp p hpm
        refine ⟨h1, Or.inr ?_⟩
        rcases h2 with h2 | h2
        · exact List.mem_cons.mpr (Or.inl h2)
        · exact List.mem_cons.mpr (Or.inr h2)
      · intro a
        rw [hcov a]
        constructor
        · rintro (⟨h1, h2⟩ | ha)
          · rcases Nat.lt_or_ge a ip with h | h
            · exact Or.inl ⟨h1, by omega⟩
            · exact Or.inr (List.mem_cons.mpr (Or.inl (by omega)))
          · exact Or.inr (List.mem_cons.mpr (Or.inr ha))
        · rintro (⟨h1, h2⟩ | ha)
          · exact Or.inl ⟨h1, by omega⟩
          · rcases List.mem_cons.mp ha with rfl | ha
            · exact Or.inl ⟨by omega, by omega⟩
            · exact Or.inr ha

/-! ### sorted(set(...)) -/

theorem sortedDedup_sorted (l : List Nat) :
    List.Pairwise (· < ·) (sortedDedup l) := by
  have hs := @List.sorted_mergeSort Nat
    (fun a b : Nat => decide (a ≤ b))
    (fun a b c h1 h2 => by
      simp only [decide_eq_true_eq] at *
      omega)
    (fun a b => by
      simp only [Bool.or_eq_true, decide_eq_true_eq]
      omega)
    l.dedup
  have hnd : (sortedDedup l).Nodup :=
    ((List.mergeSort_perm l.dedup _).nodup_iff).mpr (List.nodup_dedup l)
  have hle : List.Pairwise (fun a b : Nat => a ≤ b) (sortedDedup l) := by
    refine hs.imp ?_
    intro a b h
    simpa using h
  have := List.Pairwise.and hle hnd
  refine this.imp ?_
  intro a b h
  omega

theorem sortedDedup_mem (l : List Nat) (a : Nat) :
    a ∈ sortedDedup l ↔ a ∈ l := by
  rw [show sortedDedup l = l.dedup.mergeSort (fun a b => a ≤ b) from rfl]
  rw [(List.mergeSort_perm l.dedup _).mem_iff]
  exact List.mem_dedup

/-! ### Correctness of the merge loop of `_collapse_addresses_internal` -/

theorem supernet_plen (n : Network) :
    (supernet n).prefixlen = n.prefixlen - 1 := by
  unfold supernet
  split
  · omega
  · rfl

theorem coveredV_nil (v a : Nat) : ¬ CoveredV [] v a := by
  rintro ⟨n, hn, _⟩
  exact absurd hn (List.not_mem_nil n)

theorem coveredV_cons {x : Network} {L : List Network} (v a : Nat) :
    CoveredV (x :: L) v a ↔ (x.version = v ∧ x.inRange a) ∨ CoveredV L v a := by
  constructor
  · rintro ⟨n, hn, hv, hr⟩
    rcases List.mem_cons.mp hn with h | h
    · exact Or.inl (h ▸ ⟨hv, hr⟩)
    · exact Or.inr ⟨n, h, hv, hr⟩
  · rintro (⟨hv, hr⟩ | ⟨n, hn, hv, hr⟩)
    · exact ⟨x, List.mem_cons_self x L, hv, hr⟩
    · exact ⟨n, List.mem_cons_of_mem x hn, hv, hr⟩

theorem coveredV_append {L M : List Network} (v a : Nat) :
    CoveredV (L ++ M) v a ↔ CoveredV L v a ∨ CoveredV M v a := by
  constructor
  · rintro ⟨n, hn, hv, hr⟩
    rcases List.mem_append.mp hn with h | h
    · exact Or.inl ⟨n, h, hv, hr⟩
    · exact Or.inr ⟨n, h, hv, hr⟩
  · rintro (⟨n, hn, hv, hr⟩ | ⟨n, hn, hv, hr⟩)
    · exact ⟨n, List.mem_append.mpr (Or.inl hn), hv, hr⟩
    · exact ⟨n, List.mem_append.mpr (Or.inr hn), hv, hr⟩

/-- With duplicate-free keys, any entry carrying the looked-up key is
the entry returned by `find?`. -/
theorem dict_entry_unique {d : List (Network × Network)} {k : Network}
    {p0 p : Network × Network}
    (hnd : (d.map Prod.fst).Nodup)
    (hf : d.find? (fun q => q.1 = k) = some p0)
    (hp : p ∈ d) (hpk : p.1 = k) : p = p0 := by
  have h0mem : p0 ∈ d := List.mem_of_find?_eq_some hf
  have h0k : p0.1 = k := by
    have := List.find?_some hf
    simpa using this
  exact List.inj_on_of_nodup_map hnd hp h0mem (by rw [hpk, h0k])

/-- Removing the found entry removes exactly its measure
contribution. -/
theorem dict_erase_measure :
    ∀ (d : List (Network × Network)) (k : Network) (p0 : Network × Network),
      (d.map Prod.fst).Nodup →
      d.find? (fun q => q.1 = k) = some p0 →
      dictMeasure (d.filter (fun q => q.1 ≠ k)) + (p0.2.prefixlen + 1) =
        dictMeasure d := by
  intro d
  induction d with
  | nil => intro k p0 _ hf; simp [List.find?] at hf
  | cons p rest ih =>
    intro k p0 hnd hf
    by_cases hpk : p.1 = k
    · have hp0 : p = p0 := by
        rw [List.find?_cons_of_pos] at hf
        · exact Option.some.inj hf
        · simpa using hpk
      have hfilter : (p :: rest).filter (fun q => q.1 ≠ k) = rest := by
        rw [List.filter_cons_of_neg (by simpa using hpk)]
        rw [List.filter_eq_self]
        intro q hq
        simp only [ne_eq, decide_not, Bool.not_eq_true', decide_eq_false_iff_not]
        intro hqk
        have hmem : p.1 ∈ rest.map Prod.fst := by
          rw [hpk, ← hqk]
          exact List.mem_map_of_mem Prod.fst hq
        have hnd' : (p.1 :: rest.map Prod.fst).Nodup := by
          rw [List.map_cons] at hnd
          exact hnd
        exact (List.nodup_cons.mp hnd').1 hmem
      rw [hfilter, ← hp0]
      simp [dictMeasure]
      omega
    · have hf2 : rest.find? (fun q => q.1 = k) = some p0 := by
        rw [List.find?_cons_of_neg] at hf
        · exact hf
        · simpa using hpk
      have hnd' : (p.1 :: rest.map Prod.fst).Nodup := by
        rw [List.map_cons] at hnd
        exact hnd
      have hnd2 : (rest.map Prod.fst).Nodup := (List.nodup_cons.mp hnd').2
      have := ih k p0 hnd2 hf2
      rw [List.filter_cons_of_pos (by simpa using hpk)]
      simp only [dictMeasure, List.map_cons, List.sum_cons] at *
      omega

/-- Coverage bookkeeping for removing the found entry: what the
dictionary values covered is covered by the remaining values plus the
removed value, and conversely. -/
theorem dict_erase_cover {d : List (Network × Network)} {k : Network}
    {p0 : Network × Network}
    (hnd : (d.map Prod.fst).Nodup)
    (hf : d.find? (fun q => q.1 = k) = some p0) (v a : Nat) :
    CoveredV (d.map Prod.snd) v a ↔
      (CoveredV ((d.filter (fun q => q.1 ≠ k)).map Prod.snd) v a ∨
        (p0.2.version = v ∧ p0.2.inRange a)) := by
  constructor
  · rintro ⟨n, hn, hv, hr⟩
    obtain ⟨p, hp, hpn⟩ := List.mem_map.mp hn
    by_cases hpk : p.1 = k
    · have : p = p0 := dict_entry_unique hnd hf hp hpk
      right
      rw [← this, hpn]
      exact ⟨hv, hr⟩
    · left
      refine ⟨n, ?_, hv, hr⟩
      rw [List.mem_map]
      exact ⟨p, List.mem_filter.mpr ⟨hp, by simpa using hpk⟩, hpn⟩
  · rintro (⟨n, hn, hv, hr⟩ | ⟨hv, hr⟩)
    · obtain ⟨p, hp, hpn⟩ := List.mem_map.mp hn
      exact ⟨n, List.mem_map.mpr ⟨p, (List.mem_filter.mp hp).1, hpn⟩, hv, hr⟩
    · exact ⟨p0.2, List.mem_map.mpr ⟨p0, List.mem_of_find?_eq_some hf, rfl⟩, hv, hr⟩

/-- Full invariant of the merge loop: within sufficient fuel it
terminates, keys stay duplicate-free, every entry keys the supernet of
its value, and the final dictionary values cover exactly what the work
queue and the dictionary values covered at entry. -/
theorem mergeLoop_spec :
    ∀ (fuel : Nat) (tm : List Network) (d : List (Network × Network)),
      (∀ n ∈ tm, n.Valid) →
      (∀ p ∈ d, p.2.Valid ∧ p.1 = supernet p.2) →
      (d.map Prod.fst).Nodup →
      tmMeasure tm + dictMeasure d < fuel →
      ∃ dout, mergeLoop fuel tm d = some dout ∧
        (∀ p ∈ dout, p.2.Valid ∧ p.1 = supernet p.2) ∧
        (dout.map Prod.fst).Nodup ∧
        (∀ v a, CoveredV (dout.map Prod.snd) v a ↔
          (CoveredV tm v a ∨ CoveredV (d.map Prod.snd) v a)) := by
  intro fuel
  induction fuel with
  | zero => intro tm d _ _ _ hfuel; omega
  | succ fuel ih =>
    intro tm d htm hd hnd hfuel
    cases tm with
    | nil =>
      refine ⟨d, rfl, hd, hnd, ?_⟩
      intro v a
      constructor
      · exact fun h => Or.inr h
      · rintro (h | h)
        · exact absurd h (coveredV_nil v a)
        · exact h
    | cons net rest =>
      have hnetv := htm net (List.mem_cons_self _ _)
      have hrestv : ∀ n ∈ rest, n.Valid := fun n h => htm n (List.mem_cons_of_mem _ h)
      have hms : tmMeasure (net :: rest) = net.prefixlen + 2 + tmMeasure rest := by
        simp [tmMeasure]
      rcases hget : dictGet d (supernet net) with _ | existing
      · -- key absent: insert the entry
        have heq : mergeLoop (fuel + 1) (net :: rest) d =
            mergeLoop fuel rest (d ++ [(supernet net, net)]) := by
          rw [mergeLoop, hget]
        have hfind : d.find? (fun q => q.1 = supernet net) = none := by
          unfold dictGet at hget
          exact Option.map_eq_none.mp hget
        have hnotin : ∀ q ∈ d, ¬ q.1 = supernet net := by
          intro q hq
          have := List.find?_eq_none.mp hfind q hq
          simpa using this
        have hd2 : ∀ p ∈ d ++ [(supernet net, net)],
            p.2.Valid ∧ p.1 = supernet p.2 := by
          intro p hp
          rcases List.mem_append.mp hp with hp | hp
          · exact hd p hp
          · rw [List.mem_singleton.mp hp]
            exact ⟨hnetv, rfl⟩
        have hnd2 : ((d ++ [(supernet net, net)]).map Prod.fst).Nodup := by
          rw [List.map_append]
          rw [List.nodup_append]
          refine ⟨hnd, List.nodup_singleton _, ?_⟩
          intro x hx hc
          obtain ⟨q, hq, hqx⟩ := List.mem_map.mp hx
          have hc2 : x = supernet net := by simpa using hc
          exact hnotin q hq (by rw [hqx, hc2])
        have hmeas2 : tmMeasure rest + dictMeasure (d ++ [(supernet net, net)]) < fuel := by
          have : dictMeasure (d ++ [(supernet net, net)]) =
              dictMeasure d + (net.prefixlen + 1) := by
            simp [dictMeasure, List.sum_append]
          omega
        obtain ⟨dout, hrun, hp1, hp2, hp3⟩ := ih rest _ hrestv hd2 hnd2 hmeas2
        refine ⟨dout, by rw [heq, hrun], hp1, hp2, ?_⟩
        intro v a
        rw [hp3 v a]
        have hvals : (d ++ [(supernet net, net)]).map Prod.snd =
            d.map Prod.snd ++ [net] := by
          rw [List.map_append]
          rfl
        rw [hvals, coveredV_append, coveredV_cons, coveredV_cons]
        have hnilv := coveredV_nil v a
        tauto
      · -- key present
        obtain ⟨p0, hfind, hp0snd⟩ : ∃ p0, d.find? (fun q => q.1 = supernet net) = some p0
            ∧ p0.2 = existing := by
          unfold dictGet at hget
          obtain ⟨p0, h1, h2⟩ := Option.map_eq_some'.mp hget
          exact ⟨p0, h1, h2⟩
        have hp0mem : p0 ∈ d := List.mem_of_find?_eq_some hfind
        have hp0key : p0.1 = supernet net := by
          have := List.find?_some hfind
          simpa using this
        obtain ⟨hexv, hexsup⟩ := hd p0 hp0mem
        rw [hp0snd] at hexv
        have hsupeq : supernet net = supernet existing := by
          rw [← hp0key, hexsup, hp0snd]
        by_cases hEq : existing = net
        · -- duplicate: drop the queued element
          have heq : mergeLoop (fuel + 1) (net :: rest) d = mergeLoop fuel rest d := by
            rw [mergeLoop, hget]
            show (if existing = net then mergeLoop fuel rest d
              else mergeLoop fuel (supernet net :: rest)
                (d.filter (fun p => p.1 ≠ supernet net))) = mergeLoop fuel rest d
            rw [if_pos hEq]
          have hmeas2 : tmMeasure rest + dictMeasure d < fuel := by omega
          obtain ⟨dout, hrun, hp1, hp2, hp3⟩ := ih rest d hrestv hd hnd hmeas2
          refine ⟨dout, by rw [heq, hrun], hp1, hp2, ?_⟩
          intro v a
          rw [hp3 v a, coveredV_cons]
          have hexmem : existing ∈ d.map Prod.snd :=
            List.mem_map.mpr ⟨p0, hp0mem, hp0snd⟩
          constructor
          · rintro (h | h)
            · exact Or.inl (Or.inr h)
            · exact Or.inr h
          · rintro ((⟨hv, hr⟩ | h) | h)
            · exact Or.inr ⟨existing, hexmem, by rw [hEq]; exact hv, by rw [hEq]; exact hr⟩
            · exact Or.inl h
            · exact Or.inr h
        · -- sibling merge: replace the pair by their supernet
          have heq : mergeLoop (fuel + 1) (net :: rest) d =
              mergeLoop fuel (supernet net :: rest)
                (d.filter (fun q => q.1 ≠ supernet net)) := by
            rw [mergeLoop, hget]
            show (if existing = net then mergeLoop fuel rest d
              else mergeLoop fuel (supernet net :: rest)
                (d.filter (fun p => p.1 ≠ supernet net))) =
              mergeLoop fuel (supernet net :: rest)
                (d.filter (fun q => q.1 ≠ supernet net))
            rw [if_neg hEq]
          have htm2 : ∀ n ∈ supernet net :: rest, n.Valid := by
            intro n hn
            rcases List.mem_cons.mp hn with rfl | hn
            · exact supernet_valid hnetv
            · exact hrestv n hn
          have hd2 : ∀ p ∈ d.filter (fun q => q.1 ≠ supernet net),
              p.2.Valid ∧ p.1 = supernet p.2 :=
            fun p hp => hd p (List.mem_filter.mp hp).1
          have hnd2 : ((d.filter (fun q => q.1 ≠ supernet net)).map Prod.fst).Nodup :=
            List.Nodup.sublist
              (List.Sublist.map Prod.fst (List.filter_sublist d)) hnd
          have hmeaseq := dict_erase_measure d (supernet net) p0 hnd hfind
          have hplen1 : (supernet net).prefixlen = net.prefixlen - 1 := supernet_plen net
          have hplen2 : (supernet net).prefixlen = existing.prefixlen - 1 := by
            rw [hsupeq]
            exact supernet_plen existing
          have hplen3 : existing.prefixlen ≠ 0 ∨ net.prefixlen ≠ 0 := by
            by_contra hc
            push_neg at hc
            apply hEq
            have he0 : supernet existing = existing := by
              unfold supernet; rw [if_pos hc.1]
            have hn0 : supernet net = net := by
              unfold supernet; rw [if_pos hc.2]
            rw [← he0, ← hsupeq, hn0]
          have hmeas2 : tmMeasure (supernet net :: rest) +
              dictMeasure (d.filter (fun q => q.1 ≠ supernet net)) < fuel := by
            have h1 : tmMeasure (supernet net :: rest) =
                (supernet net).prefixlen + 2 + tmMeasure rest := by
              simp [tmMeasure]
            rw [hp0snd] at hmeaseq
            rcases Nat.eq_zero_or_pos net.prefixlen with h0 | h0
            · rcases hplen3 with hpe | hpn
              · omega
              · omega
            · omega
          obtain ⟨dout, hrun, hp1, hp2, hp3⟩ := ih _ _ htm2 hd2 hnd2 hmeas2
          refine ⟨dout, by rw [heq, hrun], hp1, hp2, ?_⟩
          intro v a
          rw [hp3 v a, coveredV_cons, coveredV_cons]
          have herase := dict_erase_cover hnd hfind v a
          rw [hp0snd] at herase
          have hunion := supernet_union hnetv hexv hsupeq (fun h => hEq h.symm) a
          have hver1 : (supernet net).version = net.version := supernet_version net
          have hver2 : net.version = existing.version :=
            version_eq_of_supernet hsupeq
          constructor
          · rintro ((⟨hv, hr⟩ | h) | h)
            · rcases (hunion).mp hr with hr | hr
              · exact Or.inl (Or.inl ⟨by rw [← hver1]; exact hv, hr⟩)
              · refine Or.inr (herase.mpr (Or.inr ⟨?_, hr⟩))
                rw [← hver2, ← hver1]
                exact hv
            · exact Or.inl (Or.inr h)
            · exact Or.inr (herase.mpr (Or.inl h))
          · rintro ((⟨hv, hr⟩ | h) | h)
            · refine Or.inl (Or.inl ⟨by rw [hver1]; exact hv, ?_⟩)
              exact (hunion).mpr (Or.inl hr)
            · exact Or.inl (Or.inr h)
            · rcases herase.mp h with h2 | ⟨hv2, hr2⟩
              · exact Or.inr h2
              · refine Or.inl (Or.inl ⟨by rw [hver1, hver2]; exact hv2, ?_⟩)
                exact (hunion).mpr (Or.inr hr2)

/-! ### Correctness of the subsumption sweep -/

theorem size_le_of_plen_le {a b : Network} (hver : a.version = b.version)
    (h : a.prefixlen ≤ b.prefixlen) : b.size ≤ a.size := by
  have hw : a.width = b.width := width_eq_of_version hver
  simp only [Network.size, hw]
  exact Nat.pow_le_pow_right (by norm_num) (by omega)

theorem netLT_addr_le {a b : Network} (h : netLT a b) : a.addr ≤ b.addr := by
  rcases h with h | ⟨h, _⟩ <;> omega

/-- A later element of the sort order cannot strictly contain an
earlier one. -/
theorem not_rangeSub_of_netLT {a b : Network} (hav : a.Valid) (hbv : b.Valid)
    (hver : a.version = b.version) (hlt : netLT a b) : ¬ RangeSub a b := by
  rintro ⟨h1, h2⟩
  rcases hlt with hlt | ⟨heq, hplt⟩
  · omega
  · have hsz : b.size < a.size := by
      have hw : a.width = b.width := width_eq_of_version hver
      have h3 := hav.2.1
      have h4 := hbv.2.1
      simp only [Network.size, hw]
      exact Nat.pow_lt_pow_right (by norm_num) (by omega)
    omega

/-- Main invariant of the sweep loop: the kept elements form a
sublist, none is contained in the running `last`, every input address
stays covered by `last` or a kept element, and no kept element is
contained in an earlier kept element. -/
theorem sweepAux_spec {v : Nat} :
    ∀ (xs : List Network) (last : Network),
      last.Valid → last.version = v →
      (∀ x ∈ xs, x.Valid ∧ x.version = v) →
      List.Pairwise netLT (last :: xs) →
      (sweepAux last xs).Sublist xs ∧
      (∀ y ∈ sweepAux last xs, ¬ RangeSub y last) ∧
      (∀ a, Covered xs a → (last.inRange a ∨ Covered (sweepAux last xs) a)) ∧
      List.Pairwise (fun p q => ¬ RangeSub q p) (sweepAux last xs) := by
  intro xs
  induction xs with
  | nil =>
    intro last _ _ _ _
    refine ⟨List.Sublist.refl _, ?_, ?_, List.Pairwise.nil⟩
    · intro y hy
      exact absurd hy (List.not_mem_nil y)
    · intro a h
      exact absurd h (covered_nil a)
  | cons x rest ih =>
    intro last hlv hlver hxs hsort
    obtain ⟨hxv, hxver⟩ := hxs x (List.mem_cons_self _ _)
    have hrestv : ∀ y ∈ rest, y.Valid ∧ y.version = v :=
      fun y hy => hxs y (List.mem_cons_of_mem _ hy)
    have hlx : netLT last x :=
      (List.pairwise_cons.mp hsort).1 x (List.mem_cons_self _ _)
    have hsort2 : List.Pairwise netLT (x :: rest) := (List.pairwise_cons.mp hsort).2
    have hlsize := last.size_pos
    have hxsize := x.size_pos
    by_cases hbr : x.broadcast ≤ last.broadcast
    · -- drop x: it is contained in last
      have hstep : sweepAux last (x :: rest) = sweepAux last rest := by
        rw [sweepAux, if_pos hbr]
      have hxsub : RangeSub x last := by
        refine ⟨netLT_addr_le hlx, ?_⟩
        simp only [Network.broadcast] at hbr
        omega
      have hsort3 : List.Pairwise netLT (last :: rest) := by
        rw [List.pairwise_cons]
        refine ⟨?_, (List.pairwise_cons.mp hsort2).2⟩
        intro y hy
        exact (List.pairwise_cons.mp hsort).1 y (List.mem_cons_of_mem _ hy)
      obtain ⟨h1, h2, h3, h4⟩ := ih last hlv hlver hrestv hsort3
      rw [hstep]
      refine ⟨List.Sublist.cons x h1, h2, ?_, h4⟩
      intro a ha
      rcases (covered_cons a).mp ha with ha | ha
      · exact Or.inl ((rangeSub_iff_inRange.mp hxsub) a ha)
      · exact h3 a ha
    · -- keep x
      have hstep : sweepAux last (x :: rest) = x :: sweepAux x rest := by
        rw [sweepAux, if_neg hbr]
      obtain ⟨h1, h2, h3, h4⟩ := ih x hxv hxver hrestv hsort2
      rw [hstep]
      have hnotsub : ¬ RangeSub x last := by
        rintro ⟨ha, hb⟩
        simp only [Network.broadcast] at hbr
        omega
      have hxhigh : last.addr + last.size ≤ x.addr := by
        by_cases hdisj : RDisj x last
        · rcases hdisj with h | h
          · have := netLT_addr_le hlx
            omega
          · exact h
        · rcases laminar hxv hlv (by rw [hxver, hlver]) hdisj with h | h
          · exact absurd h hnotsub
          · exact absurd h (not_rangeSub_of_netLT hlv hxv (by rw [hxver, hlver]) hlx)
      refine ⟨List.Sublist.cons₂ x h1, ?_, ?_, ?_⟩
      · intro y hy
        rcases List.mem_cons.mp hy with rfl | hy
        · exact hnotsub
        · -- y comes after x, so it sits above the end of last
          rintro ⟨hc1, hc2⟩
          have hymem : y ∈ rest := h1.mem hy
          have hxy : netLT x y :=
            (List.pairwise_cons.mp hsort2).1 y hymem
          have := netLT_addr_le hxy
          have hysize := y.size_pos
          omega
      · intro a ha
        rcases (covered_cons a).mp ha with ha | ha
        · exact Or.inr ((covered_cons a).mpr (Or.inl ha))
        · rcases h3 a ha with h | h
          · exact Or.inr ((covered_cons a).mpr (Or.inl h))
          · exact Or.inr ((covered_cons a).mpr (Or.inr h))
      · rw [List.pairwise_cons]
        exact ⟨h2, h4⟩

/-- The sweep keeps a sublist, preserves coverage exactly, and leaves
no element contained in another. -/
theorem sweep_spec {v : Nat} {l : List Network}
    (hl : ∀ x ∈ l, x.Valid ∧ x.version = v)
    (hsort : List.Pairwise netLT l) :
    (sweep l).Sublist l ∧
    (∀ a, Covered l a ↔ Covered (sweep l) a) ∧
    List.Pairwise (fun p q => ¬ RangeSub q p) (sweep l) := by
  cases l with
  | nil =>
    refine ⟨List.Sublist.refl _, ?_, List.Pairwise.nil⟩
    intro a
    rfl
  | cons h t =>
    obtain ⟨hhv, hhver⟩ := hl h (List.mem_cons_self _ _)
    have htv : ∀ x ∈ t, x.Valid ∧ x.version = v :=
      fun x hx => hl x (List.mem_cons_of_mem _ hx)
    obtain ⟨h1, h2, h3, h4⟩ := sweepAux_spec t h hhv hhver htv hsort
    have hstep : sweep (h :: t) = h :: sweepAux h t := rfl
    rw [hstep]
    refine ⟨List.Sublist.cons₂ h h1, ?_, ?_⟩
    · intro a
      constructor
      · intro ha
        rcases (covered_cons a).mp ha with ha | ha
        · exact (covered_cons a).mpr (Or.inl ha)
        · rcases h3 a ha with hh | hh
          · exact (covered_cons a).mpr (Or.inl hh)
          · exact (covered_cons a).mpr (Or.inr hh)
      · rintro ⟨n, hn, hr⟩
        refine ⟨n, ?_, hr⟩
        exact (List.Sublist.cons₂ h h1).mem hn
    · rw [List.pairwise_cons]
      exact ⟨h2, h4⟩

/-! ### Uniqueness of the collapsed representation -/

theorem pdisj_forall {L : List Network} (hd : PDisj L) :
    ∀ x ∈ L, ∀ y ∈ L, x ≠ y → RDisj x y :=
  fun _ hx _ hy hne =>
    List.Pairwise.forall (fun _ _ h => rDisj_symm h) hd hx hy hne

theorem nosib_forall {L : List Network} (hd : NoSib L) :
    ∀ x ∈ L, ∀ y ∈ L, x ≠ y → supernet x ≠ supernet y :=
  fun _ hx _ hy hne =>
    List.Pairwise.forall (fun _ _ h => fun hc => h hc.symm) hd hx hy hne

theorem network_ext {a b : Network} (h1 : a.version = b.version)
    (h2 : a.addr = b.addr) (h3 : a.prefixlen = b.prefixlen) : a = b := by
  cases a
  cases b
  simp only [Network.mk.injEq]
  exact ⟨h1, h2, h3⟩

/-- No canonical block can be partitioned into strictly smaller
pairwise-disjoint canonical blocks without two of them being
siblings. -/
theorem no_frag {v : Nat} :
    ∀ (k : Nat) (s : Network) (L : List Network),
      s.width - s.prefixlen ≤ k →
      s.Valid → s.version = v →
      (∀ x ∈ L, x.Valid ∧ x.version = v) →
      (∀ x ∈ L, RangeSub x s ∧ x ≠ s) →
      PDisj L →
      (∀ a, s.inRange a → Covered L a) →
      ∃ x ∈ L, ∃ y ∈ L, x ≠ y ∧ supernet x = supernet y := by
  intro k
  induction k with
  | zero =>
    intro s L hk hsv hsver hLv hLsub hLd hLcov
    exfalso
    have hw : s.prefixlen = s.width := by
      have := hsv.2.1
      omega
    have hsize1 : s.size = 1 := by
      simp only [Network.size, hw, Nat.sub_self, pow_zero]
    obtain ⟨x, hx, hxr⟩ := hLcov s.addr ⟨le_refl _, by have := s.size_pos; omega⟩
    obtain ⟨hxsub, hxne⟩ := hLsub x hx
    obtain ⟨hxv, hxver⟩ := hLv x hx
    have hxsz : x.size ≤ 1 := by
      have := rangeSub_size_le hxsub
      omega
    have hxsz1 : x.size = 1 := by
      have := x.size_pos
      omega
    apply hxne
    have haddr : x.addr = s.addr := by
      obtain ⟨h1, h2⟩ := hxsub
      omega
    have hplen : x.prefixlen = s.prefixlen :=
      size_inj hxv hsv (by rw [hxver, hsver]) (by rw [hxsz1, hsize1])
    exact network_ext (by rw [hxver, hsver]) haddr hplen
  | succ k ih =>
    intro s L hk hsv hsver hLv hLsub hLd hLcov
    by_cases hp : s.prefixlen < s.width
    · -- split into the two halves
      have h1v := subnetsOf_fst_valid hsv hp
      have h2v := subnetsOf_snd_valid hsv hp
      have h1p : (subnetsOf s).1.prefixlen = s.prefixlen + 1 := by simp [subnetsOf]
      have h2p : (subnetsOf s).2.prefixlen = s.prefixlen + 1 := by simp [subnetsOf]
      have h1w : (subnetsOf s).1.width = s.width := by
        simp [Network.width, subnetsOf_version.1]
      have h2w : (subnetsOf s).2.width = s.width := by
        simp [Network.width, subnetsOf_version.2]
      have hhalf : ∀ x ∈ L, RangeSub x (subnetsOf s).1 ∨ RangeSub x (subnetsOf s).2 := by
        intro x hx
        obtain ⟨hxsub, hxne⟩ := hLsub x hx
        obtain ⟨hxv, hxver⟩ := hLv x hx
        have hxplt : s.prefixlen < x.prefixlen :=
          rangeSub_plen_lt hxv hsv (by rw [hxver, hsver]) hxsub hxne
        have hxmem : x.inRange x.addr := ⟨le_refl _, by have := x.size_pos; omega⟩
        have hsmem : s.inRange x.addr := (rangeSub_iff_inRange.mp hxsub) _ hxmem
        rcases (subnetsOf_split hp x.addr).mp hsmem with hh | hh
        · left
          have hnd : ¬ RDisj x (subnetsOf s).1 := by
            rw [rDisj_iff]; push_neg; exact ⟨x.addr, hxmem, hh⟩
          rcases laminar hxv h1v (by rw [hxver, subnetsOf_version.1, hsver]) hnd with h | h
          · exact h
          · rw [rangeSub_eq_of_plen_le h1v hxv
              (by rw [subnetsOf_version.1, hsver, ← hxver]) h (by omega)]
            exact rangeSub_refl _
        · right
          have hnd : ¬ RDisj x (subnetsOf s).2 := by
            rw [rDisj_iff]; push_neg; exact ⟨x.addr, hxmem, hh⟩
          rcases laminar hxv h2v (by rw [hxver, subnetsOf_version.2, hsver]) hnd with h | h
          · exact h
          · rw [rangeSub_eq_of_plen_le h2v hxv
              (by rw [subnetsOf_version.2, hsver, ← hxver]) h (by omega)]
            exact rangeSub_refl _
      have hsups := supernet_halves hsv hp
      by_cases hs1 : (subnetsOf s).1 ∈ L
      · by_cases hs2 : (subnetsOf s).2 ∈ L
        · exact ⟨(subnetsOf s).1, hs1, (subnetsOf s).2, hs2, subnetsOf_ne hp,
            by rw [hsups.1, hsups.2]⟩
        · -- recurse into the second half
          have hL2 : ∀ x ∈ L.filter (fun z => subnet_of z (subnetsOf s).2),
              x ∈ L ∧ RangeSub x (subnetsOf s).2 := by
            intro x hx
            obtain ⟨hmem, hfil⟩ := List.mem_filter.mp hx
            exact ⟨hmem, subnet_of_iff.mp hfil⟩
          obtain ⟨x, hx, y, hy, hxy, hsup⟩ := ih (subnetsOf s).2
            (L.filter (fun z => subnet_of z (subnetsOf s).2))
            (by rw [h2w, h2p]; omega)
            h2v (by rw [subnetsOf_version.2, hsver])
            (fun x hx => hLv x (hL2 x hx).1)
            (by
              intro x hx
              refine ⟨(hL2 x hx).2, ?_⟩
              intro hc
              rw [hc] at hx
              exact hs2 (hL2 _ hx).1)
            (List.Pairwise.filter _ hLd)
            (by
              intro a ha
              have hsa : s.inRange a :=
                (subnetsOf_split hp a).mpr (Or.inr ha)
              obtain ⟨z, hz, hzr⟩ := hLcov a hsa
              rcases hhalf z hz with hzh | hzh
              · exfalso
                have : (subnetsOf s).1.inRange a := (rangeSub_iff_inRange.mp hzh) a hzr
                exact (rDisj_iff.mp (subnetsOf_disj hp)) a this ha
              · exact ⟨z, List.mem_filter.mpr ⟨hz, subnet_of_iff.mpr hzh⟩, hzr⟩)
          exact ⟨x, (hL2 x hx).1, y, (hL2 y hy).1, hxy, hsup⟩
      · -- recurse into the first half
        have hL1 : ∀ x ∈ L.filter (fun z => subnet_of z (subnetsOf s).1),
            x ∈ L ∧ RangeSub x (subnetsOf s).1 := by
          intro x hx
          obtain ⟨hmem, hfil⟩ := List.mem_filter.mp hx
          exact ⟨hmem, subnet_of_iff.mp hfil⟩
        obtain ⟨x, hx, y, hy, hxy, hsup⟩ := ih (subnetsOf s).1
          (L.filter (fun z => subnet_of z (subnetsOf s).1))
          (by rw [h1w, h1p]; omega)
          h1v (by rw [subnetsOf_version.1, hsver])
          (fun x hx => hLv x (hL1 x hx).1)
          (by
            intro x hx
            refine ⟨(hL1 x hx).2, ?_⟩
            intro hc
            rw [hc] at hx
            exact hs1 (hL1 _ hx).1)
          (List.Pairwise.filter _ hLd)
          (by
            intro a ha
            have hsa : s.inRange a :=
              (subnetsOf_split hp a).mpr (Or.inl ha)
            obtain ⟨z, hz, hzr⟩ := hLcov a hsa
            rcases hhalf z hz with hzh | hzh
            · exact ⟨z, List.mem_filter.mpr ⟨hz, subnet_of_iff.mpr hzh⟩, hzr⟩
            · exfalso
              have : (subnetsOf s).2.inRange a := (rangeSub_iff_inRange.mp hzh) a hzr
              exact (rDisj_iff.mp (subnetsOf_disj hp)) a ha this)
        exact ⟨x, (hL1 x hx).1, y, (hL1 y hy).1, hxy, hsup⟩
    · -- a host-width block: same contradiction as the base case
      exfalso
      have hw : s.prefixlen = s.width := by
        have := hsv.2.1
        omega
      have hsize1 : s.size = 1 := by
        simp only [Network.size, hw, Nat.sub_self, pow_zero]
      obtain ⟨x, hx, hxr⟩ := hLcov s.addr ⟨le_refl _, by have := s.size_pos; omega⟩
      obtain ⟨hxsub, hxne⟩ := hLsub x hx
      obtain ⟨hxv, hxver⟩ := hLv x hx
      have hxsz1 : x.size = 1 := by
        have h1 := rangeSub_size_le hxsub
        have h2 := x.size_pos
        omega
      apply hxne
      have haddr : x.addr = s.addr := by
        obtain ⟨h1, h2⟩ := hxsub
        omega
      have hplen : x.prefixlen = s.prefixlen :=
        size_inj hxv hsv (by rw [hxver, hsver]) (by rw [hxsz1, hsize1])
      exact network_ext (by rw [hxver, hsver]) haddr hplen

/-- Any two collapsed representations (pairwise disjoint, sibling-free)
of the same address set have the same members. -/
theorem canonical_mem_subset {v : Nat} {L M : List Network}
    (hLv : ∀ x ∈ L, x.Valid ∧ x.version = v)
    (hMv : ∀ x ∈ M, x.Valid ∧ x.version = v)
    (hLd : PDisj L) (hMd : PDisj M)
    (hLs : NoSib L) (hMs : NoSib M)
    (hcov : ∀ a, Covered L a ↔ Covered M a) :
    ∀ x ∈ L, x ∈ M := by
  intro x hxL
  obtain ⟨hxv, hxver⟩ := hLv x hxL
  by_contra hxM
  by_cases hbig : ∃ y ∈ M, RangeSub x y ∧ x ≠ y
  · -- x sits strictly inside an element y of M; then y fragments in L
    obtain ⟨y, hyM, hxy, hxyne⟩ := hbig
    obtain ⟨hyv, hyver⟩ := hMv y hyM
    have hsub : ∀ z ∈ L, ¬ RDisj z y → RangeSub z y := by
      intro z hz hznd
      obtain ⟨hzv, hzver⟩ := hLv z hz
      rcases laminar hzv hyv (by rw [hzver, hyver]) hznd with h | h
      · exact h
      · exfalso
        by_cases hzx : z = x
        · rw [hzx] at h
          exact hxyne (rangeSub_antisymm hxv hyv (by rw [hxver, hyver]) hxy h)
        · exact not_rdisj_of_rangeSub
            (rangeSub_trans hxy h) (pdisj_forall hLd x hxL z hz (fun hc => hzx hc.symm))
    obtain ⟨z1, hz1, z2, hz2, hzne, hzsup⟩ := no_frag y.width y
      (L.filter (fun z => subnet_of z y)) (Nat.sub_le _ _) hyv hyver
      (fun z hz => hLv z (List.mem_filter.mp hz).1)
      (by
        intro z hz
        obtain ⟨hzmem, hzfil⟩ := List.mem_filter.mp hz
        refine ⟨subnet_of_iff.mp hzfil, ?_⟩
        intro hc
        -- if z = y then x and z are distinct members of L with x ⊆ z
        rw [hc] at hzmem
        exact not_rdisj_of_rangeSub hxy (pdisj_forall hLd x hxL y hzmem hxyne))
      (List.Pairwise.filter _ hLd)
      (by
        intro a ha
        have : Covered M a := ⟨y, hyM, ha⟩
        obtain ⟨z, hz, hzr⟩ := (hcov a).mpr this
        have hznd : ¬ RDisj z y := by
          rw [rDisj_iff]
          push_neg
          exact ⟨a, hzr, ha⟩
        exact ⟨z, List.mem_filter.mpr ⟨hz, subnet_of_iff.mpr (hsub z hz hznd)⟩, hzr⟩)
    exact nosib_forall hLs z1 (List.mem_filter.mp hz1).1 z2
      (List.mem_filter.mp hz2).1 hzne hzsup
  · -- every element of M meeting x is strictly inside x; x fragments in M
    push_neg at hbig
    have hsub : ∀ z ∈ M, ¬ RDisj z x → RangeSub z x ∧ z ≠ x := by
      intro z hz hznd
      obtain ⟨hzv, hzver⟩ := hMv z hz
      have hzne : z ≠ x := by
        intro hc
        rw [hc] at hz
        exact hxM hz
      rcases laminar hzv hxv (by rw [hzver, hxver]) hznd with h | h
      · exact ⟨h, hzne⟩
      · exact absurd (hbig z hz h).symm hzne
    obtain ⟨z1, hz1, z2, hz2, hzne, hzsup⟩ := no_frag x.width x
      (M.filter (fun z => subnet_of z x)) (Nat.sub_le _ _) hxv hxver
      (fun z hz => hMv z (List.mem_filter.mp hz).1)
      (by
        intro z hz
        obtain ⟨hzmem, hzfil⟩ := List.mem_filter.mp hz
        have hznd : ¬ RDisj z x := not_rdisj_of_rangeSub (subnet_of_iff.mp hzfil)
        exact hsub z hzmem hznd)
      (List.Pairwise.filter _ hMd)
      (by
        intro a ha
        have : Covered L a := ⟨x, hxL, ha⟩
        obtain ⟨z, hz, hzr⟩ := (hcov a).mp this
        have hznd : ¬ RDisj z x := by
          rw [rDisj_iff]
          push_neg
          exact ⟨a, hzr, ha⟩
        exact ⟨z, List.mem_filter.mpr ⟨hz, subnet_of_iff.mpr (hsub z hz hznd).1⟩, hzr⟩)
    exact nosib_forall hMs z1 (List.mem_filter.mp hz1).1 z2
      (List.mem_filter.mp hz2).1 hzne hzsup

theorem netLT_irrefl (a : Network) : ¬ netLT a a := by
  rintro (h | ⟨_, h⟩) <;> omega

instance : IsAntisymm Network netLT :=
  ⟨fun a b h1 h2 => by
    exfalso
    rcases h1 with h1 | ⟨h1, h1p⟩ <;> rcases h2 with h2 | ⟨h2, h2p⟩ <;> omega⟩

theorem nodup_of_pairwise_netLT {L : List Network}
    (h : List.Pairwise netLT L) : L.Nodup :=
  h.imp (fun hab => by rintro rfl; exact netLT_irrefl _ hab)

/-- Two sorted collapsed representations of the same address set are
equal. -/
theorem canonical_unique {v : Nat} {L M : List Network}
    (hLv : ∀ x ∈ L, x.Valid ∧ x.version = v)
    (hMv : ∀ x ∈ M, x.Valid ∧ x.version = v)
    (hLsort : List.Pairwise netLT L) (hMsort : List.Pairwise netLT M)
    (hLd : PDisj L) (hMd : PDisj M)
    (hLs : NoSib L) (hMs : NoSib M)
    (hcov : ∀ a, Covered L a ↔ Covered M a) :
    L = M := by
  have h1 := canonical_mem_subset hLv hMv hLd hMd hLs hMs hcov
  have h2 := canonical_mem_subset hMv hLv hMd hLd hMs hLs (fun a => (hcov a).symm)
  have hperm : L.Perm M :=
    (List.perm_ext_iff_of_nodup (nodup_of_pairwise_netLT hLsort)
      (nodup_of_pairwise_netLT hMsort)).mpr
      (fun x => ⟨h1 x, h2 x⟩)
  exact List.eq_of_perm_of_sorted hperm hLsort hMsort

/-! ### Assembly: specification of collapse_addresses -/

theorem covered_iff_coveredV {v : Nat} {L : List Network}
    (hv : ∀ x ∈ L, x.version = v) (a : Nat) :
    Covered L a ↔ CoveredV L v a := by
  constructor
  · rintro ⟨n, hn, hr⟩
    exact ⟨n, hn, hv n hn, hr⟩
  · rintro ⟨n, hn, _, hr⟩
    exact ⟨n, hn, hr⟩

theorem sameVersion_of_all {v : Nat} {L : List Network}
    (hv : ∀ x ∈ L, x.version = v) : sameVersion L = true := by
  cases L with
  | nil => rfl
  | cons x rest =>
    rw [sameVersion, List.all_eq_true]
    intro y hy
    have h1 := hv y (List.mem_cons_of_mem _ hy)
    have h2 := hv x (List.mem_cons_self _ _)
    simp [h1, h2]

theorem sameVersion_false_of_mixed {L : List Network} {x y : Network}
    (hx : x ∈ L) (hy : y ∈ L) (hne : x.version ≠ y.version) :
    sameVersion L = false := by
  cases L with
  | nil => exact absurd hx (List.not_mem_nil x)
  | cons h t =>
    rw [Bool.eq_false_iff]
    intro hc
    rw [sameVersion, List.all_eq_true] at hc
    have hver : ∀ z ∈ h :: t, z.version = h.version := by
      intro z hz
      rcases List.mem_cons.mp hz with rfl | hz
      · rfl
      · have := hc z hz
        simpa using this
    exact hne (by rw [hver x hx, hver y hy])

theorem netLE_trans : ∀ (a b c : Network),
    netLE a b = true → netLE b c = true → netLE a c = true := by
  intro a b c h1 h2
  simp only [netLE, Bool.or_eq_true, Bool.and_eq_true, decide_eq_true_eq] at *
  omega

theorem netLE_total : ∀ (a b : Network), (netLE a b || netLE b a) = true := by
  intro a b
  simp only [netLE, Bool.or_eq_true, Bool.and_eq_true, decide_eq_true_eq]
  omega

/-- Specification of `_collapse_addresses_internal` on a single-family
canonical input: it returns a sorted, pairwise-disjoint, sibling-free
list of canonical blocks covering exactly the input. -/
theorem collapseInternal_spec {v : Nat} {l : List Network}
    (hl : ∀ x ∈ l, x.Valid ∧ x.version = v) :
    ∃ r, collapseInternal l = some r ∧
      (∀ x ∈ r, x.Valid ∧ x.version = v) ∧
      List.Pairwise netLT r ∧ PDisj r ∧ NoSib r ∧
      (∀ a, Covered r a ↔ Covered l a) := by
  have hfuel : tmMeasure l.reverse + dictMeasure [] < mergeFuel l := by
    have h1 : tmMeasure l.reverse = tmMeasure l := by
      rw [tmMeasure, tmMeasure, List.map_reverse, List.sum_reverse]
    rw [h1]
    simp [dictMeasure, mergeFuel, tmMeasure]
  obtain ⟨dout, hrun, hd1, hd2, hd3⟩ := mergeLoop_spec (mergeFuel l) l.reverse []
    (fun n hn => (hl n (List.mem_reverse.mp hn)).1)
    (fun p hp => absurd hp (List.not_mem_nil p))
    List.nodup_nil hfuel
  set vals := dout.map Prod.snd with hvals
  have hcovv : ∀ v2 a, CoveredV vals v2 a ↔ CoveredV l v2 a := by
    intro v2 a
    rw [hd3 v2 a]
    constructor
    · rintro (⟨n, hn, hv2, hr⟩ | h)
      · exact ⟨n, List.mem_reverse.mp hn, hv2, hr⟩
      · obtain ⟨n, hn, _, _⟩ := h
        exact absurd hn (List.not_mem_nil n)
    · rintro ⟨n, hn, hv2, hr⟩
      exact Or.inl ⟨n, List.mem_reverse.mpr hn, hv2, hr⟩
  have hvalsprop : ∀ x ∈ vals, x.Valid ∧ x.version = v := by
    intro x hx
    obtain ⟨p, hp, hpx⟩ := List.mem_map.mp hx
    refine ⟨hpx ▸ (hd1 p hp).1, ?_⟩
    have hself : CoveredV vals x.version x.addr :=
      ⟨x, hx, rfl, ⟨le_refl _, by have := x.size_pos; omega⟩⟩
    obtain ⟨n, hn, hver, _⟩ := (hcovv x.version x.addr).mp hself
    rw [← hver, (hl n hn).2]
  have hkeys : dout.map Prod.fst = vals.map supernet := by
    rw [hvals, List.map_map]
    exact List.map_congr_left (fun p hp => (hd1 p hp).2)
  have hsupnd : (vals.map supernet).Nodup := by
    rw [← hkeys]
    exact hd2
  have hnosib : NoSib vals := by
    have := List.pairwise_map.mp hsupnd
    exact this
  have hvalsnd : vals.Nodup := by
    refine hnosib.imp ?_
    intro a b h
    rintro rfl
    exact h rfl
  have hperm : (vals.mergeSort netLE).Perm vals := List.mergeSort_perm vals netLE
  have hsv : ∀ x ∈ vals.mergeSort netLE, x.Valid ∧ x.version = v :=
    fun x hx => hvalsprop x (hperm.mem_iff.mp hx)
  have hsortLE : List.Pairwise (fun a b => netLE a b = true) (vals.mergeSort netLE) :=
    List.sorted_mergeSort netLE_trans netLE_total vals
  have hsnd : (vals.mergeSort netLE).Nodup := hperm.nodup_iff.mpr hvalsnd
  have hsortLT : List.Pairwise netLT (vals.mergeSort netLE) := by
    have hand := List.Pairwise.and hsortLE hsnd
    refine hand.imp_of_mem ?_
    intro a b ha hb ⟨hle, hne⟩
    simp only [netLE, Bool.or_eq_true, Bool.and_eq_true, decide_eq_true_eq] at hle
    rcases hle with h | ⟨h1, h2⟩
    · exact Or.inl h
    · refine Or.inr ⟨h1, ?_⟩
      rcases Nat.lt_or_ge a.prefixlen b.prefixlen with h3 | h3
      · exact h3
      · exfalso
        exact hne (network_ext (by rw [(hsv a ha).2, (hsv b hb).2]) h1 (by omega))
  have hsnosib : NoSib (vals.mergeSort netLE) :=
    (List.Perm.pairwise_iff (fun h => fun hc => h hc.symm) hperm).mpr hnosib
  obtain ⟨hsw1, hsw2, hsw3⟩ := sweep_spec hsv hsortLT
  have hres : collapseInternal l = some (sweep (vals.mergeSort netLE)) := by
    rw [collapseInternal, hrun]
    show (if sameVersion vals = true then some (sweep (vals.mergeSort netLE)) else none)
      = some (sweep (vals.mergeSort netLE))
    rw [if_pos (sameVersion_of_all (fun x hx => (hvalsprop x hx).2))]
  refine ⟨sweep (vals.mergeSort netLE), hres, ?_, ?_, ?_, ?_, ?_⟩
  · exact fun x hx => hsv x (hsw1.mem hx)
  · exact hsortLT.sublist hsw1
  · -- pairwise disjoint: sorted and mutually non-nested
    have hsorted : List.Pairwise netLT (sweep (vals.mergeSort netLE)) :=
      hsortLT.sublist hsw1
    have hand := List.Pairwise.and hsorted hsw3
    refine hand.imp_of_mem ?_
    intro a b ha hb ⟨hlt, hnsub⟩
    have hav := hsv a (hsw1.mem ha)
    have hbv := hsv b (hsw1.mem hb)
    by_contra hc
    rcases laminar hav.1 hbv.1 (by rw [hav.2, hbv.2]) hc with h | h
    · exact not_rangeSub_of_netLT hav.1 hbv.1 (by rw [hav.2, hbv.2]) hlt h
    · exact hnsub h
  · exact List.Pairwise.sublist hsw1 hsnosib
  · intro a
    rw [← hsw2 a]
    have hmemiff : Covered (vals.mergeSort netLE) a ↔ Covered vals a := by
      constructor
      · rintro ⟨n, hn, hr⟩
        exact ⟨n, hperm.mem_iff.mp hn, hr⟩
      · rintro ⟨n, hn, hr⟩
        exact ⟨n, hperm.mem_iff.mpr hn, hr⟩
    rw [hmemiff]
    rw [covered_iff_coveredV (fun x hx => (hvalsprop x hx).2) a, hcovv v a,
      ← covered_iff_coveredV (fun x hx => (hl x hx).2) a]

/-- `_collapse_addresses_internal` fails (the `sorted` call raises
`TypeError`) whenever its input mentions both address families. -/
theorem collapseInternal_mixed {l : List Network}
    (hl : ∀ x ∈ l, x.Valid) {x y : Network} (hx : x ∈ l) (hy : y ∈ l)
    (hver : x.version ≠ y.version) : collapseInternal l = none := by
  have hfuel : tmMeasure l.reverse + dictMeasure [] < mergeFuel l := by
    have h1 : tmMeasure l.reverse = tmMeasure l := by
      rw [tmMeasure, tmMeasure, List.map_reverse, List.sum_reverse]
    rw [h1]
    simp [dictMeasure, mergeFuel, tmMeasure]
  obtain ⟨dout, hrun, hd1, hd2, hd3⟩ := mergeLoop_spec (mergeFuel l) l.reverse []
    (fun n hn => hl n (List.mem_reverse.mp hn))
    (fun p hp => absurd hp (List.not_mem_nil p))
    List.nodup_nil hfuel
  have hcovv : ∀ v2 a, CoveredV (dout.map Prod.snd) v2 a ↔ CoveredV l v2 a := by
    intro v2 a
    rw [hd3 v2 a]
    constructor
    · rintro (⟨n, hn, hv2, hr⟩ | h)
      · exact ⟨n, List.mem_reverse.mp hn, hv2, hr⟩
      · obtain ⟨n, hn, _, _⟩ := h
        exact absurd hn (List.not_mem_nil n)
    · rintro ⟨n, hn, hv2, hr⟩
      exact Or.inl ⟨n, List.mem_reverse.mpr hn, hv2, hr⟩
  obtain ⟨x2, hx2, hx2v, _⟩ := (hcovv x.version x.addr).mpr
    ⟨x, hx, rfl, ⟨le_refl _, by have := x.size_pos; omega⟩⟩
  obtain ⟨y2, hy2, hy2v, _⟩ := (hcovv y.version y.addr).mpr
    ⟨y, hy, rfl, ⟨le_refl _, by have := y.size_pos; omega⟩⟩
  rw [collapseInternal, hrun]
  show (if sameVersion (dout.map Prod.snd) = true
    then some (sweep ((dout.map Prod.snd).mergeSort netLE)) else none) = none
  rw [if_neg]
  rw [sameVersion_false_of_mixed hx2 hy2 (by rw [hx2v, hy2v]; exact hver)]
  exact Bool.false_ne_true

theorem partitionLoop_nil (ipsR : List (Nat × Nat)) (netsR : List Network) :
    partitionLoop [] ipsR netsR = some (ipsR.reverse, netsR.reverse) := by
  rw [partitionLoop.eq_def]

theorem partitionLoop_cons_eq (n : Network) (rest : List Network)
    (ipsR : List (Nat × Nat)) (netsR : List Network) :
    partitionLoop (n :: rest) ipsR netsR =
      if n.prefixlen = n.width then
        (match ipsR with
         | p :: _ =>
           if p.1 ≠ n.version then none
           else partitionLoop rest ((n.version, n.addr) :: ipsR) netsR
         | [] => partitionLoop rest [(n.version, n.addr)] netsR)
      else
        (match netsR with
         | m :: _ =>
           if m.version ≠ n.version then none
           else partitionLoop rest ipsR (n :: netsR)
         | [] => partitionLoop rest ipsR (n :: netsR)) := by
  rw [partitionLoop.eq_def]

theorem partitionLoop_host_nil {n : Network} (rest : List Network)
    (netsR : List Network) (hfull : n.prefixlen = n.width) :
    partitionLoop (n :: rest) [] netsR =
      partitionLoop rest [(n.version, n.addr)] netsR := by
  rw [partitionLoop_cons_eq, if_pos hfull]

theorem partitionLoop_host_cons {n : Network} (rest : List Network)
    (p : Nat × Nat) (ps : List (Nat × Nat)) (netsR : List Network)
    (hfull : n.prefixlen = n.width) :
    partitionLoop (n :: rest) (p :: ps) netsR =
      if p.1 ≠ n.version then none
      else partitionLoop rest ((n.version, n.addr) :: p :: ps) netsR := by
  rw [partitionLoop_cons_eq, if_pos hfull]

theorem partitionLoop_net_nil {n : Network} (rest : List Network)
    (ipsR : List (Nat × Nat)) (hfull : ¬ n.prefixlen = n.width) :
    partitionLoop (n :: rest) ipsR [] = partitionLoop rest ipsR [n] := by
  rw [partitionLoop_cons_eq, if_neg hfull]

theorem partitionLoop_net_cons {n : Network} (rest : List Network)
    (ipsR : List (Nat × Nat)) (m : Network) (ms : List Network)
    (hfull : ¬ n.prefixlen = n.width) :
    partitionLoop (n :: rest) ipsR (m :: ms) =
      if m.version ≠ n.version then none
      else partitionLoop rest ipsR (n :: m :: ms) := by
  rw [partitionLoop_cons_eq, if_neg hfull]

/-- What a successful partition contains: each bucket is homogeneous
in family (given homogeneous accumulators), and membership is exactly
the accumulator plus the host/non-host elements of the input. -/
theorem partitionLoop_spec :
    ∀ (l : List Network) (ipsR : List (Nat × Nat)) (netsR : List Network)
      (ips : List (Nat × Nat)) (nets : List Network),
      partitionLoop l ipsR netsR = some (ips, nets) →
      ((∀ p ∈ ipsR, ∀ q ∈ ipsR, p.1 = q.1) → ∀ p ∈ ips, ∀ q ∈ ips, p.1 = q.1) ∧
      ((∀ x ∈ netsR, ∀ y ∈ netsR, x.version = y.version) →
        ∀ x ∈ nets, ∀ y ∈ nets, x.version = y.version) ∧
      (∀ p, p ∈ ips ↔ (p ∈ ipsR ∨
        ∃ n ∈ l, n.prefixlen = n.width ∧ p = (n.version, n.addr))) ∧
      (∀ x, x ∈ nets ↔ (x ∈ netsR ∨ (x ∈ l ∧ ¬ x.prefixlen = x.width))) := by
  intro l
  induction l with
  | nil =>
    intro ipsR netsR ips nets hrun
    rw [partitionLoop_nil] at hrun
    obtain ⟨h1, h2⟩ : ipsR.reverse = ips ∧ netsR.reverse = nets := by
      have := Option.some.inj hrun
      exact ⟨congrArg Prod.fst this, congrArg Prod.snd this⟩
    subst h1
    subst h2
    refine ⟨?_, ?_, ?_, ?_⟩
    · intro h p hp q hq
      exact h p (List.mem_reverse.mp hp) q (List.mem_reverse.mp hq)
    · intro h x hx y hy
      exact h x (List.mem_reverse.mp hx) y (List.mem_reverse.mp hy)
    · intro p
      rw [List.mem_reverse]
      constructor
      · exact fun h => Or.inl h
      · rintro (h | ⟨n, hn, _⟩)
        · exact h
        · exact absurd hn (List.not_mem_nil n)
    · intro x
      rw [List.mem_reverse]
      constructor
      · exact fun h => Or.inl h
      · rintro (h | ⟨hn, _⟩)
        · exact h
        · exact absurd hn (List.not_mem_nil x)
  | cons n rest ih =>
    intro ipsR netsR ips nets hrun
    by_cases hfull : n.prefixlen = n.width
    · cases ipsR with
      | nil =>
        rw [partitionLoop_host_nil rest netsR hfull] at hrun
        obtain ⟨h1, h2, h3, h4⟩ := ih [(n.version, n.addr)] netsR ips nets hrun
        refine ⟨?_, h2, ?_, ?_⟩
        · intro _ p hp q hq
          refine h1 ?_ p hp q hq
          intro p2 hp2 q2 hq2
          rw [List.mem_singleton.mp hp2, List.mem_singleton.mp hq2]
        · intro p
          rw [h3 p]
          constructor
          · rintro (hp | ⟨m, hm, hmf, hmp⟩)
            · exact Or.inr ⟨n, List.mem_cons_self _ _, hfull, List.mem_singleton.mp hp⟩
            · exact Or.inr ⟨m, List.mem_cons_of_mem _ hm, hmf, hmp⟩
          · rintro (hp | ⟨m, hm, hmf, hmp⟩)
            · exact absurd hp (List.not_mem_nil p)
            · rcases List.mem_cons.mp hm with rfl | hm
              · exact Or.inl (List.mem_singleton.mpr hmp)
              · exact Or.inr ⟨m, hm, hmf, hmp⟩
        · intro x
          rw [h4 x]
          constructor
          · rintro (hx | ⟨hx, hxf⟩)
            · exact Or.inl hx
            · exact Or.inr ⟨List.mem_cons_of_mem _ hx, hxf⟩
          · rintro (hx | ⟨hx, hxf⟩)
            · exact Or.inl hx
            · rcases List.mem_cons.mp hx with rfl | hx
              · exact absurd hfull hxf
              · exact Or.inr ⟨hx, hxf⟩
      | cons p ps =>
        rw [partitionLoop_host_cons rest p ps netsR hfull] at hrun
        by_cases hvm : p.1 ≠ n.version
        · rw [if_pos hvm] at hrun
          exact absurd hrun (by simp)
        · rw [if_neg hvm] at hrun
          push_neg at hvm
          obtain ⟨h1, h2, h3, h4⟩ := ih ((n.version, n.addr) :: p :: ps) netsR ips nets hrun
          refine ⟨?_, h2, ?_, ?_⟩
          · intro hacc2 q hq r hr
            refine h1 ?_ q hq r hr
            intro p2 hp2 q2 hq2
            have hmem : ∀ z ∈ (n.version, n.addr) :: p :: ps, z.1 = n.version := by
              intro z hz
              rcases List.mem_cons.mp hz with rfl | hz
              · rfl
              · rw [hacc2 z hz p (List.mem_cons_self _ _), hvm]
            rw [hmem p2 hp2, hmem q2 hq2]
          · intro q
            rw [h3 q]
            constructor
            · rintro (hq | ⟨m, hm, hmf, hmp⟩)
              · rcases List.mem_cons.mp hq with rfl | hq
                · exact Or.inr ⟨n, List.mem_cons_self _ _, hfull, rfl⟩
                · exact Or.inl hq
              · exact Or.inr ⟨m, List.mem_cons_of_mem _ hm, hmf, hmp⟩
            · rintro (hq | ⟨m, hm, hmf, hmp⟩)
              · exact Or.inl (List.mem_cons_of_mem _ hq)
              · rcases List.mem_cons.mp hm with rfl | hm
                · exact Or.inl (by rw [hmp]; exact List.mem_cons_self _ _)
                · exact Or.inr ⟨m, hm, hmf, hmp⟩
          · intro x
            rw [h4 x]
            constructor
            · rintro (hx | ⟨hx, hxf⟩)
              · exact Or.inl hx
              · exact Or.inr ⟨List.mem_cons_of_mem _ hx, hxf⟩
            · rintro (hx | ⟨hx, hxf⟩)
              · exact Or.inl hx
              · rcases List.mem_cons.mp hx with rfl | hx
                · exact absurd hfull hxf
                · exact Or.inr ⟨hx, hxf⟩
    · cases netsR with
      | nil =>
        rw [partitionLoop_net_nil rest ipsR hfull] at hrun
        obtain ⟨h1, h2, h3, h4⟩ := ih ipsR [n] ips nets hrun
        refine ⟨h1, ?_, ?_, ?_⟩
        · intro _ x hx y hy
          refine h2 ?_ x hx y hy
          intro x2 hx2 y2 hy2
          rw [List.mem_singleton.mp hx2, List.mem_singleton.mp hy2]
        · intro p
          rw [h3 p]
          constructor
          · rintro (hp | ⟨m, hm, hmf, hmp⟩)
            · exact Or.inl hp
            · exact Or.inr ⟨m, List.mem_cons_of_mem _ hm, hmf, hmp⟩
          · rintro (hp | ⟨m, hm, hmf, hmp⟩)
            · exact Or.inl hp
            · rcases List.mem_cons.mp hm with rfl | hm
              · exact absurd hmf hfull
              · exact Or.inr ⟨m, hm, hmf, hmp⟩
        · intro x
          rw [h4 x]
          constructor
          · rintro (hx | ⟨hx, hxf⟩)
            · have hxn : x = n := List.mem_singleton.mp hx
              exact Or.inr ⟨by rw [hxn]; exact List.mem_cons_self _ _,
                by rw [hxn]; exact hfull⟩
            · exact Or.inr ⟨List.mem_cons_of_mem _ hx, hxf⟩
          · rintro (hx | ⟨hx, hxf⟩)
            · exact absurd hx (List.not_mem_nil x)
            · rcases List.mem_cons.mp hx with rfl | hx
              · exact Or.inl (List.mem_singleton.mpr rfl)
              · exact Or.inr ⟨hx, hxf⟩
      | cons m ms =>
        rw [partitionLoop_net_cons rest ipsR m ms hfull] at hrun
        by_cases hvm : m.version ≠ n.version
        · rw [if_pos hvm] at hrun
          exact absurd hrun (by simp)
        · rw [if_neg hvm] at hrun
          push_neg at hvm
          obtain ⟨h1, h2, h3, h4⟩ := ih ipsR (n :: m :: ms) ips nets hrun
          refine ⟨h1, ?_, ?_, ?_⟩
          · intro hacc2 x hx y hy
            refine h2 ?_ x hx y hy
            intro x2 hx2 y2 hy2
            have hmem : ∀ z ∈ n :: m :: ms, z.version = n.version := by
              intro z hz
              rcases List.mem_cons.mp hz with rfl | hz
              · rfl
              · rw [hacc2 z hz m (List.mem_cons_self _ _), hvm]
            rw [hmem x2 hx2, hmem y2 hy2]
          · intro p
            rw [h3 p]
            constructor
            · rintro (hp | ⟨m2, hm, hmf, hmp⟩)
              · exact Or.inl hp
              · exact Or.inr ⟨m2, List.mem_cons_of_mem _ hm, hmf, hmp⟩
            · rintro (hp | ⟨m2, hm, hmf, hmp⟩)
              · exact Or.inl hp
              · rcases List.mem_cons.mp hm with rfl | hm
                · exact absurd hmf hfull
                · exact Or.inr ⟨m2, hm, hmf, hmp⟩
          · intro x
            rw [h4 x]
            constructor
            · rintro (hx | ⟨hx, hxf⟩)
              · rcases List.mem_cons.mp hx with rfl | hx
                · exact Or.inr ⟨List.mem_cons_self _ _, hfull⟩
                · exact Or.inl hx
              · exact Or.inr ⟨List.mem_cons_of_mem _ hx, hxf⟩
            · rintro (hx | ⟨hx, hxf⟩)
              · exact Or.inl (List.mem_cons_of_mem _ hx)
              · rcases List.mem_cons.mp hx with rfl | hx
                · exact Or.inl (List.mem_cons_self _ _)
                · exact Or.inr ⟨hx, hxf⟩

/-- On family-homogeneous input (accumulators included) the partition
never raises. -/
theorem partitionLoop_succeeds {v : Nat} :
    ∀ (l : List Network) (ipsR : List (Nat × Nat)) (netsR : List Network),
      (∀ x ∈ l, x.version = v) → (∀ p ∈ ipsR, p.1 = v) →
      (∀ x ∈ netsR, x.version = v) →
      ∃ ips nets, partitionLoop l ipsR netsR = some (ips, nets) := by
  intro l
  induction l with
  | nil =>
    intro ipsR netsR _ _ _
    exact ⟨ipsR.reverse, netsR.reverse, partitionLoop_nil ipsR netsR⟩
  | cons n rest ih =>
    intro ipsR netsR hl hip hnr
    have hnv : n.version = v := hl n (List.mem_cons_self _ _)
    have hrest : ∀ x ∈ rest, x.version = v := fun x hx => hl x (List.mem_cons_of_mem _ hx)
    by_cases hfull : n.prefixlen = n.width
    · cases ipsR with
      | nil =>
        obtain ⟨ips, nets, hrun⟩ := ih [(n.version, n.addr)] netsR hrest
          (by
            intro p hp
            rw [List.mem_singleton.mp hp]
            exact hnv)
          hnr
        exact ⟨ips, nets, by rw [partitionLoop_host_nil rest netsR hfull]; exact hrun⟩
      | cons p ps =>
        have hpv : p.1 = v := hip p (List.mem_cons_self _ _)
        obtain ⟨ips, nets, hrun⟩ := ih ((n.version, n.addr) :: p :: ps) netsR hrest
          (by
            intro q hq
            rcases List.mem_cons.mp hq with rfl | hq
            · exact hnv
            · exact hip q hq)
          hnr
        refine ⟨ips, nets, ?_⟩
        rw [partitionLoop_host_cons rest p ps netsR hfull,
          if_neg (show ¬ p.1 ≠ n.version from by rw [hpv, hnv]; exact fun h => h rfl)]
        exact hrun
    · cases netsR with
      | nil =>
        obtain ⟨ips, nets, hrun⟩ := ih ipsR [n] hrest hip
          (by
            intro x hx
            rw [List.mem_singleton.mp hx]
            exact hnv)
        exact ⟨ips, nets, by rw [partitionLoop_net_nil rest ipsR hfull]; exact hrun⟩
      | cons m ms =>
        have hmv : m.version = v := hnr m (List.mem_cons_self _ _)
        obtain ⟨ips, nets, hrun⟩ := ih ipsR (n :: m :: ms) hrest hip
          (by
            intro x hx
            rcases List.mem_cons.mp hx with rfl | hx
            · exact hnv
            · exact hnr x hx)
        refine ⟨ips, nets, ?_⟩
        rw [partitionLoop_net_cons rest ipsR m ms hfull,
          if_neg (show ¬ m.version ≠ n.version from by rw [hmv, hnv]; exact fun h => h rfl)]
        exact hrun

theorem covered_congr {L M : List Network} (h : ∀ x, x ∈ L ↔ x ∈ M) (a : Nat) :
    Covered L a ↔ Covered M a := by
  constructor
  · rintro ⟨n, hn, hr⟩
    exact ⟨n, (h n).mp hn, hr⟩
  · rintro ⟨n, hn, hr⟩
    exact ⟨n, (h n).mpr hn, hr⟩

theorem covered_flatMap {α : Type} {L : List α} {f : α → List Network} (a : Nat) :
    Covered (L.flatMap f) a ↔ ∃ x ∈ L, Covered (f x) a := by
  constructor
  · rintro ⟨n, hn, hr⟩
    obtain ⟨x, hx, hnx⟩ := List.mem_flatMap.mp hn
    exact ⟨x, hx, n, hnx, hr⟩
  · rintro ⟨x, hx, n, hn, hr⟩
    exact ⟨n, List.mem_flatMap.mpr ⟨x, hx, hn⟩, hr⟩

/-- A host network (full prefix length) covers exactly its base
address. -/
theorem host_inRange {n : Network} (hfull : n.prefixlen = n.width) (a : Nat) :
    n.inRange a ↔ n.addr = a := by
  have hsz : n.size = 1 := by
    simp [Network.size, hfull]
  rw [Network.inRange, hsz]
  omega

/-- The summarized blocks of the host-address bucket: all valid, of
the bucket's family, and covering exactly the host elements of `l`. -/
theorem addrs_block_spec {l : List Network} {ips : List (Nat × Nat)}
    {v0 a0 : Nat} {ps : List (Nat × Nat)}
    (hl : ∀ x ∈ l, x.Valid)
    (hmem : ∀ p, p ∈ ips ↔ ∃ n ∈ l, n.prefixlen = n.width ∧ p = (n.version, n.addr))
    (hhom : ∀ p ∈ ips, ∀ q ∈ ips, p.1 = q.1)
    (hips : ips = (v0, a0) :: ps) :
    (∀ m ∈ (findRanges (sortedDedup (ips.map Prod.snd))).flatMap
        (fun fl => summarize v0 (widthOf v0) fl.2 fl.1),
      m.Valid ∧ m.version = v0) ∧
    (∀ a, Covered ((findRanges (sortedDedup (ips.map Prod.snd))).flatMap
        (fun fl => summarize v0 (widthOf v0) fl.2 fl.1)) a ↔
      ∃ n ∈ l, n.prefixlen = n.width ∧ n.inRange a) := by
  have hv0 : ∃ n ∈ l, n.prefixlen = n.width ∧ n.version = v0 := by
    obtain ⟨n, hn, hfull, hp⟩ := (hmem (v0, a0)).mp (by rw [hips]; exact List.mem_cons_self _ _)
    exact ⟨n, hn, hfull, (congrArg Prod.fst hp).symm⟩
  obtain ⟨n0, hn0, hn0full, hn0v⟩ := hv0
  have hv46 : v0 = 4 ∨ v0 = 6 := hn0v ▸ (hl n0 hn0).1
  -- membership of the deduplicated sorted address list
  have hAmem : ∀ b, b ∈ sortedDedup (ips.map Prod.snd) ↔
      ∃ n ∈ l, n.prefixlen = n.width ∧ n.addr = b := by
    intro b
    rw [sortedDedup_mem]
    constructor
    · intro hb
      obtain ⟨p, hp, hpb⟩ := List.mem_map.mp hb
      obtain ⟨n, hn, hfull, hpn⟩ := (hmem p).mp hp
      exact ⟨n, hn, hfull, by rw [← hpb, hpn]⟩
    · rintro ⟨n, hn, hfull, hb⟩
      refine List.mem_map.mpr ⟨(n.version, n.addr), (hmem _).mpr ⟨n, hn, hfull, rfl⟩, hb⟩
  have hAver : ∀ n ∈ l, n.prefixlen = n.width → n.version = v0 := by
    intro n hn hfull
    have h1 : (n.version, n.addr) ∈ ips := (hmem _).mpr ⟨n, hn, hfull, rfl⟩
    have h2 : (v0, a0) ∈ ips := by rw [hips]; exact List.mem_cons_self _ _
    exact hhom _ h1 _ h2
  have hAbound : ∀ b ∈ sortedDedup (ips.map Prod.snd), b < 2 ^ widthOf v0 := by
    intro b hb
    obtain ⟨n, hn, hfull, hbn⟩ := (hAmem b).mp hb
    have hval := hl n hn
    have hb2 := hval.2.2.1
    have hsp := n.size_pos
    have hw : n.width = widthOf v0 := by
      rw [Network.width, hAver n hn hfull]
    rw [← hw]
    omega
  have hA0 : a0 ∈ sortedDedup (ips.map Prod.snd) := by
    rw [sortedDedup_mem]
    refine List.mem_map.mpr ⟨(v0, a0), by rw [hips]; exact List.mem_cons_self _ _, rfl⟩
  cases hA : sortedDedup (ips.map Prod.snd) with
  | nil =>
    rw [hA] at hA0
    exact absurd hA0 (List.not_mem_nil a0)
  | cons h t =>
    have hsorted : List.Pairwise (· < ·) (h :: t) := by
      rw [← hA]
      exact sortedDedup_sorted _
    obtain ⟨hrp, hrcov⟩ := findRangesAux_spec t h h (le_refl h) hsorted
    have hfr : findRanges (h :: t) = findRangesAux h h t := by
      rw [findRanges]
    rw [hfr]
    have hpair : ∀ p ∈ findRangesAux h h t, p.1 ≤ p.2 ∧ p.2 < 2 ^ widthOf v0 := by
      intro p hp
      obtain ⟨h1, h2⟩ := hrp p hp
      refine ⟨h1, ?_⟩
      rcases h2 with h2 | h2
      · refine hAbound p.2 ?_
        rw [hA, h2]
        exact List.mem_cons_self _ _
      · refine hAbound p.2 ?_
        rw [hA]
        exact List.mem_cons_of_mem _ h2
    constructor
    · intro m hm
      obtain ⟨p, hp, hmp⟩ := List.mem_flatMap.mp hm
      obtain ⟨h1, h2⟩ := hpair p hp
      exact (summarize_spec hv46 h2 (p.2 + 1 - p.1) p.1 (le_refl _) h1).1 m hmp
    · intro a
      rw [covered_flatMap]
      constructor
      · rintro ⟨p, hp, hcov⟩
        obtain ⟨h1, h2⟩ := hpair p hp
        have := ((summarize_spec hv46 h2 (p.2 + 1 - p.1) p.1 (le_refl _) h1).2 a).mp hcov
        have hmem2 : a = h ∨ a ∈ t := by
          have := (hrcov a).mp ⟨p, hp, this.1, this.2⟩
          rcases this with ⟨hh1, hh2⟩ | hh
          · left; omega
          · right; exact hh
        have haA : a ∈ sortedDedup (ips.map Prod.snd) := by
          rw [hA]
          rcases hmem2 with rfl | hmem2
          · exact List.mem_cons_self _ _
          · exact List.mem_cons_of_mem _ hmem2
        obtain ⟨n, hn, hfull, hna⟩ := (hAmem a).mp haA
        exact ⟨n, hn, hfull, (host_inRange hfull a).mpr hna⟩
      · rintro ⟨n, hn, hfull, hrange⟩
        have hna : n.addr = a := (host_inRange hfull a).mp hrange
        have haA : a ∈ sortedDedup (ips.map Prod.snd) :=
          (hAmem a).mpr ⟨n, hn, hfull, hna⟩
        rw [hA] at haA
        have hina : (h ≤ a ∧ a ≤ h) ∨ a ∈ t := by
          rcases List.mem_cons.mp haA with rfl | haA
          · exact Or.inl ⟨le_refl _, le_refl _⟩
          · exact Or.inr haA
        obtain ⟨p, hp, hp1, hp2⟩ := (hrcov a).mpr hina
        obtain ⟨h1, h2⟩ := hpair p hp
        refine ⟨p, hp, ?_⟩
        exact ((summarize_spec hv46 h2 (p.2 + 1 - p.1) p.1 (le_refl _) h1).2 a).mpr ⟨hp1, hp2⟩

/-- One-step characterization of `collapse_addresses` when the partition
yields no host addresses. -/
theorem collapse_addresses_nil_eq {l : List Network} {nets : List Network}
    (hpart : partitionLoop l [] [] = some ([], nets)) :
    collapse_addresses l = collapseInternal nets := by
  rw [collapse_addresses, hpart]

/-- One-step characterization of `collapse_addresses` when the partition
yields at least one host address. -/
theorem collapse_addresses_cons_eq {l : List Network} {v0 a0 : Nat}
    {ps : List (Nat × Nat)} {nets : List Network}
    (hpart : partitionLoop l [] [] = some ((v0, a0) :: ps, nets)) :
    collapse_addresses l =
      collapseInternal ((findRanges (sortedDedup (((v0, a0) :: ps).map Prod.snd))).flatMap
        (fun fl => summarize v0 (widthOf v0) fl.2 fl.1) ++ nets) := by
  rw [collapse_addresses, hpart]

/-- Full specification of `collapse_addresses` on a single-family
canonical input. -/
theorem collapse_addresses_spec {v : Nat} {l : List Network}
    (hl : ∀ x ∈ l, x.Valid ∧ x.version = v) :
    ∃ r, collapse_addresses l = some r ∧
      (∀ x ∈ r, x.Valid ∧ x.version = v) ∧
      List.Pairwise netLT r ∧ PDisj r ∧ NoSib r ∧
      (∀ a, Covered r a ↔ Covered l a) := by
  obtain ⟨ips, nets, hpart⟩ :=
    partitionLoop_succeeds l [] [] (fun x hx => (hl x hx).2)
      (fun p hp => absurd hp (List.not_mem_nil p))
      (fun x hx => absurd hx (List.not_mem_nil x))
  obtain ⟨hhom, hnhom, hipsmem, hnetsmem⟩ := partitionLoop_spec l [] [] ips nets hpart
  have hipsmem2 : ∀ p, p ∈ ips ↔
      ∃ n ∈ l, n.prefixlen = n.width ∧ p = (n.version, n.addr) := by
    intro p
    rw [hipsmem p]
    constructor
    · rintro (h | h)
      · exact absurd h (List.not_mem_nil p)
      · exact h
    · exact fun h => Or.inr h
  have hnetsmem2 : ∀ x, x ∈ nets ↔ (x ∈ l ∧ ¬ x.prefixlen = x.width) := by
    intro x
    rw [hnetsmem x]
    constructor
    · rintro (h | h)
      · exact absurd h (List.not_mem_nil x)
      · exact h
    · exact fun h => Or.inr h
  have hnetsv : ∀ x ∈ nets, x.Valid ∧ x.version = v :=
    fun x hx => hl x ((hnetsmem2 x).mp hx).1
  cases hips : ips with
  | nil =>
    rw [hips] at hpart
    obtain ⟨r, hrun, hp1, hp2, hp3, hp4, hp5⟩ := collapseInternal_spec hnetsv
    refine ⟨r, by rw [collapse_addresses_nil_eq hpart, hrun], hp1, hp2, hp3, hp4, ?_⟩
    intro a
    rw [hp5 a]
    have hnofull : ∀ n ∈ l, ¬ n.prefixlen = n.width := by
      intro n hn hfull
      have : (n.version, n.addr) ∈ ips := (hipsmem2 _).mpr ⟨n, hn, hfull, rfl⟩
      rw [hips] at this
      exact absurd this (List.not_mem_nil _)
    refine covered_congr ?_ a
    intro x
    rw [hnetsmem2 x]
    constructor
    · exact fun h => h.1
    · exact fun h => ⟨h, hnofull x h⟩
  | cons p0 ps =>
    obtain ⟨v0, a0⟩ := p0
    rw [hips] at hpart
    have hhom2 : ∀ p ∈ ips, ∀ q ∈ ips, p.1 = q.1 :=
      hhom (fun p hp => absurd hp (List.not_mem_nil p))
    obtain ⟨haddr1, haddr2⟩ := addrs_block_spec (fun x hx => (hl x hx).1)
      hipsmem2 hhom2 hips
    have hv0 : v0 = v := by
      obtain ⟨n, hn, _, hp⟩ := (hipsmem2 (v0, a0)).mp
        (by rw [hips]; exact List.mem_cons_self _ _)
      have h1 : v0 = n.version := congrArg Prod.fst hp
      rw [h1]
      exact (hl n hn).2
    rw [hips] at haddr1 haddr2
    have hinv : ∀ x ∈ (findRanges (sortedDedup (((v0, a0) :: ps).map Prod.snd))).flatMap
        (fun fl => summarize v0 (widthOf v0) fl.2 fl.1) ++ nets,
        x.Valid ∧ x.version = v := by
      intro x hx
      rcases List.mem_append.mp hx with hx | hx
      · obtain ⟨h1, h2⟩ := haddr1 x hx
        exact ⟨h1, by rw [h2, hv0]⟩
      · exact hnetsv x hx
    obtain ⟨r, hrun, hp1, hp2, hp3, hp4, hp5⟩ := collapseInternal_spec hinv
    refine ⟨r, by rw [collapse_addresses_cons_eq hpart, hrun], hp1, hp2, hp3, hp4, ?_⟩
    intro a
    rw [hp5 a, covered_append]
    rw [haddr2 a]
    constructor
    · rintro (⟨n, hn, _, hr⟩ | hcn)
      · exact ⟨n, hn, hr⟩
      · obtain ⟨n, hn, hr⟩ := hcn
        exact ⟨n, ((hnetsmem2 n).mp hn).1, hr⟩
    · rintro ⟨n, hn, hr⟩
      by_cases hfull : n.prefixlen = n.width
      · exact Or.inl ⟨n, hn, hfull, hr⟩
      · exact Or.inr ⟨n, (hnetsmem2 n).mpr ⟨hn, hfull⟩, hr⟩

/-- `collapse_addresses` raises `TypeError` (returns `none`) whenever
the input mixes the two address families. -/
theorem collapse_addresses_mixed {l : List Network}
    (hl : ∀ x ∈ l, x.Valid) {x y : Network} (hx : x ∈ l) (hy : y ∈ l)
    (hver : x.version ≠ y.version) : collapse_addresses l = none := by
  rcases hpart : partitionLoop l [] [] with _ | ⟨ips, nets⟩
  · rw [collapse_addresses, hpart]
  · obtain ⟨hhom, hnhom, hipsmem, hnetsmem⟩ := partitionLoop_spec l [] [] ips nets hpart
    have hipsmem2 : ∀ p, p ∈ ips ↔
        ∃ n ∈ l, n.prefixlen = n.width ∧ p = (n.version, n.addr) := by
      intro p
      rw [hipsmem p]
      constructor
      · rintro (h | h)
        · exact absurd h (List.not_mem_nil p)
        · exact h
      · exact fun h => Or.inr h
    have hnetsmem2 : ∀ z, z ∈ nets ↔ (z ∈ l ∧ ¬ z.prefixlen = z.width) := by
      intro z
      rw [hnetsmem z]
      constructor
      · rintro (h | h)
        · exact absurd h (List.not_mem_nil z)
        · exact h
      · exact fun h => Or.inr h
    have hhom2 : ∀ p ∈ ips, ∀ q ∈ ips, p.1 = q.1 :=
      hhom (fun p hp => absurd hp (List.not_mem_nil p))
    have hnhom2 : ∀ z ∈ nets, ∀ w ∈ nets, z.version = w.version :=
      hnhom (fun z hz => absurd hz (List.not_mem_nil z))
    -- locate the two families in the two buckets
    by_cases hxf : x.prefixlen = x.width
    · have hxips : (x.version, x.addr) ∈ ips := (hipsmem2 _).mpr ⟨x, hx, hxf, rfl⟩
      by_cases hyf : y.prefixlen = y.width
      · exfalso
        have hyips : (y.version, y.addr) ∈ ips := (hipsmem2 _).mpr ⟨y, hy, hyf, rfl⟩
        exact hver (hhom2 _ hxips _ hyips)
      · -- x is a host address, y a proper network
        have hynets : y ∈ nets := (hnetsmem2 y).mpr ⟨hy, hyf⟩
        cases hips : ips with
        | nil =>
          rw [hips] at hxips
          exact absurd hxips (List.not_mem_nil _)
        | cons p0 ps =>
          obtain ⟨v0, a0⟩ := p0
          obtain ⟨haddr1, haddr2⟩ := addrs_block_spec hl hipsmem2 hhom2 hips
          have hv0x : v0 = x.version := by
            rw [hips] at hxips hhom2
            exact (hhom2 _ (List.mem_cons_self _ _) _ hxips)
          rw [hips] at haddr1 haddr2 hpart
          obtain ⟨m, hm, hmr⟩ := (haddr2 x.addr).mpr
            ⟨x, hx, hxf, ⟨le_refl _, by have := x.size_pos; omega⟩⟩
          rw [collapse_addresses_cons_eq hpart]
          refine collapseInternal_mixed ?_ (List.mem_append.mpr (Or.inl hm))
            (List.mem_append.mpr (Or.inr hynets)) ?_
          · intro z hz
            rcases List.mem_append.mp hz with hz | hz
            · exact (haddr1 z hz).1
            · exact hl z ((hnetsmem2 z).mp hz).1
          · rw [(haddr1 m hm).2, hv0x]
            exact hver
    · have hxnets : x ∈ nets := (hnetsmem2 x).mpr ⟨hx, hxf⟩
      by_cases hyf : y.prefixlen = y.width
      · have hyips : (y.version, y.addr) ∈ ips := (hipsmem2 _).mpr ⟨y, hy, hyf, rfl⟩
        cases hips : ips with
        | nil =>
          rw [hips] at hyips
          exact absurd hyips (List.not_mem_nil _)
        | cons p0 ps =>
          obtain ⟨v0, a0⟩ := p0
          obtain ⟨haddr1, haddr2⟩ := addrs_block_spec hl hipsmem2 hhom2 hips
          have hv0y : v0 = y.version := by
            rw [hips] at hyips hhom2
            exact (hhom2 _ (List.mem_cons_self _ _) _ hyips)
          rw [hips] at haddr1 haddr2 hpart
          obtain ⟨m, hm, hmr⟩ := (haddr2 y.addr).mpr
            ⟨y, hy, hyf, ⟨le_refl _, by have := y.size_pos; omega⟩⟩
          rw [collapse_addresses_cons_eq hpart]
          refine collapseInternal_mixed ?_ (List.mem_append.mpr (Or.inl hm))
            (List.mem_append.mpr (Or.inr hxnets)) ?_
          · intro z hz
            rcases List.mem_append.mp hz with hz | hz
            · exact (haddr1 z hz).1
            · exact hl z ((hnetsmem2 z).mp hz).1
          · rw [(haddr1 m hm).2, hv0y]
            exact fun h => hver h.symm
      · exfalso
        have hynets : y ∈ nets := (hnetsmem2 y).mpr ⟨hy, hyf⟩
        exact hver (hnhom2 _ hxnets _ hynets)

/-- A list sorted by the single-family order and homogeneous in version
is a fixed point of the final output sort. -/
theorem mergeSort_tripleLE_id {r : List Network} (hsort : List.Pairwise netLT r)
    (hhom : ∀ x ∈ r, ∀ y ∈ r, x.version = y.version) :
    r.mergeSort tripleLE = r := by
  apply List.mergeSort_of_sorted
  refine hsort.imp_of_mem ?_
  intro a b ha hb hlt
  simp only [tripleLE, Bool.or_eq_true, Bool.and_eq_true, decide_eq_true_eq]
  rcases hlt with h | ⟨h1, h2⟩
  · exact Or.inr ⟨hhom a ha b hb, Or.inl h⟩
  · exact Or.inr ⟨hhom a ha b hb, Or.inr ⟨h1, Nat.le_of_lt h2⟩⟩

/-- Whenever `collapse_addresses` succeeds on valid input, its output is
the canonical single-family form of the input coverage. -/
theorem collapse_addresses_some_spec {l r : List Network}
    (hl : ∀ x ∈ l, x.Valid) (hr : collapse_addresses l = some r) :
    (∀ x ∈ r, x.Valid) ∧ List.Pairwise netLT r ∧ PDisj r ∧ NoSib r ∧
      (∀ a, Covered r a ↔ Covered l a) ∧
      (∀ x ∈ r, ∀ y ∈ r, x.version = y.version) ∧
      (∀ x ∈ r, ∀ y ∈ l, x.version = y.version) := by
  by_cases hm : Mixed l
  · obtain ⟨x, hx, y, hy, hver⟩ := hm
    rw [collapse_addresses_mixed hl hx hy hver] at hr
    cases hr
  · have hhoml : ∀ x ∈ l, ∀ y ∈ l, x.version = y.version := by
      intro x hx y hy
      by_contra hne
      exact hm ⟨x, hx, y, hy, hne⟩
    cases l with
    | nil =>
      obtain ⟨r0, hrun, h1, h2, h3, h4, h5⟩ :=
        @collapse_addresses_spec 4 [] (fun x hx => absurd hx (List.not_mem_nil x))
      rw [hrun] at hr
      have hr0 : r0 = r := by injection hr
      subst hr0
      refine ⟨fun x hx => (h1 x hx).1, h2, h3, h4, h5, ?_, ?_⟩
      · intro x hx y hy
        rw [(h1 x hx).2, (h1 y hy).2]
      · intro x hx y hy
        exact absurd hy (List.not_mem_nil y)
    | cons n t =>
      have hl2 : ∀ x ∈ n :: t, x.Valid ∧ x.version = n.version :=
        fun x hx => ⟨hl x hx, hhoml x hx n (List.mem_cons_self _ _)⟩
      obtain ⟨r0, hrun, h1, h2, h3, h4, h5⟩ := collapse_addresses_spec hl2
      rw [hrun] at hr
      have hr0 : r0 = r := by injection hr
      subst hr0
      refine ⟨fun x hx => (h1 x hx).1, h2, h3, h4, h5, ?_, ?_⟩
      · intro x hx y hy
        rw [(h1 x hx).2, (h1 y hy).2]
      · intro x hx y hy
        rw [(h1 x hx).2]
        exact (hhoml y hy n (List.mem_cons_self _ _)).symm

/-- When `collapse_addresses` succeeds, the final sort of
`collapse_and_sort` is the identity, so the two agree. -/
theorem collapse_and_sort_eq_collapse {l r : List Network}
    (hl : ∀ x ∈ l, x.Valid) (hr : collapse_addresses l = some r) :
    collapse_and_sort l = some r := by
  obtain ⟨h1, h2, h3, h4, h5, h6, h7⟩ := collapse_addresses_some_spec hl hr
  rw [collapse_and_sort, hr]
  simp [mergeSort_tripleLE_id h2 h6]

/-- Whenever `collapse_and_sort` succeeds on valid input, its output is
canonical: valid, homogeneous, strictly sorted, pairwise disjoint,
sibling-free, duplicate-free and coverage-preserving. -/
theorem collapse_and_sort_some_spec {l s : List Network}
    (hl : ∀ x ∈ l, x.Valid) (hs : collapse_and_sort l = some s) :
    collapse_addresses l = some s ∧
    (∀ x ∈ s, x.Valid) ∧ List.Pairwise netLT s ∧ PDisj s ∧ NoSib s ∧
      List.Pairwise tripLT s ∧ s.Nodup ∧
      (∀ a, Covered s a ↔ Covered l a) ∧
      (∀ x ∈ s, ∀ y ∈ s, x.version = y.version) ∧
      (∀ x ∈ s, ∀ y ∈ l, x.version = y.version) := by
  rcases hrc : collapse_addresses l with _ | r
  · rw [collapse_and_sort, hrc] at hs
    simp at hs
  · have heq := collapse_and_sort_eq_collapse hl hrc
    rw [heq] at hs
    have hrs : r = s := by injection hs
    subst hrs
    obtain ⟨h1, h2, h3, h4, h5, h6, h7⟩ := collapse_addresses_some_spec hl hrc
    refine ⟨rfl, h1, h2, h3, h4, ?_, nodup_of_pairwise_netLT h2, h5, h6, h7⟩
    refine h2.imp_of_mem ?_
    intro a b ha hb hlt
    exact Or.inr ⟨h6 a ha b hb, hlt⟩

/-- Applying `collapse_and_sort` to its own successful output returns
the output unchanged. -/
theorem collapse_and_sort_idem {l s : List Network}
    (hl : ∀ x ∈ l, x.Valid) (hs : collapse_and_sort l = some s) :
    collapse_and_sort s = some s := by
  obtain ⟨_, h1, h2, h3, h4, _, _, _, h6, _⟩ := collapse_and_sort_some_spec hl hs
  cases s with
  | nil =>
    obtain ⟨r0, hrun, g1, g2, g3, g4, g5⟩ :=
      @collapse_addresses_spec 4 [] (fun x hx => absurd hx (List.not_mem_nil x))
    have hr0 : r0 = [] :=
      canonical_unique g1 (fun x hx => absurd hx (List.not_mem_nil x)) g2
        List.Pairwise.nil g3 List.Pairwise.nil g4 List.Pairwise.nil g5
    rw [hr0] at hrun
    exact collapse_and_sort_eq_collapse
      (fun x hx => absurd hx (List.not_mem_nil x)) hrun
  | cons n t =>
    have hsv : ∀ x ∈ n :: t, x.Valid ∧ x.version = n.version :=
      fun x hx => ⟨h1 x hx, h6 x hx n (List.mem_cons_self _ _)⟩
    obtain ⟨r2, hrun2, g1, g2, g3, g4, g5⟩ := collapse_addresses_spec hsv
    have hr2 : r2 = n :: t :=
      canonical_unique g1 hsv g2 h2 g3 h3 g4 h4 g5
    rw [hr2] at hrun2
    exact collapse_and_sort_eq_collapse (fun x hx => h1 x hx) hrun2

/-- `apply_exclusions` is `collapse_and_sort` of the subtraction list. -/
theorem apply_exclusions_eq (nets excludes : List Network) :
    apply_exclusions nets excludes = collapse_and_sort (subtractAll nets excludes) := rfl

theorem exsFor_valid {excludes : List Network} (he : ∀ e ∈ excludes, e.Valid)
    (n : Network) : ∀ e ∈ exsFor excludes n, e.Valid := by
  intro e hee
  rw [exsFor] at hee
  by_cases h : n.version == 4
  · rw [if_pos h] at hee
    exact he e (List.mem_filter.mp hee).1
  · rw [if_neg h] at hee
    exact he e (List.mem_filter.mp hee).1

theorem exsFor_mem {excludes : List Network} {n : Network} (hnv : n.Valid)
    {e : Network} : e ∈ exsFor excludes n ↔ e ∈ excludes ∧ e.version = n.version := by
  by_cases h : n.version == 4
  · have h4 : n.version = 4 := by simpa using h
    rw [exsFor, if_pos h]
    simp [List.mem_filter, h4]
  · have h6 : n.version = 6 := by
      rcases hnv.1 with h4 | h6
      · exact absurd (by simpa using h4) h
      · exact h6
    rw [exsFor, if_neg h]
    simp [List.mem_filter, h6]

theorem subtractAll_props {nets excludes : List Network}
    (hn : ∀ x ∈ nets, x.Valid) (he : ∀ e ∈ excludes, e.Valid) :
    ∀ m ∈ subtractAll nets excludes,
      m.Valid ∧ ∃ n ∈ nets, m.version = n.version ∧ RangeSub m n := by
  intro m hm
  rw [subtractAll] at hm
  obtain ⟨n, hn2, hmn⟩ := List.mem_flatMap.mp hm
  obtain ⟨g1, g2, g3⟩ := (subtract_one_spec (hn n hn2) (exsFor_valid he n)).1 m hmn
  exact ⟨g1, n, hn2, g2, g3⟩

/-- Per-family coverage of the working list `out` of `apply_exclusions`:
an address of family `v` survives iff some candidate of that family
covers it and no exclusion of that family does. -/
theorem subtractAll_coveredV {nets excludes : List Network}
    (hn : ∀ x ∈ nets, x.Valid) (he : ∀ e ∈ excludes, e.Valid) (v a : Nat) :
    CoveredV (subtractAll nets excludes) v a ↔
      ∃ n ∈ nets, n.version = v ∧ n.inRange a ∧
        ∀ e ∈ excludes, e.version = v → ¬ e.inRange a := by
  constructor
  · rintro ⟨m, hm, hmv, hmr⟩
    rw [subtractAll] at hm
    obtain ⟨n, hn2, hmn⟩ := List.mem_flatMap.mp hm
    obtain ⟨_, hver, _⟩ := (subtract_one_spec (hn n hn2) (exsFor_valid he n)).1 m hmn
    have hcov := ((subtract_one_spec (hn n hn2) (exsFor_valid he n)).2.2 a).mp
      ⟨m, hmn, hmr⟩
    have hnv2 : n.version = v := by rw [← hver, hmv]
    refine ⟨n, hn2, hnv2, hcov.1, ?_⟩
    intro e hee hev
    exact hcov.2 e ((exsFor_mem (hn n hn2)).mpr ⟨hee, hev.trans hnv2.symm⟩)
      (hev.trans hnv2.symm)
  · rintro ⟨n, hn2, hnv2, hinr, hexcl⟩
    have hcov := ((subtract_one_spec (hn n hn2) (exsFor_valid he n)).2.2 a).mpr
      ⟨hinr, fun e hee hev =>
        hexcl e ((exsFor_mem (hn n hn2)).mp hee).1 (hev.trans hnv2)⟩
    obtain ⟨m, hm, hmr⟩ := hcov
    obtain ⟨_, hver, _⟩ := (subtract_one_spec (hn n hn2) (exsFor_valid he n)).1 m hm
    refine ⟨m, ?_, hver.trans hnv2, hmr⟩
    rw [subtractAll]
    exact List.mem_flatMap.mpr ⟨n, hn2, hm⟩

/-- The two address families both appear in a list exactly when both
have covered addresses. -/
theorem mixed_iff_coveredV {L : List Network} :
    Mixed L ↔ ∃ v w, v ≠ w ∧ (∃ a, CoveredV L v a) ∧ (∃ b, CoveredV L w b) := by
  constructor
  · rintro ⟨x, hx, y, hy, hne⟩
    exact ⟨x.version, y.version, hne,
      ⟨x.addr, x, hx, rfl, ⟨le_refl _, by have := x.size_pos; omega⟩⟩,
      ⟨y.addr, y, hy, rfl, ⟨le_refl _, by have := y.size_pos; omega⟩⟩⟩
  · rintro ⟨v, w, hne, ⟨a, x, hx, hxv, _⟩, ⟨b, y, hy, hyv, _⟩⟩
    exact ⟨x, hx, y, hy, by rw [hxv, hyv]; exact hne⟩

theorem collapse_and_sort_none {l : List Network}
    (h : collapse_addresses l = none) : collapse_and_sort l = none := by
  rw [collapse_and_sort, h]
  rfl

/-- A mixed-family list makes `collapse_and_sort` raise (`none`). -/
theorem collapse_and_sort_of_mixed {l : List Network} (hl : ∀ x ∈ l, x.Valid)
    (hm : Mixed l) : collapse_and_sort l = none := by
  obtain ⟨x, hx, y, hy, hver⟩ := hm
  exact collapse_and_sort_none (collapse_addresses_mixed hl hx hy hver)

/-- Two valid working lists with the same per-family coverage collapse
to the same result — including the raising case. -/
theorem collapse_and_sort_congr {L M : List Network}
    (hL : ∀ x ∈ L, x.Valid) (hM : ∀ x ∈ M, x.Valid)
    (hcov : ∀ v a, CoveredV L v a ↔ CoveredV M v a) :
    collapse_and_sort L = collapse_and_sort M := by
  by_cases hm : Mixed L
  · have hm2 : Mixed M := by
      rw [mixed_iff_coveredV] at hm ⊢
      obtain ⟨v, w, hne, ⟨a, ha⟩, ⟨b, hb⟩⟩ := hm
      exact ⟨v, w, hne, ⟨a, (hcov v a).mp ha⟩, ⟨b, (hcov w b).mp hb⟩⟩
    rw [collapse_and_sort_of_mixed hL hm, collapse_and_sort_of_mixed hM hm2]
  · have hm2 : ¬ Mixed M := by
      intro hmm
      apply hm
      rw [mixed_iff_coveredV] at hmm ⊢
      obtain ⟨v, w, hne, ⟨a, ha⟩, ⟨b, hb⟩⟩ := hmm
      exact ⟨v, w, hne, ⟨a, (hcov v a).mpr ha⟩, ⟨b, (hcov w b).mpr hb⟩⟩
    cases L with
    | nil =>
      cases M with
      | nil => rfl
      | cons m t =>
        have hc : CoveredV (m :: t) m.version m.addr :=
          ⟨m, List.mem_cons_self _ _, rfl, ⟨le_refl _, by have := m.size_pos; omega⟩⟩
        obtain ⟨x, hx, _, _⟩ := (hcov m.version m.addr).mpr hc
        exact absurd hx (List.not_mem_nil x)
    | cons n s =>
      cases M with
      | nil =>
        have hc : CoveredV (n :: s) n.version n.addr :=
          ⟨n, List.mem_cons_self _ _, rfl, ⟨le_refl _, by have := n.size_pos; omega⟩⟩
        obtain ⟨x, hx, _, _⟩ := (hcov n.version n.addr).mp hc
        exact absurd hx (List.not_mem_nil x)
      | cons m t =>
        have hLhom : ∀ x ∈ n :: s, x.Valid ∧ x.version = n.version := by
          intro x hx
          refine ⟨hL x hx, ?_⟩
          by_contra hne
          exact hm ⟨x, hx, n, List.mem_cons_self _ _, hne⟩
        have hMhom : ∀ x ∈ m :: t, x.Valid ∧ x.version = n.version := by
          intro x hx
          refine ⟨hM x hx, ?_⟩
          have hc : CoveredV (m :: t) x.version x.addr :=
            ⟨x, hx, rfl, ⟨le_refl _, by have := x.size_pos; omega⟩⟩
          obtain ⟨y, hy, hyv, _⟩ := (hcov x.version x.addr).mpr hc
          rw [← hyv, (hLhom y hy).2]
        obtain ⟨r, hrun, g1, g2, g3, g4, g5⟩ := collapse_addresses_spec hLhom
        obtain ⟨r2, hrun2, k1, k2, k3, k4, k5⟩ := collapse_addresses_spec hMhom
        have hcc : ∀ a, Covered (n :: s) a ↔ Covered (m :: t) a := by
          intro a
          constructor
          · rintro ⟨x, hx, hxr⟩
            obtain ⟨y, hy, _, hyr⟩ := (hcov x.version a).mp ⟨x, hx, rfl, hxr⟩
            exact ⟨y, hy, hyr⟩
          · rintro ⟨x, hx, hxr⟩
            obtain ⟨y, hy, _, hyr⟩ := (hcov x.version a).mpr ⟨x, hx, rfl, hxr⟩
            exact ⟨y, hy, hyr⟩
        have hrr : r = r2 :=
          canonical_unique g1 k1 g2 k2 g3 k3 g4 k4
            (fun a => (g5 a).trans ((hcc a).trans (k5 a).symm))
        rw [collapse_and_sort_eq_collapse (fun x hx => (hLhom x hx).1) hrun,
          collapse_and_sort_eq_collapse (fun x hx => (hMhom x hx).1) hrun2, hrr]

/-- Permutations of a valid input collapse to the same output. -/
theorem collapse_and_sort_perm {l l2 : List Network}
    (hl : ∀ x ∈ l, x.Valid) (hp : l.Perm l2) :
    collapse_and_sort l = collapse_and_sort l2 := by
  refine collapse_and_sort_congr hl (fun x hx => hl x (hp.mem_iff.mpr hx)) ?_
  intro v a
  constructor
  · rintro ⟨m, hm, h1, h2⟩
    exact ⟨m, hp.mem_iff.mp hm, h1, h2⟩
  · rintro ⟨m, hm, h1, h2⟩
    exact ⟨m, hp.mem_iff.mpr hm, h1, h2⟩

/-- A member of a pairwise-disjoint list is a subnet of another member
only when the two are the same network. -/
theorem no_strict_subnet {s : List Network} (hd : PDisj s) :
    ∀ x ∈ s, ∀ y ∈ s, subnet_of x y = true → x = y := by
  intro x hx y hy hsub
  by_contra hne
  obtain ⟨hr1, hr2⟩ := subnet_of_iff.mp hsub
  have hx1 := x.size_pos
  rcases pdisj_forall hd x hx y hy hne with h | h <;> omega

theorem loadSetLoop_cons (p : String → Option Network) (ln : Nat) (raw : String)
    (rest : List String) (acc : List Network) (ws : List Nat) :
    loadSetLoop p ln (raw :: rest) acc ws =
      (if (pyStrip raw).data.isEmpty || (pyStrip raw).data.head? == some '#' then
        loadSetLoop p (ln + 1) rest acc ws
      else
        match p (pyStrip raw) with
        | some n => loadSetLoop p (ln + 1) rest (if n ∈ acc then acc else acc ++ [n]) ws
        | none => loadSetLoop p (ln + 1) rest acc (ws ++ [ln])) := rfl

theorem loadListLoop_cons (p : String → Option Network) (ln : Nat) (raw : String)
    (rest : List String) (acc : List Network) (ws : List Nat) :
    loadListLoop p ln (raw :: rest) acc ws =
      (if (pyStrip raw).data.isEmpty || (pyStrip raw).data.head? == some '#' then
        loadListLoop p (ln + 1) rest acc ws
      else
        match p (pyStrip raw) with
        | some n => loadListLoop p (ln + 1) rest (acc ++ [n]) ws
        | none => loadListLoop p (ln + 1) rest acc (ws ++ [ln])) := rfl

theorem keptNets_cons (p : String → Option Network) (raw : String)
    (rest : List String) :
    keptNets p (raw :: rest) =
      (if (pyStrip raw).data.isEmpty || (pyStrip raw).data.head? == some '#' then
        keptNets p rest
      else
        match p (pyStrip raw) with
        | some n => n :: keptNets p rest
        | none => keptNets p rest) := rfl

theorem warnLines_cons (p : String → Option Network) (ln : Nat) (raw : String)
    (rest : List String) :
    warnLines p ln (raw :: rest) =
      (if (pyStrip raw).data.isEmpty || (pyStrip raw).data.head? == some '#' then
        warnLines p (ln + 1) rest
      else
        match p (pyStrip raw) with
        | some _ => warnLines p (ln + 1) rest
        | none => ln :: warnLines p (ln + 1) rest) := rfl

/-- Closed form of the `build_multi_asn_feeds.py` loader loop: it keeps
every successful parse in file order — duplicates included — and warns
on every rejected line. -/
theorem loadListLoop_eq (p : String → Option Network) (lines : List String) :
    ∀ ln acc ws, loadListLoop p ln lines acc ws =
      (acc ++ keptNets p lines, ws ++ warnLines p ln lines) := by
  induction lines with
  | nil =>
    intro ln acc ws
    show (acc, ws) = (acc ++ keptNets p [], ws ++ warnLines p ln [])
    show (acc, ws) = (acc ++ [], ws ++ [])
    simp
  | cons raw rest ih =>
    intro ln acc ws
    rw [loadListLoop_cons, keptNets_cons, warnLines_cons]
    by_cases hc : ((pyStrip raw).data.isEmpty ||
        ((pyStrip raw).data.head? == some '#')) = true
    · rw [if_pos hc, if_pos hc, if_pos hc, ih]
    · rw [if_neg hc, if_neg hc, if_neg hc]
      cases hp : p (pyStrip raw) with
      | some n0 =>
        show loadListLoop p (ln + 1) rest (acc ++ [n0]) ws =
          (acc ++ (n0 :: keptNets p rest), ws ++ warnLines p (ln + 1) rest)
        rw [ih]
        simp
      | none =>
        show loadListLoop p (ln + 1) rest acc (ws ++ [ln]) =
          (acc ++ keptNets p rest, ws ++ (ln :: warnLines p (ln + 1) rest))
        rw [ih]
        simp

/-- Behaviour of the `scripts/exclusions.py` loader loop: same warnings
and the same kept networks as the list loader, but deduplicated — the
accumulator stays duplicate-free. -/
theorem loadSetLoop_eq (p : String → Option Network) (lines : List String) :
    ∀ ln acc ws,
      (loadSetLoop p ln lines acc ws).2 = ws ++ warnLines p ln lines ∧
      (∀ n, n ∈ (loadSetLoop p ln lines acc ws).1 ↔ n ∈ acc ∨ n ∈ keptNets p lines) ∧
      (acc.Nodup → (loadSetLoop p ln lines acc ws).1.Nodup) := by
  induction lines with
  | nil =>
    intro ln acc ws
    refine ⟨by simp [loadSetLoop, warnLines], ?_, fun h => h⟩
    intro n
    show n ∈ acc ↔ n ∈ acc ∨ n ∈ keptNets p []
    simp [keptNets]
  | cons raw rest ih =>
    intro ln acc ws
    rw [loadSetLoop_cons]
    by_cases hc : ((pyStrip raw).data.isEmpty ||
        ((pyStrip raw).data.head? == some '#')) = true
    · rw [if_pos hc]
      obtain ⟨ih1, ih2, ih3⟩ := ih (ln + 1) acc ws
      refine ⟨?_, ?_, ih3⟩
      · rw [ih1, warnLines_cons, if_pos hc]
      · intro n
        rw [ih2 n, keptNets_cons, if_pos hc]
    · rw [if_neg hc]
      cases hp : p (pyStrip raw) with
      | some n0 =>
        show (loadSetLoop p (ln + 1) rest (if n0 ∈ acc then acc else acc ++ [n0]) ws).2 =
            ws ++ warnLines p ln (raw :: rest) ∧
          (∀ n, n ∈ (loadSetLoop p (ln + 1) rest
              (if n0 ∈ acc then acc else acc ++ [n0]) ws).1 ↔
            n ∈ acc ∨ n ∈ keptNets p (raw :: rest)) ∧
          (acc.Nodup → (loadSetLoop p (ln + 1) rest
              (if n0 ∈ acc then acc else acc ++ [n0]) ws).1.Nodup)
        obtain ⟨ih1, ih2, ih3⟩ := ih (ln + 1) (if n0 ∈ acc then acc else acc ++ [n0]) ws
        have hk : keptNets p (raw :: rest) = n0 :: keptNets p rest := by
          rw [keptNets_cons, if_neg hc, hp]
        have hw : warnLines p ln (raw :: rest) = warnLines p (ln + 1) rest := by
          rw [warnLines_cons, if_neg hc, hp]
        refine ⟨by rw [ih1, hw], ?_, ?_⟩
        · intro n
          rw [ih2 n, hk]
          by_cases hin : n0 ∈ acc
          · rw [if_pos hin]
            constructor
            · rintro (h | h)
              · exact Or.inl h
              · exact Or.inr (List.mem_cons_of_mem _ h)
            · rintro (h | h)
              · exact Or.inl h
              · rcases List.mem_cons.mp h with rfl | h2
                · exact Or.inl hin
                · exact Or.inr h2
          · rw [if_neg hin]
            constructor
            · rintro (h | h)
              · rcases List.mem_append.mp h with h2 | h2
                · exact Or.inl h2
                · rw [List.mem_singleton.mp h2]
                  exact Or.inr (List.mem_cons_self _ _)
              · exact Or.inr (List.mem_cons_of_mem _ h)
            · rintro (h | h)
              · exact Or.inl (List.mem_append.mpr (Or.inl h))
              · rcases List.mem_cons.mp h with rfl | h2
                · exact Or.inl (List.mem_append.mpr (Or.inr (List.mem_singleton.mpr rfl)))
                · exact Or.inr h2
        · intro hnd
          apply ih3
          by_cases hin : n0 ∈ acc
          · rw [if_pos hin]
            exact hnd
          · rw [if_neg hin]
            simp [List.nodup_append, hnd, hin]
      | none =>
        show (loadSetLoop p (ln + 1) rest acc (ws ++ [ln])).2 =
            ws ++ warnLines p ln (raw :: rest) ∧
          (∀ n, n ∈ (loadSetLoop p (ln + 1) rest acc (ws ++ [ln])).1 ↔
            n ∈ acc ∨ n ∈ keptNets p (raw :: rest)) ∧
          (acc.Nodup → (loadSetLoop p (ln + 1) rest acc (ws ++ [ln])).1.Nodup)
        obtain ⟨ih1, ih2, ih3⟩ := ih (ln + 1) acc (ws ++ [ln])
        have hk : keptNets p (raw :: rest) = keptNets p rest := by
          rw [keptNets_cons, if_neg hc, hp]
        have hw : warnLines p ln (raw :: rest) = ln :: warnLines p (ln + 1) rest := by
          rw [warnLines_cons, if_neg hc, hp]
        refine ⟨?_, ?_, ih3⟩
        · rw [ih1, hw]
          simp
        · intro n
          rw [ih2 n, hk]


theorem apply_exclusions_example_eval :
    apply_exclusions [⟨4, 167772160, 24⟩] [⟨4, 167772224, 27⟩] =
      some [⟨4, 167772160, 26⟩, ⟨4, 167772256, 27⟩, ⟨4, 167772288, 25⟩] := by
  simp [apply_exclusions, subtract_one, subtractLoop, subtractPiece, address_exclude,
    addressExcludeAux, subnet_of, subnetsOf, supernet, Network.broadcast, Network.size,
    Network.width, widthOf, collapse_addresses, partitionLoop, collapseInternal,
    mergeLoop, mergeFuel, tmMeasure, dictGet, sameVersion, sweep, sweepAux,
    List.mergeSort, List.merge, netLE, tripleLE]

theorem normalize_single_eval :
    normalize [⟨4, 167772160, 24⟩] = some [⟨4, 167772160, 24⟩] := by
  simp [normalize, collapse_and_sort, collapse_addresses, partitionLoop,
    collapseInternal, mergeLoop, mergeFuel, tmMeasure, dictGet, sameVersion,
    supernet, Network.width, widthOf, sweep, sweepAux, Network.broadcast,
    Network.size, List.mergeSort, List.merge, netLE, tripleLE]

/-- C1: the addresses covered by `_subtract_one(net, exclusions)` are
exactly those covered by `net` and by no same-family exclusion. -/
theorem subtract_one_coverage {net : Network} (hnv : net.Valid)
    {excludes : List Network} (hev : ∀ e ∈ excludes, e.Valid) :
    ∀ a, Covered (subtract_one net excludes) a ↔
      (net.inRange a ∧ ∀ e ∈ excludes, e.version = net.version → ¬ e.inRange a) :=
  (subtract_one_spec hnv hev).2.2

theorem subtract_one_coverage_witness :
    (Network.Valid ⟨4, 167772160, 24⟩ ∧
      ∀ e ∈ [(⟨4, 167772224, 27⟩ : Network)], e.Valid) ∧
    (∀ a, Covered (subtract_one ⟨4, 167772160, 24⟩ [⟨4, 167772224, 27⟩]) a ↔
      (Network.inRange ⟨4, 167772160, 24⟩ a ∧
        ∀ e ∈ [(⟨4, 167772224, 27⟩ : Network)],
          e.version = (⟨4, 167772160, 24⟩ : Network).version → ¬ e.inRange a)) :=
  ⟨⟨by decide, by decide⟩, subtract_one_coverage (by decide) (by decide)⟩

/-- C2: contrary to the spec, the collapse step fails on a working list
that mixes IPv4 and IPv6: `collapse_and_sort`, `normalize` and
`apply_exclusions` all raise `TypeError` (modelled as `none`) on a
mixed-family input. -/
theorem collapse_and_sort_mixed_family_raises :
    collapse_and_sort [⟨4, 167772160, 24⟩, ⟨6, 0, 64⟩] = none ∧
    normalize [⟨4, 167772160, 24⟩, ⟨6, 0, 64⟩] = none ∧
    apply_exclusions [⟨4, 167772160, 24⟩, ⟨6, 0, 64⟩] [] = none := by
  have h1 : collapse_and_sort [(⟨4, 167772160, 24⟩ : Network), ⟨6, 0, 64⟩] = none :=
    collapse_and_sort_of_mixed (by decide)
      ⟨⟨4, 167772160, 24⟩, by decide, ⟨6, 0, 64⟩, by decide, by decide⟩
  refine ⟨h1, h1, ?_⟩
  rw [apply_exclusions_eq]
  show collapse_and_sort [⟨4, 167772160, 24⟩, ⟨6, 0, 64⟩] = none
  exact h1

/-- C3: `normalize` is idempotent: whenever it returns a result,
re-running it on that result returns the same sequence (and when it
raises, the composite raises the same way). -/
theorem normalize_idempotent {l : List Network} (hl : ∀ x ∈ l, x.Valid) :
    (normalize l).bind normalize = normalize l := by
  rcases hs : normalize l with _ | s
  · rfl
  · exact collapse_and_sort_idem hl hs

theorem normalize_idempotent_witness :
    (∀ x ∈ [(⟨4, 167772160, 25⟩ : Network), ⟨4, 167772288, 25⟩], x.Valid) ∧
    (normalize [⟨4, 167772160, 25⟩, ⟨4, 167772288, 25⟩]).bind normalize =
      normalize [⟨4, 167772160, 25⟩, ⟨4, 167772288, 25⟩] :=
  ⟨by decide, normalize_idempotent (by decide)⟩

/-- C4: every successful output of `apply_exclusions` and of
`normalize`/`collapse_and_sort` is duplicate-free, contains no member
that is a subnet of a different member, and is sorted by the strict
order (family, base address, prefix length). -/
theorem result_collection_invariant {nets excludes l s t : List Network}
    (hn : ∀ x ∈ nets, x.Valid) (he : ∀ e ∈ excludes, e.Valid)
    (hl : ∀ x ∈ l, x.Valid)
    (hs : apply_exclusions nets excludes = some s)
    (ht : normalize l = some t) :
    (s.Nodup ∧ (∀ x ∈ s, ∀ y ∈ s, subnet_of x y = true → x = y) ∧
      List.Pairwise tripLT s) ∧
    (t.Nodup ∧ (∀ x ∈ t, ∀ y ∈ t, subnet_of x y = true → x = y) ∧
      List.Pairwise tripLT t) := by
  have hs2 : collapse_and_sort (subtractAll nets excludes) = some s := by
    rw [← apply_exclusions_eq]
    exact hs
  obtain ⟨_, _, _, hdS, _, htS, hndS, _, _, _⟩ :=
    collapse_and_sort_some_spec (fun m hm => (subtractAll_props hn he m hm).1) hs2
  obtain ⟨_, _, _, hdT, _, htT, hndT, _, _, _⟩ := collapse_and_sort_some_spec hl ht
  exact ⟨⟨hndS, no_strict_subnet hdS, htS⟩, ⟨hndT, no_strict_subnet hdT, htT⟩⟩

theorem result_collection_invariant_witness :
    ((∀ x ∈ [(⟨4, 167772160, 24⟩ : Network)], x.Valid) ∧
      (∀ e ∈ [(⟨4, 167772224, 27⟩ : Network)], e.Valid) ∧
      apply_exclusions [⟨4, 167772160, 24⟩] [⟨4, 167772224, 27⟩] =
        some [⟨4, 167772160, 26⟩, ⟨4, 167772256, 27⟩, ⟨4, 167772288, 25⟩] ∧
      normalize [⟨4, 167772160, 24⟩] = some [⟨4, 167772160, 24⟩]) ∧
    (([(⟨4, 167772160, 26⟩ : Network), ⟨4, 167772256, 27⟩, ⟨4, 167772288, 25⟩].Nodup ∧
      (∀ x ∈ [(⟨4, 167772160, 26⟩ : Network), ⟨4, 167772256, 27⟩, ⟨4, 167772288, 25⟩],
        ∀ y ∈ [(⟨4, 167772160, 26⟩ : Network), ⟨4, 167772256, 27⟩, ⟨4, 167772288, 25⟩],
          subnet_of x y = true → x = y) ∧
      List.Pairwise tripLT
        [(⟨4, 167772160, 26⟩ : Network), ⟨4, 167772256, 27⟩, ⟨4, 167772288, 25⟩]) ∧
     ([(⟨4, 167772160, 24⟩ : Network)].Nodup ∧
      (∀ x ∈ [(⟨4, 167772160, 24⟩ : Network)],
        ∀ y ∈ [(⟨4, 167772160, 24⟩ : Network)], subnet_of x y = true → x = y) ∧
      List.Pairwise tripLT [(⟨4, 167772160, 24⟩ : Network)])) :=
  ⟨⟨by decide, by decide, apply_exclusions_example_eval, normalize_single_eval⟩,
    result_collection_invariant (by decide) (by decide) (by decide)
      apply_exclusions_example_eval normalize_single_eval⟩

/-- C5: an exclusion of the other address family never alters a
candidate: subtracting it returns the singleton candidate unchanged. -/
theorem family_isolation {n e : Network} (hv : n.version ≠ e.version) :
    subtract_one n [e] = [n] := by
  rw [subtract_one, subtractLoop, if_pos hv, subtractLoop]

theorem family_isolation_witness :
    ((⟨4, 167772160, 24⟩ : Network).version ≠ (⟨6, 0, 64⟩ : Network).version ∧
      subtract_one ⟨4, 167772160, 24⟩ [⟨6, 0, 64⟩] = [⟨4, 167772160, 24⟩]) ∧
    ((⟨6, 0, 64⟩ : Network).version ≠ (⟨4, 167772160, 24⟩ : Network).version ∧
      subtract_one ⟨6, 0, 64⟩ [⟨4, 167772160, 24⟩] = [⟨6, 0, 64⟩]) :=
  ⟨⟨by decide, family_isolation (by decide)⟩,
   ⟨by decide, family_isolation (by decide)⟩⟩

/-- C6 (amended): `apply_exclusions([10.0.0.0/24], [10.0.0.64/27])`
returns three networks — 10.0.0.0/26, 10.0.0.96/27 and 10.0.0.128/25 —
covering the rest of the /24 and sorted ascending by base address, not
four /27 networks. -/
theorem apply_exclusions_slash24_minus_slash27 :
    apply_exclusions [⟨4, 167772160, 24⟩] [⟨4, 167772224, 27⟩] =
      some [⟨4, 167772160, 26⟩, ⟨4, 167772256, 27⟩, ⟨4, 167772288, 25⟩] :=
  apply_exclusions_example_eval

/-- C6, counterexample: the result of that call is not a list of four
/27 networks — it has three members of prefix lengths 26, 27 and 25. -/
theorem apply_exclusions_not_four_slash27s :
    ¬ ∃ r, apply_exclusions [⟨4, 167772160, 24⟩] [⟨4, 167772224, 27⟩] = some r ∧
      r.length = 4 ∧ ∀ x ∈ r, x.prefixlen = 27 := by
  rintro ⟨r, hr, hlen, _⟩
  rw [apply_exclusions_example_eval] at hr
  have hr2 : [(⟨4, 167772160, 26⟩ : Network), ⟨4, 167772256, 27⟩, ⟨4, 167772288, 25⟩] = r := by
    injection hr
  rw [← hr2] at hlen
  simp at hlen

/-- C7 (amended): the `scripts/exclusions.py` loader produces a
deduplicated set — blank and `#` lines skipped, unparseable lines
warned about (by line number) and skipped, absent file giving the
empty set — while the `build_multi_asn_feeds.py` loader has the same
line handling but returns the kept parses as a list, duplicates
included. -/
theorem load_exclusions_loader_spec (p : String → Option Network)
    (lines : List String) :
    load_exclusions p none = ([], []) ∧
    load_exclusions_multi p none = ([], []) ∧
    (load_exclusions p (some lines)).1.Nodup ∧
    (∀ n, n ∈ (load_exclusions p (some lines)).1 ↔ n ∈ keptNets p lines) ∧
    (load_exclusions p (some lines)).2 = warnLines p 1 lines ∧
    load_exclusions_multi p (some lines) = (keptNets p lines, warnLines p 1 lines) := by
  obtain ⟨h1, h2, h3⟩ := loadSetLoop_eq p lines 1 [] []
  refine ⟨rfl, rfl, h3 List.nodup_nil, ?_, ?_, ?_⟩
  · intro n
    show n ∈ (loadSetLoop p 1 lines [] []).1 ↔ _
    rw [h2 n]
    simp
  · show (loadSetLoop p 1 lines [] []).2 = _
    rw [h1, List.nil_append]
  · show loadListLoop p 1 lines [] [] = _
    rw [loadListLoop_eq p lines 1 [] []]
    simp

/-- C7, counterexample: on a source repeating one CIDR line, the
`build_multi_asn_feeds.py` loader returns the network twice — a list,
not a deduplicated set — while the `scripts/exclusions.py` loader
returns it once. -/
theorem load_exclusions_multi_keeps_duplicates :
    (load_exclusions_multi parseFixture (some ["10.0.0.0/24", "10.0.0.0/24"])).1 =
      [⟨4, 167772160, 24⟩, ⟨4, 167772160, 24⟩] ∧
    ¬ (load_exclusions_multi parseFixture (some ["10.0.0.0/24", "10.0.0.0/24"])).1.Nodup ∧
    (load_exclusions parseFixture (some ["10.0.0.0/24", "10.0.0.0/24"])).1 =
      [⟨4, 167772160, 24⟩] :=
  ⟨by decide, by decide, by decide⟩

/-- C8: when both day offsets are supplied, the returned window is in
chronological order — if the computed start is after the computed end
the two are swapped. -/
theorem compute_time_window_ordered {now sd ed si ei : Int}
    (h : compute_time_window now (some sd) (some ed) = (some si, some ei)) :
    si ≤ ei := by
  have h2 : (if now - ed * 86400 < now - sd * 86400
      then ((some (now - ed * 86400) : Option Int), (some (now - sd * 86400) : Option Int))
      else (some (now - sd * 86400), some (now - ed * 86400))) = (some si, some ei) := h
  by_cases hlt : now - ed * 86400 < now - sd * 86400
  · rw [if_pos hlt] at h2
    injection h2 with h3 h4
    injection h3 with h3
    injection h4 with h4
    omega
  · rw [if_neg hlt] at h2
    injection h2 with h3 h4
    injection h3 with h3
    injection h4 with h4
    omega

theorem compute_time_window_ordered_witness :
    compute_time_window 0 (some 1) (some 5) = (some (-432000), some (-86400)) ∧
    (-432000 : Int) ≤ -86400 :=
  ⟨by decide, @compute_time_window_ordered 0 1 5 (-432000) (-86400) (by decide)⟩

/-- C9: `apply_exclusions` and `normalize` are deterministic in the
input order: permuting the candidate and exclusion collections leaves
the output sequence unchanged, element for element. -/
theorem apply_exclusions_deterministic
    {nets nets2 excludes excludes2 : List Network}
    (hn : ∀ x ∈ nets, x.Valid) (he : ∀ e ∈ excludes, e.Valid)
    (hpn : nets.Perm nets2) (hpe : excludes.Perm excludes2) :
    apply_exclusions nets excludes = apply_exclusions nets2 excludes2 ∧
    normalize nets = normalize nets2 := by
  have hn2 : ∀ x ∈ nets2, x.Valid := fun x hx => hn x (hpn.mem_iff.mpr hx)
  have he2 : ∀ e ∈ excludes2, e.Valid := fun e hee => he e (hpe.mem_iff.mpr hee)
  constructor
  · rw [apply_exclusions_eq, apply_exclusions_eq]
    refine collapse_and_sort_congr
      (fun m hm => (subtractAll_props hn he m hm).1)
      (fun m hm => (subtractAll_props hn2 he2 m hm).1) ?_
    intro v a
    rw [subtractAll_coveredV hn he v a, subtractAll_coveredV hn2 he2 v a]
    constructor
    · rintro ⟨n, hnm, h1, h2, h3⟩
      exact ⟨n, hpn.mem_iff.mp hnm, h1, h2, fun e hee => h3 e (hpe.mem_iff.mpr hee)⟩
    · rintro ⟨n, hnm, h1, h2, h3⟩
      exact ⟨n, hpn.mem_iff.mpr hnm, h1, h2, fun e hee => h3 e (hpe.mem_iff.mp hee)⟩
  · exact collapse_and_sort_perm hn hpn

theorem apply_exclusions_deterministic_witness :
    ((∀ x ∈ [(⟨4, 167772160, 24⟩ : Network), ⟨4, 167772672, 24⟩], x.Valid) ∧
      (∀ e ∈ [(⟨4, 167772224, 27⟩ : Network)], e.Valid) ∧
      List.Perm [(⟨4, 167772160, 24⟩ : Network), ⟨4, 167772672, 24⟩]
        [⟨4, 167772672, 24⟩, ⟨4, 167772160, 24⟩] ∧
      List.Perm [(⟨4, 167772224, 27⟩ : Network)] [⟨4, 167772224, 27⟩]) ∧
    (apply_exclusions [⟨4, 167772160, 24⟩, ⟨4, 167772672, 24⟩] [⟨4, 167772224, 27⟩] =
        apply_exclusions [⟨4, 167772672, 24⟩, ⟨4, 167772160, 24⟩] [⟨4, 167772224, 27⟩] ∧
      normalize [⟨4, 167772160, 24⟩, ⟨4, 167772672, 24⟩] =
        normalize [⟨4, 167772672, 24⟩, ⟨4, 167772160, 24⟩]) :=
  ⟨⟨by decide, by decide, by decide, by decide⟩,
    apply_exclusions_deterministic (by decide) (by decide) (by decide) (by decide)⟩

/-- C10: every network `_subtract_one` returns is contained in the
original network, and the returned networks are pairwise disjoint. -/
theorem subtract_one_within_and_disjoint {net : Network} (hnv : net.Valid)
    {excludes : List Network} (hev : ∀ e ∈ excludes, e.Valid) :
    (∀ m ∈ subtract_one net excludes, RangeSub m net) ∧
    PDisj (subtract_one net excludes) :=
  ⟨fun m hm => ((subtract_one_spec hnv hev).1 m hm).2.2,
   (subtract_one_spec hnv hev).2.1⟩

theorem subtract_one_within_and_disjoint_witness :
    (Network.Valid ⟨4, 167772160, 24⟩ ∧
      ∀ e ∈ [(⟨4, 167772288, 25⟩ : Network)], e.Valid) ∧
    ((∀ m ∈ subtract_one ⟨4, 167772160, 24⟩ [⟨4, 167772288, 25⟩],
        RangeSub m ⟨4, 167772160, 24⟩) ∧
      PDisj (subtract_one ⟨4, 167772160, 24⟩ [⟨4, 167772288, 25⟩])) :=
  ⟨⟨by decide, by decide⟩, subtract_one_within_and_disjoint (by decide) (by decide)⟩

end ASNFeeds
